import Mathlib

/-!
# Formal model of the Syzygy tablebase probing code (`src/syzygy/tbprobe.cpp`)

This file gives a shallow embedding, in Lean 4, of the data structures and
algorithms of the tablebase prober: the DTZ value remap (`map_score`), the
compressed-stream header parser (`set_sizes` / `calc_symlen`), the
Huffman-pair decoder (`decompress_pairs`), the position-to-index encoder
(`probe_table`), the DTZ most-recently-used table registry
(`probe_dtz_table`), and the probing orchestrator (`probe_ab`,
`probe_wdl`, `probe_dtz_no_ep`, `probe_dtz`).

Machine integers are modelled as `Nat`/`Int` with explicit reductions
`% 2^w` where the C code can overflow.  The move generator, board
representation and legality tests are external collaborators of the
translated file; they are modelled as oracle data carried by an abstract
game tree, exactly as consumed by the prober.  Byte arrays from the
memory-mapped files are modelled as functions `Nat → Nat` (byte at offset)
or as lists, and readers that the C code performs through explicit
little-endian / big-endian helpers are modelled by the corresponding
arithmetic.
-/

namespace Tbprobe

/-! ## WDL scores

Modelled from the spec: the numeric encoding of `WDLScore` (declared in
`tbprobe.h`, which is not part of the translated sources) is, per the
spec's glossary, loss = −2, cursed loss (`WDLCursedLoss`) = −1, draw = 0,
cursed win (`WDLCursedWin`) = +1, win (`WDLWin`) = +2.  This agrees with
every use inside `tbprobe.cpp` (`value - 2`, `wdl_to_dtz[wdl + 2]`,
literal comparisons with `-2` and `2`). -/

def WDLLoss : Int := -2
def WDLCursedLoss : Int := -1
def WDLDraw : Int := 0
def WDLCursedWin : Int := 1
def WDLWin : Int := 2

/-! ## DTZEntry flags and the DTZ value remap (`map_score`) -/

/-- `DTZEntry::Flag::STM` (bit 0). -/
def FlagSTM : Nat := 1
/-- `DTZEntry::Flag::Mapped` (bit 1). -/
def FlagMapped : Nat := 2
/-- `DTZEntry::Flag::WinPlies` (bit 2). -/
def FlagWinPlies : Nat := 4
/-- `DTZEntry::Flag::LossPlies` (bit 3). -/
def FlagLossPlies : Nat := 8

/-- The constant `WDLMap[] = { 1, 3, 0, 2, 0 }` of `map_score`. -/
def WDLMap : List Nat := [1, 3, 0, 2, 0]

/-- The per-side DTZ data consulted by `map_score`: the `flags` byte, the
shared `map[]` byte array and the four `map_idx` offsets (the code picks
these from the pawn-file bucket or the piece bucket; the selection is
already resolved here, as `map_score` reads exactly one of each). -/
structure DTZSide where
  flags : Nat
  mapArr : Nat → Nat
  mapIdx : Nat → Nat

/-- `map_score` for `DTZEntry` (`tbprobe.cpp`, lines 597-623): if the
`Mapped` flag is set, remap the decoded byte through `map[]`; then double
the value unless the flags say the table already stores plies for this
WDL class. -/
def map_score (e : DTZSide) (value : Nat) (wdl : Int) : Nat :=
  let value1 :=
    if e.flags &&& FlagMapped ≠ 0 then
      e.mapArr (e.mapIdx (WDLMap.getD (wdl + 2).toNat 0) + value)
    else value
  if (wdl = WDLWin ∧ e.flags &&& FlagWinPlies = 0)
      ∨ (wdl = WDLLoss ∧ e.flags &&& FlagLossPlies = 0)
      ∨ wdl = WDLCursedWin ∨ wdl = WDLCursedLoss then
    value1 * 2
  else value1

/-- `map_score` for `WDLEntry` (the generic template, line 595):
`value - 2`. -/
def map_score_wdl (value : Nat) : Int := (value : Int) - 2

/-! ## The DTZ most-recently-used registry (`probe_dtz_table`, list part)

`probe_dtz_table` (lines 1172-1229) manages the global `DTZTable` list:
front-of-list check, MRU splice, `push_front` of a freshly created entry,
and a `pop_back` trim guarded by `size > 64` that is only reached when
`DTZEntry::init` succeeded (on failure the function returns early,
keeping the dead entry).  We model the list state and one call's effect
on it.  Decoding does not change the list, so it is omitted here. -/

/-- One `DTZEntry` as far as the registry logic observes it: its two
material keys and whether `init` succeeded (`baseAddress ≠ nullptr`). -/
structure DTZListEntry where
  key : Nat
  key2 : Nat
  baseOk : Bool
  deriving DecidableEq, Repr

/-- The data of one `probe_dtz_table` call that the registry logic
consumes: the position's material key, whether the WDL registry holds an
entry for it (`WDLHash[key]`), the two keys the new `DTZEntry` would get,
and whether `DTZEntry::init` would succeed for its file. -/
structure DTZQuery where
  key : Nat
  wdlExists : Bool
  newKey : Nat
  newKey2 : Nat
  initOk : Bool
  deriving DecidableEq, Repr

/-- Does a list entry match the queried material key (`it->key == key ||
it->key2 == key`)? -/
def entryMatches (k : Nat) (e : DTZListEntry) : Bool :=
  e.key = k || e.key2 = k

/-- The MRU splice: move the first entry matching `k` to the front,
leaving the list unchanged if none matches. -/
def spliceToFront (k : Nat) : List DTZListEntry → List DTZListEntry
  | [] => []
  | e :: rest =>
    if entryMatches k e then e :: rest
    else match spliceToFront k rest with
      | [] => [e]
      | f :: rest' => if entryMatches k f then f :: e :: rest' else e :: f :: rest'

/-- The effect of one `probe_dtz_table` call on the `DTZTable` list
(lines 1176-1221).  The front check, the splice, the `push_front` of the
new entry, the early return on failed `init` (which skips the trim), and
the `pop_back` trim on the success path are reproduced verbatim. -/
def dtzTableStep (q : DTZQuery) (l : List DTZListEntry) : List DTZListEntry :=
  if (l.head?.elim false (entryMatches q.key ·)) then l
  else if ((spliceToFront q.key l).head?.elim false (entryMatches q.key ·)) then
    spliceToFront q.key l
  else if q.wdlExists = false then spliceToFront q.key l
  else if q.initOk = false then
    ⟨q.newKey, q.newKey2, q.initOk⟩ :: spliceToFront q.key l
  else if (⟨q.newKey, q.newKey2, q.initOk⟩ :: spliceToFront q.key l).length > 64 then
    (⟨q.newKey, q.newKey2, q.initOk⟩ :: spliceToFront q.key l).dropLast
  else ⟨q.newKey, q.newKey2, q.initOk⟩ :: spliceToFront q.key l

/-- A sequence of `probe_dtz_table` calls acting on the registry. -/
def dtzTableRun (qs : List DTZQuery) (l : List DTZListEntry) : List DTZListEntry :=
  qs.foldl (fun s q => dtzTableStep q s) l

/-- A sequence of queries with pairwise distinct keys, none of which ever
hits the table: key `i` is `i`, the WDL entry exists, the new entry gets
keys `(i, i)`, and `init` fails (missing `.rtbz` file). -/
def failingQueries (n : Nat) : List DTZQuery :=
  (List.range n).map fun i => ⟨i, true, i, i, false⟩

/-! ## Byte streams

The memory-mapped file is a byte array, modelled as a function
`Nat → Nat` from absolute offsets; `byteAt` truncates to a byte as every
`uint8_t` read does. -/

/-- A `uint8_t` read. -/
def byteAt (d : Nat → Nat) (p : Nat) : Nat := d p % 256

/-- `number<uint16_t, LittleEndian>`: a 16-bit little-endian read. -/
def le16 (d : Nat → Nat) (p : Nat) : Nat := byteAt d p + 256 * byteAt d (p + 1)

/-- `number<uint32_t, LittleEndian>`: a 32-bit little-endian read. -/
def le32 (d : Nat → Nat) (p : Nat) : Nat :=
  byteAt d p + 256 * byteAt d (p + 1) + 65536 * byteAt d (p + 2)
    + 16777216 * byteAt d (p + 3)

/-- `number<uint64_t, BigEndian>`: a 64-bit big-endian read. -/
def be64 (d : Nat → Nat) (p : Nat) : Nat :=
  ((((((byteAt d p * 256 + byteAt d (p + 1)) * 256 + byteAt d (p + 2)) * 256
    + byteAt d (p + 3)) * 256 + byteAt d (p + 4)) * 256 + byteAt d (p + 5)) * 256
    + byteAt d (p + 6)) * 256 + byteAt d (p + 7)

/-- `number<uint32_t, BigEndian>`: a 32-bit big-endian read. -/
def be32 (d : Nat → Nat) (p : Nat) : Nat :=
  ((byteAt d p * 256 + byteAt d (p + 1)) * 256 + byteAt d (p + 2)) * 256
    + byteAt d (p + 3)

/-! ## `calc_symlen` and `set_sizes` -/

/-- The first child of the sympat triple at `3*s`:
`s1 = ((w[1] & 0xF) << 8) | w[0]`. -/
def s1At (data : Nat → Nat) (sp s : Nat) : Nat :=
  ((byteAt data (sp + 3 * s + 1) &&& 0xF) <<< 8) ||| byteAt data (sp + 3 * s)

/-- The second child of the sympat triple at `3*s`:
`s2 = (w[2] << 4) | (w[1] >> 4)`. -/
def s2At (data : Nat → Nat) (sp s : Nat) : Nat :=
  (byteAt data (sp + 3 * s + 2) <<< 4) ||| (byteAt data (sp + 3 * s + 1) >>> 4)

/-- `calc_symlen` (lines 912-934).  The state is the pair of the
`symlen[]` array and the `tmp[]` visited flags.  The C recursion has no
termination guard (a cyclic `sympat` would recurse forever), so the
embedding carries fuel and returns `none` when it runs out.  `symlen`
entries are `uint8_t`, hence the `% 256` on the store.  An out-of-range
child index (possible with crafted data, undefined behaviour in C) makes
`List.set` a no-op, so the visited flag never rises and the fuel runs
out. -/
def calcSymlen (data : Nat → Nat) (sp : Nat) :
    Nat → Nat → List Nat × List Bool → Option (List Nat × List Bool)
  | 0, _, _ => none
  | fuel + 1, s, (symlen, tmp) =>
    if s2At data sp s = 0xFFF then
      some (symlen.set s 0, tmp.set s true)
    else
      match (if tmp.getD (s1At data sp s) false then some (symlen, tmp)
             else calcSymlen data sp fuel (s1At data sp s) (symlen, tmp)) with
      | none => none
      | some (sl1, tm1) =>
        match (if tm1.getD (s2At data sp s) false then some (sl1, tm1)
               else calcSymlen data sp fuel (s2At data sp s) (sl1, tm1)) with
        | none => none
        | some (sl2, tm2) =>
          some (sl2.set s
              ((sl2.getD (s1At data sp s) 0 + sl2.getD (s2At data sp s) 0 + 1) % 256),
            tm2.set s true)

/-- The `for (size_t i = 0; ...) if (!tmp[i]) calc_symlen(d, i, tmp)`
loop of `set_sizes` (lines 969-971). -/
def calcSymlenLoop (data : Nat → Nat) (sp fuel : Nat) :
    List Nat → List Nat × List Bool → Option (List Nat × List Bool)
  | [], st => some st
  | i :: rest, st =>
    if st.2.getD i false then calcSymlenLoop data sp fuel rest st
    else
      match calcSymlen data sp fuel i st with
      | none => none
      | some st' => calcSymlenLoop data sp fuel rest st'

/-- Helper for `baseUn`: recursion on the distance to the top index. -/
def baseUnAux (off : Nat → Nat) : Nat → Nat → Nat
  | 0, _ => 0
  | k + 1, i => ((baseUnAux off k (i + 1) + off i + 2 ^ 64 - off (i + 1)) % 2 ^ 64) / 2

/-- The unshifted `base[]` values after the first loop of `set_sizes`
(lines 954-956): `base[last] = 0` and, walking downward,
`base[i] = (base[i+1] + offset[i] - offset[i+1]) / 2` in `uint64_t`
arithmetic (the subtraction wraps modulo `2^64`). -/
def baseUn (off : Nat → Nat) (last i : Nat) : Nat := baseUnAux off (last - i) i

/-- The output of `set_sizes` for one `PairsData`: the scalar header
fields, the derived `base[]`, the parsed `symlen[]`, the file offsets of
the `offset[]` and `sympat[]` tables, and the updated data pointer. -/
structure PairsDataH where
  singleValue : Bool
  blocksize : Nat
  idxbits : Nat
  num_indices : Nat
  num_blocks : Nat
  real_num_blocks : Nat
  max_len : Nat
  min_len : Nat
  offsetPtr : Nat
  base : List Nat
  sympatPtr : Nat
  symlen : List Nat
  nextPtr : Nat
  deriving Repr, DecidableEq, Inhabited

/-- `set_sizes` (lines 936-974).  `p` is the byte offset of the header
inside the stream and `tbSize` the table size computed by `set_factors`.
The `*data & 0x80` case stores only `min_len` and returns.  Otherwise the
scalar fields, the `base[]` array (first the downward recurrence, then
the `<<= (64 - min_len) - i` shift, both in `uint64_t`), and `symlen[]`
via `calc_symlen` are computed.  A header with `max_len < min_len` would
make `base.resize` explode in C; it is a parse failure here, as is fuel
exhaustion of the unguarded `calc_symlen` recursion. -/
def setSizes (data : Nat → Nat) (p : Nat) (tbSize : Nat) : Option PairsDataH :=
  if byteAt data p &&& 0x80 ≠ 0 then
    some ⟨true, 0, 0, 0, 0, 0, 0, byteAt data (p + 1), 0, [], 0, [], p + 2⟩
  else
    let blocksize := byteAt data (p + 1)
    let idxbits := byteAt data (p + 2)
    let num_indices := (tbSize + 2 ^ idxbits - 1) / 2 ^ idxbits
    let nb := byteAt data (p + 3)
    let rnb := le32 data (p + 4)
    let max_len := byteAt data (p + 8)
    let min_len := byteAt data (p + 9)
    if max_len < min_len then none
    else
      let offsetPtr := p + 10
      let bsize := max_len - min_len + 1
      let base := (List.range bsize).map fun i =>
        (baseUn (fun j => le16 data (offsetPtr + 2 * j)) (max_len - min_len) i
            <<< ((64 - min_len) - i)) % 2 ^ 64
      let slPtr := offsetPtr + 2 * bsize
      let n := le16 data slPtr
      let sympatPtr := slPtr + 2
      match calcSymlenLoop data sympatPtr (n + 1) (List.range n)
          (List.replicate n 0, List.replicate n false) with
      | none => none
      | some st =>
        some ⟨false, blocksize, idxbits, num_indices, nb + rnb, rnb, max_len,
              min_len, offsetPtr, base, sympatPtr, st.1,
              sympatPtr + 3 * n + (n &&& 1)⟩

/-- The per-symbol `symlen` recurrence as stored by `calc_symlen`:
`symlen[s] = 0` at a sentinel pair, else the `uint8_t`-truncated
`symlen[s1] + symlen[s2] + 1`. -/
def SymProp (data : Nat → Nat) (sp : Nat) (sl : List Nat) (s : Nat) : Prop :=
  if s2At data sp s = 0xFFF then sl.getD s 0 = 0
  else sl.getD s 0 =
    (sl.getD (s1At data sp s) 0 + sl.getD (s2At data sp s) 0 + 1) % 256

/-- Both in-range children of a processed non-sentinel symbol carry the
visited flag. -/
def MarkedChildren (data : Nat → Nat) (sp : Nat) (tmp : List Bool) (s : Nat) : Prop :=
  s2At data sp s ≠ 0xFFF →
    (s1At data sp s < tmp.length → tmp.getD (s1At data sp s) false = true) ∧
    (s2At data sp s < tmp.length → tmp.getD (s2At data sp s) false = true)

/-- The `calc_symlen` loop invariant: every visited symbol satisfies the
`symlen` recurrence and has visited in-range children. -/
def SymInv (data : Nat → Nat) (sp : Nat) (st : List Nat × List Bool) : Prop :=
  ∀ s, st.2.getD s false = true →
    SymProp data sp st.1 s ∧ MarkedChildren data sp st.2 s

/-- One or more `calc_symlen` updates: array lengths are preserved, and
symbols already carrying the visited flag keep both the flag and their
`symlen` value. -/
def SymStep (st st' : List Nat × List Bool) : Prop :=
  st'.1.length = st.1.length ∧ st'.2.length = st.2.length ∧
  ∀ x, st.2.getD x false = true →
    st'.2.getD x false = true ∧ st'.1.getD x 0 = st.1.getD x 0

/-- A crafted stream for which the `symlen` recurrence overflows the
`uint8_t` store: symbol 0 is a sentinel leaf, symbols `1..8` are doubling
pairs (`symlen` values `1, 3, 7, ..., 255`) and symbol 9 pairs symbol 8
with symbol 0, so its stored length is `(255 + 0 + 1) % 256 = 0` even
though its sentinel field is not `0xFFF`.  Header: not single-valued,
`max_len = min_len = 1`, one offset entry, 10 symbols. -/
def chainBytes : List Nat :=
  [0, 0, 0, 0, 0, 0, 0, 0, 1, 1, 0, 0, 10, 0,
   0, 240, 255,
   0, 0, 0,
   1, 16, 0,
   2, 32, 0,
   3, 48, 0,
   4, 64, 0,
   5, 80, 0,
   6, 96, 0,
   7, 112, 0,
   8, 0, 0]

/-- `chainBytes` as a byte stream (zero past the end). -/
def chainStream : Nat → Nat := fun i => chainBytes.getD i 0

/-- The `PairsData` parsed from `chainStream`. -/
def chainParsed : PairsDataH := (setSizes chainStream 0 1).getD default

/-! ## `decompress_pairs` (lines 507-573)

The `PairsData` fields consumed by the decoder.  The pointer fields of
the C struct become byte-stream functions; `offsetArr` is the offset
table as re-based by `set_sizes` (`d->offset -= d->min_len`), so the
`offset + l` read becomes a 16-bit read at byte `2 * (l - min_len)`.
`base` and `symlen` are the in-memory vectors. -/
structure DecData where
  idxbits : Nat
  blocksize : Nat
  min_len : Nat
  indextable : Nat → Nat
  sizetable : Nat → Nat
  data : Nat → Nat
  offsetArr : Nat → Nat
  sympat : Nat → Nat
  base : List Nat
  symlen : List Nat

/-- The backward block normalization `while (litidx < 0) litidx +=
d->sizetable[--block] + 1;` — `block` is `uint32_t`, so the
pre-decrement wraps modulo `2^32`.  The C loop is unguarded; fuel
exhaustion leaves a negative `litidx` for the caller to detect. -/
def normDown (sizetable : Nat → Nat) : Nat → Int → Nat → Int × Nat
  | 0, li, b => (li, b)
  | f + 1, li, b =>
    if li < 0 then
      let b' := (b + 2 ^ 32 - 1) % 2 ^ 32
      normDown sizetable f (li + le16 sizetable (2 * b') + 1) b'
    else (li, b)

/-- The forward block normalization `while (litidx > d->sizetable[block])
litidx -= d->sizetable[block++] + 1;`. -/
def normUp (sizetable : Nat → Nat) : Nat → Int → Nat → Int × Nat
  | 0, li, b => (li, b)
  | f + 1, li, b =>
    if (le16 sizetable (2 * b) : Int) < li then
      normUp sizetable f (li - (le16 sizetable (2 * b) + 1)) ((b + 1) % 2 ^ 32)
    else (li, b)

/-- The canonical-Huffman length search `while (code <
d->base[l - d->min_len]) ++l;`.  In the model `base.getD` past the end is
0, which no `code` is below, so `base.length + 1` steps always suffice
(the C loop would instead read out of bounds). -/
def huffLen (base : List Nat) (min_len code : Nat) : Nat → Nat → Nat
  | 0, l => l
  | f + 1, l =>
    if code < base.getD (l - min_len) 0 then huffLen base min_len code f (l + 1)
    else l

/-- The symbol-consuming decode loop of `decompress_pairs` (lines
537-557): find the code length, form the symbol, stop when `litidx` falls
inside it, otherwise consume it, shift the code and refill from the next
big-endian 32-bit word when 32 bits have been consumed.  Returns the
symbol and the remaining `litidx`. -/
def decodeLoop (d : DecData) : Nat → Nat → Nat → Int → Nat → Option (Nat × Int)
  | 0, _, _, _, _ => none
  | f + 1, code, bitcnt, litidx, ptrpos =>
    let l := huffLen d.base d.min_len code (d.base.length + 1) d.min_len
    let sym := le16 d.offsetArr (2 * (l - d.min_len))
      + ((code - d.base.getD (l - d.min_len) 0) >>> (64 - l))
    if litidx < (d.symlen.getD sym 0 : Int) + 1 then some (sym, litidx)
    else
      let litidx' := litidx - ((d.symlen.getD sym 0 : Int) + 1)
      let code' := (code <<< l) % 2 ^ 64
      let bitcnt' := bitcnt + l
      if 32 ≤ bitcnt' then
        decodeLoop d f (code' ||| (be32 d.data ptrpos <<< (bitcnt' - 32)))
          (bitcnt' - 32) litidx' (ptrpos + 4)
      else decodeLoop d f code' bitcnt' litidx' ptrpos

/-- The pair-expansion loop of `decompress_pairs` (lines 561-571):
descend into the left child while `litidx` fits in its subtree,
otherwise consume it and descend into the right child. -/
def expandLoop (d : DecData) : Nat → Nat → Int → Option Nat
  | 0, _, _ => none
  | f + 1, sym, litidx =>
    if d.symlen.getD sym 0 ≠ 0 then
      let w := 3 * sym
      let s1 := ((byteAt d.sympat (w + 1) &&& 0xF) <<< 8) ||| byteAt d.sympat w
      if litidx < (d.symlen.getD s1 0 : Int) + 1 then expandLoop d f s1 litidx
      else
        expandLoop d f
          ((byteAt d.sympat (w + 2) <<< 4) ||| (byteAt d.sympat (w + 1) >>> 4))
          (litidx - ((d.symlen.getD s1 0 : Int) + 1))
    else some sym

/-- `decompress_pairs` (lines 507-573).  The single-value case
(`!d->idxbits`) returns `min_len` immediately.  Otherwise the index is
split into block index and signed literal index, the 6-byte index-table
row is read, the block is normalized, the 64-bit big-endian code word is
loaded from `block << blocksize` (a `uint32_t` product), one symbol is
decoded and its pair expansion is walked; the returned byte is
`sympat[3 * sym]`.  Fuel models the unguarded C loops. -/
def decompress_pairs (fuel : Nat) (d : DecData) (idx : Nat) : Option Nat :=
  if d.idxbits = 0 then some d.min_len
  else
    let blockidx := (idx >>> d.idxbits) % 2 ^ 32
    let litidx0 : Int :=
      ((idx &&& (2 ^ d.idxbits - 1) : Nat) : Int) - ((2 ^ (d.idxbits - 1) : Nat) : Int)
    let block0 := le32 d.indextable (6 * blockidx)
    let litidx1 := litidx0 + le16 d.indextable (6 * blockidx + 4)
    let r1 := normDown d.sizetable fuel litidx1 block0
    if r1.1 < 0 then none
    else
      let r2 := normUp d.sizetable fuel r1.1 r1.2
      if (le16 d.sizetable (2 * r2.2) : Int) < r2.1 then none
      else
        let dataPos := (r2.2 <<< d.blocksize) % 2 ^ 32
        let code0 := be64 d.data dataPos
        match decodeLoop d fuel code0 0 r2.1 (dataPos + 8) with
        | none => none
        | some sl =>
          match expandLoop d fuel sl.1 sl.2 with
          | none => none
          | some symf => some (byteAt d.sympat (3 * symf))

/-- A concrete `DecData` with `idxbits = 0` and `min_len = 5`. -/
def singleDec : DecData :=
  ⟨0, 3, 5, fun i => i, fun i => 2 * i, fun i => 3 * i, fun i => 5 * i,
    fun i => 7 * i, [4, 2, 0], [1, 0]⟩

/-- A second concrete `DecData` with `idxbits = 0`, `min_len = 5` and
entirely different tables. -/
def singleDec' : DecData :=
  ⟨0, 9, 5, fun i => i + 1, fun i => 9 * i, fun i => i * i, fun _ => 77,
    fun i => i % 3, [88], [7]⟩

/-! ## The probing orchestrator over an abstract game tree

`probe_ab`, `probe_wdl`, `probe_dtz_no_ep` and `probe_dtz` consume a
position only through external collaborators: the move generator
(`generate<CAPTURES | EVASIONS | NON_EVASIONS | QUIETS>`,
`add_underprom_caps` output), per-move predicates (`pos.capture`,
`type_of(move) == ENPASSANT`, `pos.legal`, `type_of(moved_piece)`,
`st.rule50 == 0` after the move), `pos.checkers()`, `pos.ep_square()`,
`do_move`/`undo_move`, and the two table lookups (`probe_wdl_table`,
`probe_dtz_table`).  A position is therefore modelled as a finite game
tree: each node carries the oracle answers at that position and, for
each generated move, its attribute bits and the child position.  The
`tr` field of a result is ghost instrumentation: one `Bool` per table
lookup performed, `false` for a lookup that failed with `success = 0`
(table absent); the value and success components mirror the C code
exactly. -/

/-- The per-move oracle bits the orchestrator reads. -/
structure MAttr where
  isCap : Bool
  isEp : Bool
  isLegal : Bool
  isPawnMove : Bool
  zeroing : Bool
  deriving DecidableEq, Repr

/-- Outcome of `probe_dtz_table` for a position: table absent
(`success = 0`), wrong side to move (`success = -1`, see `probe_table`
with `check_dtz_stm`), or a decoded value. -/
inductive DtzRes where
  | fail
  | wrongSide
  | ok (v : Int)
  deriving DecidableEq, Repr

/-- A probe outcome: returned value, the `success` out-parameter, and the
ghost trace of table lookups. -/
structure ABRes where
  val : Int
  succ : Int
  tr : List Bool
  deriving DecidableEq, Repr

/-- An abstract position: `checkers`/`ep_square` flags, the WDL table
lookup outcome (`none` models `success = 0`), the DTZ table lookup
outcome (a function of the `wdl` argument passed to `probe_dtz_table`),
and the five generated move lists: `capsU` is `generate<CAPTURES>` after
`add_underprom_caps` (as iterated by `probe_ab`), `caps` is the plain
`generate<CAPTURES>` (as iterated by the en-passant sections), then
evasions, non-evasions, and quiets. -/
inductive PTree where
  | node (checkers hasEp : Bool) (wdlTable : Option Int) (dtzTable : Int → DtzRes)
      (capsU caps evas nonevas quiets : List (MAttr × PTree))

mutual

/-- `probe_ab` (lines 1249-1304) over the game tree: in check it iterates
the evasions, otherwise the captures extended by `add_underprom_caps`. -/
def probeAB : PTree → Int → Int → ABRes
  | .node ck _ wt _ cu _ e _ _, a, b =>
    probeABLoop wt (if ck then e else cu) a b
termination_by t _ _ => (sizeOf t, 1)
decreasing_by
  all_goals simp_wf
  split
  · exact Prod.Lex.left _ _ (by simp_arith)
  · exact Prod.Lex.left _ _ (by simp_arith)

/-- The capture loop of `probe_ab`: filter non-en-passant legal captures,
recurse with negated bounds, raise `alpha`, cut off at `value >= beta`
with `success = 2`; after the loop read the WDL table and return `alpha`
with `success = 1 + (alpha > 0)` when `alpha >= value`, else the table
value with `success = 1`. -/
def probeABLoop : Option Int → List (MAttr × PTree) → Int → Int → ABRes
  | wt, [], a, _ =>
    match wt with
    | none => ⟨0, 0, [false]⟩
    | some w =>
      if w ≤ a then ⟨a, if 0 < a then 2 else 1, [true]⟩
      else ⟨w, 1, [true]⟩
  | wt, (m, ch) :: rest, a, b =>
    if m.isCap && !m.isEp && m.isLegal then
      let r := probeAB ch (-b) (-a)
      if r.succ = 0 then ⟨0, 0, r.tr⟩
      else if a < -r.val then
        if b ≤ -r.val then ⟨-r.val, 2, r.tr⟩
        else
          let r' := probeABLoop wt rest (-r.val) b
          ⟨r'.val, r'.succ, r.tr ++ r'.tr⟩
      else
        let r' := probeABLoop wt rest a b
        ⟨r'.val, r'.succ, r.tr ++ r'.tr⟩
    else probeABLoop wt rest a b
termination_by _ l _ _ => (sizeOf l, 0)
decreasing_by
  all_goals simp_wf
  all_goals exact Prod.Lex.left _ _ (by simp_arith)

end

/-- All table lookups in the tree succeed: the WDL table value is present
at every node. -/
inductive NoFail : PTree → Prop where
  | mk (ck ep : Bool) (wt : Option Int) (dt : Int → DtzRes)
      (cu c e n q : List (MAttr × PTree)) :
      wt ≠ none →
      (∀ p ∈ cu, NoFail p.2) → (∀ p ∈ c, NoFail p.2) →
      (∀ p ∈ e, NoFail p.2) → (∀ p ∈ n, NoFail p.2) →
      (∀ p ∈ q, NoFail p.2) →
      NoFail (.node ck ep wt dt cu c e n q)

mutual

/-- The specification of `probe_ab` as the spec phrases it: "generate
non-ep captures; recurse with negated bounds; if any cutoff at
`value ≥ β`, return immediately with `success = 2`; else read the raw WDL
and return `max(α, wdl)`" with `success = 2` iff the raised `α` is at
least the table value and positive, else `success = 1`.  Compare
`probeAB`. -/
def probeABSpec : PTree → Int → Int → Int × Int
  | .node ck _ wt _ cu _ e _ _, a, b =>
    probeABSpecLoop wt (if ck then e else cu) a b
termination_by t _ _ => (sizeOf t, 1)
decreasing_by
  all_goals simp_wf
  split
  · exact Prod.Lex.left _ _ (by simp_arith)
  · exact Prod.Lex.left _ _ (by simp_arith)

/-- The capture walk of `probeABSpec`: raise `α` by `max`, cut off at
`value ≥ β`, and finish with `(max α wdl, 1 + (α ≥ wdl ∧ α > 0))`. -/
def probeABSpecLoop : Option Int → List (MAttr × PTree) → Int → Int → Int × Int
  | wt, [], a, _ =>
    let w := wt.getD 0
    (max a w, if w ≤ a ∧ 0 < a then 2 else 1)
  | wt, (m, ch) :: rest, a, b =>
    if m.isCap && !m.isEp && m.isLegal then
      let v := -(probeABSpec ch (-b) (-a)).1
      if b ≤ v then (v, 2)
      else probeABSpecLoop wt rest (max a v) b
    else probeABSpecLoop wt rest a b
termination_by _ l _ _ => (sizeOf l, 0)
decreasing_by
  all_goals simp_wf
  all_goals exact Prod.Lex.left _ _ (by simp_arith)

end

/-- The constant `wdl_to_dtz[] = { -1, -101, 0, 101, 1 }`. -/
def wdl_to_dtz : List Int := [-1, -101, 0, 101, 1]

/-- Is there a legal non-en-passant move in the generated list?  This is
the `for (moves ...) { if (type == ENPASSANT) continue; if (legal) break }`
scan of `probe_wdl` (lines 1708-1715) and `probe_dtz` (1512-1519). -/
def hasLegalNonEp (l : List (MAttr × PTree)) : Bool :=
  l.any fun mc => !mc.1.isEp && mc.1.isLegal

/-- Is there a legal move in the generated list (the `QUIETS` rescan)? -/
def hasLegalAny (l : List (MAttr × PTree)) : Bool :=
  l.any fun mc => mc.1.isLegal

/-- The en-passant loop shared by `probe_wdl` (lines 1687-1702) and
`probe_dtz` (1477-1492): for each legal en-passant capture probe the
child with the full window and keep the maximum of `v0 = -probe_ab(...)`
in `v1`.  Returns `(failed, v1, success, trace)`; `success` is the
threaded out-parameter (the last child's value, or the incoming one when
no en-passant capture is processed). -/
def epLoop : List (MAttr × PTree) → Int → Int → Bool × Int × Int × List Bool
  | [], v1, s => (false, v1, s, [])
  | (m, ch) :: rest, v1, s =>
    if m.isEp && m.isLegal then
      let r := probeAB ch (-2) 2
      if r.succ = 0 then (true, v1, 0, r.tr)
      else
        let rr := epLoop rest (if v1 < -r.val then -r.val else v1) r.succ
        (rr.1, rr.2.1, rr.2.2.1, r.tr ++ rr.2.2.2)
    else epLoop rest v1 s

/-- `Tablebases::probe_wdl` (lines 1661-1735): probe with the full
window; without an en-passant square return that result; otherwise
propagate failure, probe every legal en-passant capture, and combine by
`if (v1 >= v) v = v1` — except that a drawish `v = 0` stands unless the
en-passant capture is the only legal move. -/
def probeWDL (t : PTree) : ABRes :=
  match t with
  | .node ck ep wt dt cu c e n q =>
    let r := probeAB (.node ck ep wt dt cu c e n q) (-2) 2
    if !ep then r
    else if r.succ = 0 then ⟨0, 0, r.tr⟩
    else
      let el := epLoop (if ck then e else c) (-3) r.succ
      if el.1 then ⟨0, 0, r.tr ++ el.2.2.2⟩
      else
        let v1 := el.2.1
        let s' := el.2.2.1
        let tr' := r.tr ++ el.2.2.2
        let v := r.val
        if -3 < v1 then
          if v ≤ v1 then ⟨v1, s', tr'⟩
          else if v = 0 then
            if hasLegalNonEp (if ck then e else c) then ⟨v, s', tr'⟩
            else if !ck && hasLegalAny q then ⟨v, s', tr'⟩
            else ⟨v1, s', tr'⟩
          else ⟨v, s', tr'⟩
        else ⟨v, s', tr'⟩

/-- Outcome of the pawn-move loop of `probe_dtz_no_ep`: a failed child
probe, an early `return v == WDLWin ? 1 : 101`, or fall-through with the
threaded `success` value and accumulated trace. -/
inductive DtzStep where
  | fail (tr : List Bool)
  | ret (r : ABRes)
  | cont (s : Int) (tr : List Bool)

/-- The pawn-move loop of `probe_dtz_no_ep` (lines 1337-1353): for every
legal non-capturing pawn move probe the child with window
`(WDLLoss, -wdl + WDLCursedWin)`; if the child achieves `v == wdl`, a
zeroing continuation exists and the function returns `1` or `101`. -/
def pawnLoop (wdl : Int) : List (MAttr × PTree) → Int → DtzStep
  | [], s => .cont s []
  | (m, ch) :: rest, s =>
    if m.isPawnMove && !m.isCap && m.isLegal then
      let r := probeAB ch (-2) (-wdl + 1)
      if r.succ = 0 then .fail r.tr
      else if -r.val = wdl then .ret ⟨if wdl = 2 then 1 else 101, r.succ, r.tr⟩
      else
        match pawnLoop wdl rest r.succ with
        | .fail tr => .fail (r.tr ++ tr)
        | .ret rr => .ret ⟨rr.val, rr.succ, r.tr ++ rr.tr⟩
        | .cont s' tr => .cont s' (r.tr ++ tr)
    else pawnLoop wdl rest s

mutual

/-- `probe_dtz_no_ep` (lines 1309-1424): full-window `probe_ab`; return 0
on draw; `±1 / ±101` on `success == 2`; for wins, look for a zeroing pawn
continuation; consult the DTZ table and return `±(1 + value [+ 100])`
unless it answered "wrong side"; otherwise reconstruct recursively: for
wins minimize `-probe_dtz + 1` over legal non-capturing non-pawn moves,
for losses minimize over all legal moves, scoring zeroing moves through a
`probe_ab` with window `(WDLCursedWin, WDLWin)`. -/
def probeDTZNoEp : PTree → ABRes
  | .node ck ep wt dt cu c e n q =>
    let r := probeAB (.node ck ep wt dt cu c e n q) (-2) 2
    if r.succ = 0 then ⟨0, 0, r.tr⟩
    else
      let wdl := r.val
      if wdl = 0 then ⟨0, r.succ, r.tr⟩
      else if r.succ = 2 then ⟨if wdl = 2 then 1 else 101, 2, r.tr⟩
      else
        match (if 0 < wdl then pawnLoop wdl (if ck then e else n) r.succ
               else DtzStep.cont r.succ []) with
        | .fail tr => ⟨0, 0, r.tr ++ tr⟩
        | .ret rr => ⟨rr.val, rr.succ, r.tr ++ rr.tr⟩
        | .cont s1 tr1 =>
          match dt wdl with
          | .fail =>
            let dtzv : Int := if wdl % 2 ≠ 0 then 101 else 1
            ⟨if 0 ≤ wdl then dtzv else -dtzv, 0, r.tr ++ tr1 ++ [false]⟩
          | .ok v =>
            let dtzv : Int := (1 + v) + (if wdl % 2 ≠ 0 then 100 else 0)
            ⟨if 0 ≤ wdl then dtzv else -dtzv, s1, r.tr ++ tr1 ++ [true]⟩
          | .wrongSide =>
            if 0 < wdl then
              let wl := winLoop (if ck then e else n) 0xffff (-1)
              if wl.1 then ⟨0, 0, r.tr ++ tr1 ++ [true] ++ wl.2.2.2⟩
              else ⟨wl.2.1, wl.2.2.1, r.tr ++ tr1 ++ [true] ++ wl.2.2.2⟩
            else
              let ll := lossLoop wdl (if ck then e else n) (-1) (-1)
              if ll.1 then ⟨0, 0, r.tr ++ tr1 ++ [true] ++ ll.2.2.2⟩
              else ⟨ll.2.1, ll.2.2.1, r.tr ++ tr1 ++ [true] ++ ll.2.2.2⟩
termination_by t => (sizeOf t, 0)
decreasing_by
  all_goals simp_wf
  all_goals split
  all_goals exact Prod.Lex.left _ _ (by simp_arith)

/-- The winning reconstruction loop (lines 1364-1385): over legal
non-capturing non-pawn moves, minimize `v + 1` over positive
`v = -probe_dtz(child)`.  Returns `(failed, best, success, trace)`. -/
def winLoop : List (MAttr × PTree) → Int → Int → Bool × Int × Int × List Bool
  | [], best, s => (false, best, s, [])
  | (m, ch) :: rest, best, s =>
    if !m.isCap && !m.isPawnMove && m.isLegal then
      let r := probeDTZ ch
      if r.succ = 0 then (true, 0, 0, r.tr)
      else
        let best' := if 0 < -r.val ∧ -r.val + 1 < best then -r.val + 1 else best
        let rr := winLoop rest best' r.succ
        (rr.1, rr.2.1, rr.2.2.1, r.tr ++ rr.2.2.2)
    else winLoop rest best s
termination_by l _ _ => (sizeOf l, 1)
decreasing_by
  all_goals simp_wf
  all_goals exact Prod.Lex.left _ _ (by simp_arith)

/-- The losing reconstruction loop (lines 1387-1423): over all legal
moves, minimize `v`, where a zeroing move scores `-1` when `wdl == -2`,
else `0` or `-101` from a `probe_ab` with window
`(WDLCursedWin, WDLWin)`, and a non-zeroing move scores
`-probe_dtz(child) - 1`. -/
def lossLoop (wdl : Int) : List (MAttr × PTree) → Int → Int → Bool × Int × Int × List Bool
  | [], best, s => (false, best, s, [])
  | (m, ch) :: rest, best, s =>
    if m.isLegal then
      if m.zeroing then
        if wdl = -2 then
          let best' := if -1 < best then -1 else best
          lossLoop wdl rest best' s
        else
          let r := probeAB ch 1 2
          if r.succ = 0 then (true, 0, 0, r.tr)
          else
            let v : Int := if r.val = 2 then 0 else -101
            let best' := if v < best then v else best
            let rr := lossLoop wdl rest best' r.succ
            (rr.1, rr.2.1, rr.2.2.1, r.tr ++ rr.2.2.2)
      else
        let r := probeDTZ ch
        if r.succ = 0 then (true, 0, 0, r.tr)
        else
          let v : Int := -r.val - 1
          let best' := if v < best then v else best
          let rr := lossLoop wdl rest best' r.succ
          (rr.1, rr.2.1, rr.2.2.1, r.tr ++ rr.2.2.2)
    else lossLoop wdl rest best s
termination_by l _ _ => (sizeOf l, 1)
decreasing_by
  all_goals simp_wf
  all_goals exact Prod.Lex.left _ _ (by simp_arith)

/-- `probe_dtz` (lines 1452-1538): `probe_dtz_no_ep` plus explicit
en-passant handling; en-passant candidates go through `wdl_to_dtz` and
the fixed tie-break cascade, with the final branch keeping the
en-passant value only if no other legal move exists. -/
def probeDTZ : PTree → ABRes
  | .node ck ep wt dt cu c e n q =>
    let r := probeDTZNoEp (.node ck ep wt dt cu c e n q)
    if !ep then r
    else if r.succ = 0 then ⟨0, 0, r.tr⟩
    else
      let el := epLoop (if ck then e else c) (-3) r.succ
      if el.1 then ⟨0, 0, r.tr ++ el.2.2.2⟩
      else
        let v1 := el.2.1
        let s' := el.2.2.1
        let tr' := r.tr ++ el.2.2.2
        let v := r.val
        if -3 < v1 then
          let v1d := wdl_to_dtz.getD (v1 + 2).toNat 0
          let vnew :=
            if v < -100 then (if 0 ≤ v1d then v1d else v)
            else if v < 0 then (if 0 ≤ v1d ∨ v1d < -100 then v1d else v)
            else if 100 < v then (if 0 < v1d then v1d else v)
            else if 0 < v then (if v1d = 1 then v1d else v)
            else if 0 ≤ v1d then v1d
            else if hasLegalNonEp (if ck then e else c) then v
            else if !ck && hasLegalAny q then v
            else v1d
          ⟨vnew, s', tr'⟩
        else ⟨v, s', tr'⟩
termination_by t => (sizeOf t, 1)
decreasing_by
  all_goals simp_wf
  exact Prod.Lex.right _ (by omega)

end

/-- A trace without failed lookups. -/
def CleanTr (tr : List Bool) : Prop := false ∉ tr

/-- A trace whose final lookup failed and is the only failure: the probe
stopped at the first failed lookup, performing no further lookups and
never retrying. -/
def FailTr (tr : List Bool) : Prop := ∃ pre, tr = pre ++ [false] ∧ false ∉ pre

/-- The short-circuit property of a probe result: `success = 0` exactly
when a lookup failed, and in that case the failed lookup is the last one
performed. -/
def FailLast (tr : List Bool) (s : Int) : Prop :=
  if s = 0 then FailTr tr else CleanTr tr

/-- The short-circuit property for a pawn-loop outcome. -/
def StepOk : DtzStep → Prop
  | .fail tr => FailTr tr
  | .ret rr => CleanTr rr.tr ∧ rr.succ ≠ 0
  | .cont s' tr => CleanTr tr ∧ s' ≠ 0

/-- A leaf position: no moves, WDL table value −2. -/
def abLeaf : PTree := .node false false (some (-2)) (fun _ => .fail) [] [] [] [] []

/-- A position with one legal non-en-passant capture leading to `abLeaf`
and WDL table value 0. -/
def abTree : PTree :=
  .node false false (some 0) (fun _ => .fail)
    [(⟨true, false, true, false, true⟩, abLeaf)] [] [] [] []

/-- A small well-formed stream exercising the `base[]` recurrence:
`max_len = 2`, `min_len = 1`, offsets `[3, 1]`, one sentinel symbol. -/
def c8Bytes : List Nat :=
  [0, 0, 0, 0, 0, 0, 0, 0, 2, 1, 3, 0, 1, 0, 1, 0, 0, 240, 255]

/-- `c8Bytes` as a byte stream (zero past the end). -/
def c8Stream : Nat → Nat := fun i => c8Bytes.getD i 0

/-- The `PairsData` parsed from `c8Stream`. -/
def c8Parsed : PairsDataH := (setSizes c8Stream 0 1).getD default

/-- The `Flap[]` table (lines 165-175): pawn-square ordering keys used to
pick the leading pawn. -/
def Flap : List Nat :=
  [0,  0,  0,  0,  0,  0,  0,  0,
   0,  6, 12, 18, 18, 12,  6,  0,
   1,  7, 13, 19, 19, 13,  7,  1,
   2,  8, 14, 20, 20, 14,  8,  2,
   3,  9, 15, 21, 21, 15,  9,  3,
   4, 10, 16, 22, 22, 16, 10,  4,
   5, 11, 17, 23, 23, 17, 11,  5,
   0,  0,  0,  0,  0,  0,  0,  0]

/-- The position data consulted by the `probe_table` prefix up to the DTZ
side-to-move check: side to move (0 = WHITE, 1 = BLACK), material key and
the pawn squares of each colour. -/
structure TBPos where
  sideToMove : Nat
  materialKey : Nat
  whitePawnSqs : List Nat
  blackPawnSqs : List Nat

/-- The `DTZEntry` fields consulted by the `probe_table` prefix up to the
DTZ side-to-move check: `symmetric`, `hasPawns`, the stored material
`key`, the `piece.flags` byte, the per-file `pawn.file[f].flags` bytes
and `item(entry->pawn, 0, 0).precomp->pieces[0]` (the lead-pawn piece
code). -/
structure DTZEntryT where
  symmetric : Bool
  hasPawns : Bool
  key : Nat
  pieceFlags : Nat
  pawnFlags : Nat → Nat
  pawnPiece0 : Nat

/-- The flags byte consulted for a bucket: `entry->pawn.file[f].flags`
when the entry has pawns, else `entry->piece.flags` (lines 582-583). -/
def DTZEntryT.flagsAt (e : DTZEntryT) (f : Nat) : Nat :=
  if e.hasPawns then e.pawnFlags f else e.pieceFlags

/-- `check_dtz_stm` for DTZ entries (lines 579-587):
`(flags & STM) == stm || (entry->symmetric && !entry->hasPawns)`. -/
def check_dtz_stm (e : DTZEntryT) (f : Nat) (stm : Nat) : Bool :=
  (e.flagsAt f &&& FlagSTM == stm) || (e.symmetric && !e.hasPawns)

/-- The canonical side to move computed by `probe_table` (lines 644-660):
`WHITE` for a symmetric entry, else
`(pos.material_key() != entry->key) ^ pos.side_to_move()`. -/
def canonicalStm (e : DTZEntryT) (pos : TBPos) : Nat :=
  if e.symmetric then 0
  else (if pos.materialKey ≠ e.key then 1 else 0) ^^^ pos.sideToMove

/-- `flipColor` (lines 645, 653): `stm * 8` for a symmetric entry, else
`(pos.material_key() != entry->key) * 8`. -/
def probeFlipColor (e : DTZEntryT) (pos : TBPos) : Nat :=
  if e.symmetric then pos.sideToMove * 8
  else (if pos.materialKey ≠ e.key then 1 else 0) * 8

/-- `flipSquares` (lines 646, 654): `stm * 070` (octal, = 56) for a
symmetric entry, else `(pos.material_key() != entry->key) * 070`. -/
def probeFlipSquares (e : DTZEntryT) (pos : TBPos) : Nat :=
  if e.symmetric then pos.sideToMove * 56
  else (if pos.materialKey ≠ e.key then 1 else 0) * 56

/-- Stable insertion of a square into a list sorted by ascending `Flap[]`
(the `flap` comparator of line 684): an earlier element goes before later
elements with an equal key, as `std::sort` does on the small arrays used
here (libstdc++ insertion-sorts ranges below 16 elements). -/
def flapInsert (s : Nat) : List Nat → List Nat
  | [] => [s]
  | t :: ts =>
    if Flap.getD s 0 ≤ Flap.getD t 0 then s :: t :: ts else t :: flapInsert s ts

/-- Stable sorting by ascending `Flap[]` (`std::sort(squares, squares +
size, flap)`, line 685; squares with equal `Flap[]` keys are horizontal
mirrors of one another, so the head's normalized file does not depend on
the tie order). -/
def flapSort : List Nat → List Nat
  | [] => []
  | s :: ss => flapInsert s (flapSort ss)

/-- The table file probed by `probe_table` (lines 669-689): for a pawnful
entry, flip the lead-pawn squares, order them by `Flap[]` and take the
file of the first, horizontally flipped to the a-d range; `FILE_A` for a
pawnless entry. -/
def probeTbFile (e : DTZEntryT) (pos : TBPos) : Nat :=
  if e.hasPawns then
    let pc := e.pawnPiece0 ^^^ probeFlipColor e pos
    let pawns := if pc / 8 = 0 then pos.whitePawnSqs else pos.blackPawnSqs
    let sorted := flapSort (pawns.map (fun s => s ^^^ probeFlipSquares e pos))
    let s0 := sorted.headD 0
    let f := s0 % 8
    if 3 < f then (s0 ^^^ 7) % 8 else f
  else 0

/-- The DTZ instantiation of `probe_table` up to and including the
side-to-move check (lines 627-697): compute the canonical `stm` and
`tbFile`, early-exit with `*success = -1` and return value 0 when
`check_dtz_stm` fails, otherwise hand over to the rest of the probe
(piece collection, encoding, `decompress_pairs`, `map_score`), modelled
by the oracle `decode` and never consulted on the early exit. -/
def probeTableDTZ (e : DTZEntryT) (pos : TBPos)
    (decode : Nat → Nat → Nat × Int) : Nat × Int :=
  let stm := canonicalStm e pos
  let tbFile := probeTbFile e pos
  if !check_dtz_stm e tbFile stm then (0, -1)
  else decode stm tbFile

/-- A non-symmetric pawnful entry whose bucket flags have the STM bit
clear, matching `c6Pos`'s canonical `stm = 0`. -/
def c6Entry : DTZEntryT :=
  { symmetric := false, hasPawns := true, key := 1,
    pieceFlags := 0, pawnFlags := fun _ => 0, pawnPiece0 := 1 }

/-- The same entry with the STM bit set in every bucket, so the check
fails against `stm = 0`. -/
def c6EntryWrong : DTZEntryT :=
  { symmetric := false, hasPawns := true, key := 1,
    pieceFlags := 1, pawnFlags := fun _ => 1, pawnPiece0 := 1 }

/-- A white-to-move position with matching material key and one white
pawn on a2 (square 8). -/
def c6Pos : TBPos :=
  { sideToMove := 0, materialKey := 1, whitePawnSqs := [8], blackPawnSqs := [] }

/-- `file_of` on a 0-63 square number. -/
def fileOf (sq : Nat) : Nat := sq % 8

/-- `rank_of` on a 0-63 square number. -/
def rankOf (sq : Nat) : Nat := sq / 8

/-- `off_A1H8` (line 625): `rank_of(sq) - file_of(sq)` as a signed
value. -/
def offA1H8 (sq : Nat) : Int := (rankOf sq : Int) - (fileOf sq : Int)

/-- The `Ptwist[]` table (lines 177-186). -/
def Ptwist : List Nat :=
  [ 0,  0,  0,  0,  0,  0,  0,  0,
   47, 35, 23, 11, 10, 22, 34, 46,
   45, 33, 21,  9,  8, 20, 32, 44,
   43, 31, 19,  7,  6, 18, 30, 42,
   41, 29, 17,  5,  4, 16, 28, 40,
   39, 27, 15,  3,  2, 14, 26, 38,
   37, 25, 13,  1,  0, 12, 24, 36,
    0,  0,  0,  0,  0,  0,  0,  0]

/-- The `Invflap[]` table (lines 188-193). -/
def Invflap : List Nat :=
  [ 8, 16, 24, 32, 40, 48,
    9, 17, 25, 33, 41, 49,
   10, 18, 26, 34, 42, 50,
   11, 19, 27, 35, 43, 51]

/-- `Binomial[k][n]` as filled by `Tablebases::init` (lines 1555-1560):
Pascal's triangle restricted to `k < 6` and `k <= n`, on a
zero-initialized global array. -/
def Binomial : Nat → Nat → Nat
  | 0, 0 => 1
  | _ + 1, 0 => 0
  | k, n + 1 =>
    if k < 6 ∧ k ≤ n + 1 then
      (if 0 < k then Binomial (k - 1) n else 0) +
        (if k < n + 1 then Binomial k n else 0)
    else 0

/-- `Pawnidx[i][k]` as filled by `Tablebases::init` (lines 1562-1575):
the running sum `s` of `Binomial[i][Ptwist[Invflap[m]]]` over `m` from
the start of `k`'s 6-entry file block up to `k` exclusive. -/
def Pawnidx (i k : Nat) : Nat :=
  ((List.range (k - 6 * (k / 6))).map (fun t =>
    Binomial i (Ptwist.getD (Invflap.getD (6 * (k / 6) + t) 0) 0))).sum

/-- `MapB1H1H7[]` as filled by `Tablebases::init` (lines 1577-1581):
squares strictly below the a1-h8 diagonal are numbered 0..27 in square
order; other entries stay zero-initialized. -/
def MapB1H1H7 (s : Nat) : Nat :=
  if offA1H8 s < 0 then
    ((List.range s).filter (fun t => offA1H8 t < 0)).length
  else 0

/-- `MapA1D1D4[]` as filled by `Tablebases::init` (lines 1583-1594):
below-diagonal squares of the a1-d1-d4 triangle are numbered 0..5 in
square order, then the a1-d4 diagonal squares are numbered 6..9; other
entries stay zero-initialized. -/
def MapA1D1D4 (s : Nat) : Nat :=
  if offA1H8 s < 0 ∧ fileOf s ≤ 3 ∧ rankOf s ≤ 3 then
    ((List.range s).filter (fun t =>
      offA1H8 t < 0 ∧ fileOf t ≤ 3 ∧ rankOf t ≤ 3)).length
  else if offA1H8 s = 0 ∧ fileOf s ≤ 3 then
    ((List.range 64).filter (fun t =>
      offA1H8 t < 0 ∧ fileOf t ≤ 3 ∧ rankOf t ≤ 3)).length +
      ((List.range s).filter (fun t => offA1H8 t = 0 ∧ fileOf t ≤ 3)).length
  else 0

/-- Modelled from the spec: the test `(StepAttacksBB[KING][s1] | s1) & s2`
of `Tablebases::init` (line 1608) uses the external king-attack bitboard;
a king attacks the up-to-8 adjacent squares, so the test holds exactly
when the two squares coincide or are adjacent (Chebyshev distance at
most 1). -/
def kingsClose (s1 s2 : Nat) : Bool :=
  (max (fileOf s1) (fileOf s2) - min (fileOf s1) (fileOf s2) ≤ 1) &&
    (max (rankOf s1) (rankOf s2) - min (rankOf s1) (rankOf s2) ≤ 1)

/-- The state threaded through the `KK_idx` initialization scan: the
written cells, the running `code`, and the deferred `bothOnDiagonal`
pairs. -/
structure KKState where
  asg : List ((Nat × Nat) × Int)
  code : Nat
  diag : List (Nat × Nat)

/-- One `s2` step of the `KK_idx` scan (lines 1603-1619). -/
def kkCell (i s1 : Nat) (st : KKState) (s2 : Nat) : KKState :=
  if kingsClose s1 s2 then ⟨((i, s2), -1) :: st.asg, st.code, st.diag⟩
  else if offA1H8 s1 = 0 ∧ 0 < offA1H8 s2 then
    ⟨((i, s2), -1) :: st.asg, st.code, st.diag⟩
  else if offA1H8 s1 = 0 ∧ offA1H8 s2 = 0 then
    ⟨st.asg, st.code, st.diag ++ [(i, s2)]⟩
  else ⟨((i, s2), (st.code : Int)) :: st.asg, st.code + 1, st.diag⟩

/-- The full `KK_idx` initialization scan (lines 1600-1623): iterate
`idx` over 0..9 and `s1` over the board, guarded by
`idx == MapA1D1D4[s1] && (idx || s1 == SQ_B1)`, then append the deferred
diagonal pairs with the remaining codes. -/
def kkFinal : KKState :=
  let st := (List.range 10).foldl (fun st i =>
    (List.range 64).foldl (fun st s1 =>
      if MapA1D1D4 s1 = i ∧ (i ≠ 0 ∨ s1 = 1) then
        (List.range 64).foldl (kkCell i s1) st
      else st) st) ⟨[], 0, []⟩
  st.diag.foldl (fun st p =>
    ⟨((p.1, p.2), (st.code : Int)) :: st.asg, st.code + 1, st.diag⟩) st

/-- `KK_idx[i][s2]`; unwritten cells of the zero-initialized global read
as 0. -/
def KK_idx (i s2 : Nat) : Int :=
  match kkFinal.asg.find? (fun a => a.1 == (i, s2)) with
  | some a => a.2
  | none => 0

/-- Stable ascending insertion into a sorted square list
(`std::sort(squares + next, squares + end)` of line 829). -/
def sortedInsertNat (s : Nat) : List Nat → List Nat
  | [] => [s]
  | t :: ts => if s ≤ t then s :: t :: ts else t :: sortedInsertNat s ts

/-- Ascending insertion sort of a square list. -/
def sortNat : List Nat → List Nat
  | [] => []
  | s :: ss => sortedInsertNat s (sortNat ss)

/-- Stable descending insertion by `Ptwist[]` (the `ptwist` comparator of
line 728; `Ptwist[]` is injective on pawn squares, so ties cannot
arise). -/
def ptwistInsert (s : Nat) : List Nat → List Nat
  | [] => [s]
  | t :: ts =>
    if Ptwist.getD t 0 ≤ Ptwist.getD s 0 then s :: t :: ts
    else t :: ptwistInsert s ts

/-- Descending sort by `Ptwist[]` (`std::sort(squares + 1, squares +
leadPawnsCnt, ptwist)`, line 729). -/
def ptwistSort : List Nat → List Nat
  | [] => []
  | s :: ss => ptwistInsert s (ptwistSort ss)

/-- A board position for `probe_table`: side to move (0 = WHITE,
1 = BLACK), material key, and the piece code on each square (0 = empty;
Stockfish piece codes: type 1-6 plus 8 for black). -/
structure BoardP where
  stm : Nat
  key : Nat
  pieceAt : Nat → Nat

/-- Colour swap of a piece code (empty squares stay empty). -/
def colorSwapPc (pc : Nat) : Nat := if pc = 0 then 0 else pc ^^^ 8

/-- The mirror of a position: vertical flip of all squares combined with
a colour swap of all pieces and of the side to move.  Symmetric material
has equal white-view and black-view keys, so the key is kept. -/
def mirrorB (P : BoardP) : BoardP :=
  ⟨1 - P.stm, P.key, fun sq => colorSwapPc (P.pieceAt (sq ^^^ 56))⟩

/-- The per-bucket `PairsData` fields consulted by the WDL encoder: the
stored piece order `pieces[]`, the `norm[]` group sizes, the `factor[]`
multipliers and the `hasUniquePieces` flag. -/
structure PrecompT where
  pieces : List Nat
  norm : Nat → Nat
  factor : Nat → Nat
  hasUniquePieces : Bool

/-- The `WDLEntry` fields consulted by `probe_table`: `symmetric`,
`hasPawns`, the stored material `key`, the per-(stm, file) bucket data
and `pawn.pawnCount[1]` (the non-lead side's pawn count). -/
structure WDLEntryT where
  symmetric : Bool
  hasPawns : Bool
  key : Nat
  precompAt : Nat → Nat → PrecompT
  pawnCount1 : Nat

/-- `flipColor` of the WDL `probe_table` (lines 644-660). -/
def wdlFlipColor (e : WDLEntryT) (pos : BoardP) : Nat :=
  if e.symmetric then pos.stm * 8
  else (if pos.key ≠ e.key then 1 else 0) * 8

/-- `flipSquares` of the WDL `probe_table` (octal `070` = 56). -/
def wdlFlipSquares (e : WDLEntryT) (pos : BoardP) : Nat :=
  if e.symmetric then pos.stm * 56
  else (if pos.key ≠ e.key then 1 else 0) * 56

/-- The canonical side to move of the WDL `probe_table`. -/
def wdlStm (e : WDLEntryT) (pos : BoardP) : Nat :=
  if e.symmetric then 0
  else (if pos.key ≠ e.key then 1 else 0) ^^^ pos.stm

/-- The board piece code of the lead pawns:
`Piece(item(entry->pawn, 0, 0).precomp->pieces[0] ^ flipColor)` is a pawn
of some colour, and `pos.pieces(color_of(pc), PAWN)` collects the pawns
with that colour's pawn code (line 670, 675). -/
def leadPawnPc (e : WDLEntryT) (pos : BoardP) : Nat :=
  8 * (((e.precompAt 0 0).pieces.headD 0 ^^^ wdlFlipColor e pos) / 8) + 1

/-- The lead-pawn squares in board frame, in ascending square order
(`pop_lsb` scan of line 676-677). -/
def leadSqsRaw (e : WDLEntryT) (pos : BoardP) : List Nat :=
  (List.range 64).filter (fun sq => pos.pieceAt sq = leadPawnPc e pos)

/-- The lead-pawn squares after `^ flipSquares`. -/
def leadCollected (e : WDLEntryT) (pos : BoardP) : List Nat :=
  (leadSqsRaw e pos).map (fun sq => sq ^^^ wdlFlipSquares e pos)

/-- The lead-pawn squares sorted by `Flap[]` (line 684-685). -/
def leadSorted (e : WDLEntryT) (pos : BoardP) : List Nat :=
  flapSort (leadCollected e pos)

/-- `leadPawnsCnt` (line 679). -/
def leadCnt (e : WDLEntryT) (pos : BoardP) : Nat :=
  if e.hasPawns then (leadCollected e pos).length else 0

/-- The probed file `tbFile` (lines 687-689): file of the first
Flap-sorted lead pawn, horizontally flipped into the a-d range;
`FILE_A` for a pawnless entry. -/
def wdlTbFile (e : WDLEntryT) (pos : BoardP) : Nat :=
  if e.hasPawns then
    let s0 := (leadSorted e pos).headD 0
    if 3 < fileOf s0 then fileOf (s0 ^^^ 7) else fileOf s0
  else 0

/-- The non-lead pieces collected from the board in ascending square
order (`b = pos.pieces() ^ leadPawns` scan, lines 700-705), as
(flipped piece, flipped square) pairs. -/
def poolCollected (e : WDLEntryT) (pos : BoardP) : List (Nat × Nat) :=
  (List.range 64).filterMap (fun sq =>
    if pos.pieceAt sq ≠ 0 ∧ (¬ e.hasPawns = true ∨ pos.pieceAt sq ≠ leadPawnPc e pos)
    then some (pos.pieceAt sq ^^^ wdlFlipColor e pos, sq ^^^ wdlFlipSquares e pos)
    else none)

/-- Scan for the first pool element with the wanted piece code, swapping
the held slot content into its place (the inner `j` loop with
`std::swap`, lines 711-717). -/
def swapPullAux (c : Nat) (hold : Nat × Nat) :
    List (Nat × Nat) → Option ((Nat × Nat) × List (Nat × Nat))
  | [] => none
  | q :: qs =>
    if q.1 = c then some (q, hold :: qs)
    else match swapPullAux c hold qs with
      | none => none
      | some (r, rs) => some (r, q :: rs)

/-- The piece-reorder double loop (lines 709-717): for each target code
`precomp->pieces[i]` in slot order, swap the first matching pool element
into the slot; a slot with no match keeps its current content. -/
def reorderLoop : List Nat → List (Nat × Nat) → List (Nat × Nat)
  | _, [] => []
  | [], pool => pool
  | c :: cs, p0 :: rest =>
    if p0.1 = c then p0 :: reorderLoop cs rest
    else match swapPullAux c p0 rest with
      | some (q, pool') => q :: reorderLoop cs pool'
      | none => p0 :: reorderLoop cs rest

/-- The target codes of the reorder loop: `precomp->pieces[i]` for slots
`i` from `leadPawnsCnt`. -/
def targetCodes (e : WDLEntryT) (pos : BoardP) : List Nat :=
  ((e.precompAt (wdlStm e pos) (wdlTbFile e pos)).pieces).drop (leadCnt e pos)

/-- The reordered non-lead piece/square pairs. -/
def reorderedPool (e : WDLEntryT) (pos : BoardP) : List (Nat × Nat) :=
  reorderLoop (targetCodes e pos) (poolCollected e pos)

/-- The full `squares[]` array after the reorder: the Flap-sorted lead
pawns followed by the reordered piece squares. -/
def squaresArr (e : WDLEntryT) (pos : BoardP) : List Nat :=
  (if e.hasPawns then leadSorted e pos else []) ++
    (reorderedPool e pos).map (fun p => p.2)

/-- The horizontal flip (lines 721-724): `squares[i] ^= 7` for all `i`
when the lead square's file is beyond `FILE_D`. -/
def hFlipped (e : WDLEntryT) (pos : BoardP) : List Nat :=
  let sqs := squaresArr e pos
  if 3 < fileOf (sqs.headD 0) then sqs.map (fun s => s ^^^ 7) else sqs

/-- The vertical flip of the pawnless path (lines 742-744):
`squares[i] ^= 070` for all `i` when the lead square's rank is beyond
`RANK_4`. -/
def vFlipped (e : WDLEntryT) (pos : BoardP) : List Nat :=
  let sqs := hFlipped e pos
  if ¬ e.hasPawns = true ∧ 3 < rankOf (sqs.headD 0) then
    sqs.map (fun s => s ^^^ 56)
  else sqs

/-- The a1-h8 diagonal flip `((sq >> 3) | (sq << 3)) & 63` (line 757). -/
def diagSwap (sq : Nat) : Nat := ((sq >>> 3) ||| (sq <<< 3)) &&& 63

/-- The diagonal-flip scan of the pawnless path (lines 750-759): skip
on-diagonal squares, then flip from the first off-diagonal square onward
when it is above the diagonal and its slot index is below the limit
(3 with unique pieces, else 2); in every case stop at the first
off-diagonal square. -/
def dFlipFrom (limit : Nat) : Nat → List Nat → List Nat
  | _, [] => []
  | i, s :: ss =>
    if offA1H8 s = 0 then s :: dFlipFrom limit (i + 1) ss
    else if 0 < offA1H8 s ∧ i < limit then (s :: ss).map diagSwap
    else s :: ss

/-- The fully normalized `squares[]` array: the diagonal flip applies
only on the pawnless path. -/
def canonSquares (e : WDLEntryT) (pos : BoardP) : List Nat :=
  if e.hasPawns then vFlipped e pos
  else dFlipFrom (if (e.precompAt (wdlStm e pos) 0).hasUniquePieces then 3 else 2)
    0 (vFlipped e pos)

/-- The lead-pawn slots in final order (line 727-729): the lead prefix of
the normalized array with slots 1.. re-sorted by descending
`Ptwist[]`. -/
def leadFinal (e : WDLEntryT) (pos : BoardP) : List Nat :=
  match (canonSquares e pos).take (leadCnt e pos) with
  | [] => []
  | s0 :: rest => s0 :: ptwistSort rest

/-- `encode_remaining` (lines 819-846): per group of size
`remainingPawns` (once) or `norm[next]`, sort the group ascending,
shrink each square by the count of smaller earlier-slot squares (minus 8
for the pawn group), accumulate the binomial sum times `factor[next]`,
and advance.  The fuel models the loop bound `next < size`. -/
def encRem (norm factor : Nat → Nat) :
    Nat → Nat → List Nat → List Nat → Nat → Nat
  | 0, _, _, _, idx => idx
  | _ + 1, _, _, [], idx => idx
  | fuel + 1, rp, processed, pending, idx =>
    let g := if rp ≠ 0 then rp else norm processed.length
    let grp := sortNat (pending.take g)
    let offp := if rp ≠ 0 then 8 else 0
    let s := ((List.range grp.length).map (fun t =>
      Binomial (t + 1)
        (grp.getD t 0 - (processed.filter (fun x => x < grp.getD t 0)).length
          - offp))).sum
    encRem norm factor fuel 0 (processed ++ grp) (pending.drop g)
      (idx + s * factor processed.length)

/-- The number of slots consumed before `encode_remaining` starts:
`leadPawnsCnt` with pawns, else 3 or 2 (`next`). -/
def wdlNext (e : WDLEntryT) (pos : BoardP) : Nat :=
  if e.hasPawns then leadCnt e pos
  else if (e.precompAt (wdlStm e pos) 0).hasUniquePieces then 3 else 2

/-- The index contribution of the first `next` slots: the lead-pawn
`Pawnidx`/`Binomial`-`Ptwist` sum (lines 731-734), or the pawnless
three-unique-pieces encoding (lines 787-817), or `KK_idx` (lines
820-821; the `int` value is read into the `uint64_t idx`, so it is taken
modulo 2^64). -/
def wdlIdx0 (e : WDLEntryT) (pos : BoardP) : Nat :=
  if e.hasPawns then
    Pawnidx (leadCnt e pos - 1) (Flap.getD ((leadFinal e pos).headD 0) 0) +
      ((List.range (leadCnt e pos - 1)).map (fun t =>
        Binomial (t + 1)
          (Ptwist.getD ((leadFinal e pos).getD (t + 1) 0) 0))).sum
  else
    let sq := canonSquares e pos
    let s0 := sq.getD 0 0
    let s1 := sq.getD 1 0
    let s2 := sq.getD 2 0
    if (e.precompAt (wdlStm e pos) 0).hasUniquePieces then
      let adjust1 := if s0 < s1 then 1 else 0
      let adjust2 := (if s0 < s2 then 1 else 0) + (if s1 < s2 then 1 else 0)
      if offA1H8 s0 ≠ 0 then
        MapA1D1D4 s0 * (63 * 62) + (s1 - adjust1) * 62 + (s2 - adjust2)
      else if offA1H8 s1 ≠ 0 then
        6 * 63 * 62 + rankOf s0 * (28 * 62) + MapB1H1H7 s1 * 62 + (s2 - adjust2)
      else if offA1H8 s2 ≠ 0 then
        6 * 63 * 62 + 4 * 28 * 62 + rankOf s0 * (7 * 28) +
          (rankOf s1 - adjust1) * 28 + MapB1H1H7 s2
      else
        6 * 63 * 62 + 4 * 28 * 62 + 4 * 7 * 28 + rankOf s0 * (7 * 6) +
          (rankOf s1 - adjust1) * 6 + (rankOf s2 - adjust2)
    else ((KK_idx (MapA1D1D4 s0) s1) % (2 ^ 64 : Int)).toNat

/-- The full table index of the WDL `probe_table` (uint64 arithmetic:
one final reduction modulo 2^64 is congruent to C's per-operation
wrapping). -/
def wdlIdxFull (e : WDLEntryT) (pos : BoardP) : Nat :=
  let pre := e.precompAt (wdlStm e pos) (wdlTbFile e pos)
  let nx := wdlNext e pos
  let processed := if e.hasPawns then leadFinal e pos
    else (canonSquares e pos).take nx
  let pending := (canonSquares e pos).drop nx
  encRem pre.norm pre.factor (pending.length + 1)
    (if e.hasPawns then e.pawnCount1 else 0) processed pending
    (wdlIdx0 e pos * pre.factor 0) % 2 ^ 64

/-- The WDL instantiation of `probe_table` (lines 627-859): canonicalize,
encode, decompress and apply the WDL `map_score` (`value - 2`, line
595).  `decompress_pairs` is a pure function of the bucket selected by
`(stm, tbFile)` and of the index, modelled by the oracle `d`. -/
def probeTableWDL (e : WDLEntryT) (pos : BoardP)
    (d : Nat → Nat → Nat → Int) : Int :=
  d (wdlStm e pos) (wdlTbFile e pos) (wdlIdxFull e pos) - 2

/-- The tie-ascending property of a collected square list: elements with
equal Flap keys appear in ascending square order. -/
def FlapTieAsc (l : List Nat) : Prop :=
  l.Pairwise (fun a b => Flap.getD a 0 = Flap.getD b 0 → a ≤ b)

/-- The strict-total tie-broken Flap order used to characterize the
stable sort: compare `Flap[]` keys, breaking ties by the square itself
(ties are horizontal mirror pairs, whose collection order is by
square). -/
def flapLex (a b : Nat) : Prop :=
  Flap.getD a 0 < Flap.getD b 0 ∨ (Flap.getD a 0 = Flap.getD b 0 ∧ a ≤ b)

instance : DecidableRel flapLex := fun a b => by
  unfold flapLex
  infer_instance

instance : IsTotal Nat flapLex :=
  ⟨fun a b => by unfold flapLex; omega⟩

instance : IsTrans Nat flapLex :=
  ⟨fun a b c h1 h2 => by unfold flapLex at *; omega⟩

instance : IsAntisymm Nat flapLex :=
  ⟨fun a b h1 h2 => by unfold flapLex at *; omega⟩

/-- The run structure of a code list: each group is a code with its
multiplicity. -/
def runStruct (gs : List (Nat × Nat)) : List Nat :=
  (gs.map (fun g => List.replicate g.2 g.1)).join

/-- The outcome of the diagonal-flip scan (`dFlipFrom`) as a Boolean:
whether the flip fires. -/
def diagDecision (limit : Nat) : Nat → List Nat → Bool
  | _, [] => false
  | i, s :: ss =>
    if offA1H8 s = 0 then diagDecision limit (i + 1) ss
    else decide (0 < offA1H8 s ∧ i < limit)

/-- Two square lists decompose along the same group list with
permutation-equivalent chunks. -/
def SameChunks : List (Nat × Nat) → List Nat → List Nat → Prop
  | [], l1, l2 => l1 = [] ∧ l2 = []
  | g :: gs, l1, l2 =>
    g.2 ≤ l1.length ∧ g.2 ≤ l2.length ∧
      (l1.take g.2).Perm (l2.take g.2) ∧
      SameChunks gs (l1.drop g.2) (l2.drop g.2)

/-- The group sizes match what `encode_remaining` computes from
`remainingPawns` and `norm[]` at each group start. -/
def GroupSizesOK (norm : Nat → Nat) : List (Nat × Nat) → Nat → Nat → Prop
  | [], _, _ => True
  | g :: gs, n, rp =>
    (if rp ≠ 0 then rp else norm n) = g.2 ∧ GroupSizesOK norm gs (n + g.2) 0

/-- The relation carried through the normalization flips: equal prefix
of `nx` slots, equal length, and chunkwise-permuted suffix. -/
def PrefSuff (nx : Nat) (gs : List (Nat × Nat)) (l1 l2 : List Nat) : Prop :=
  l1.take nx = l2.take nx ∧ l1.length = l2.length ∧
    SameChunks gs (l1.drop nx) (l2.drop nx)

/-- The invariant consumed by the `encode_remaining` congruence: at every
step the two pending lists agree chunkwise up to permutation. -/
def ChunksPerm (norm : Nat → Nat) : Nat → Nat → Nat → List Nat → List Nat → Prop
  | 0, _, _, _, _ => True
  | fuel + 1, rp, n, l1, l2 =>
    (l1 = [] ∧ l2 = []) ∨
    (l1 ≠ [] ∧ l2 ≠ [] ∧
      (if rp ≠ 0 then rp else norm n) ≤ l1.length ∧
      (if rp ≠ 0 then rp else norm n) ≤ l2.length ∧
      (l1.take (if rp ≠ 0 then rp else norm n)).Perm
        (l2.take (if rp ≠ 0 then rp else norm n)) ∧
      ChunksPerm norm fuel 0 (n + (if rp ≠ 0 then rp else norm n))
        (l1.drop (if rp ≠ 0 then rp else norm n))
        (l2.drop (if rp ≠ 0 then rp else norm n)))

/-- `norm[]` agreement with a group decomposition starting at a slot. -/
def normAgrees (norm : Nat → Nat) : Nat → List (Nat × Nat) → Prop
  | _, [] => True
  | start, g :: rest => norm start = g.2 ∧ normAgrees norm (start + g.2) rest

mutual

/-- Mirror similarity of two oracle game trees: equal flags, equal WDL
table values and pointwise-related move lists with equal move attributes
(the DTZ oracle may differ; `probe_wdl` never consults it).  Mirroring a
position yields a mirror-similar tree: move generation commutes with
mirroring and, by the `probe_table` canonicalization, mirrored positions
read equal WDL table values. -/
inductive MirrorSim : PTree → PTree → Prop where
  | node : ∀ ck ep wt dt dt' cu cu' c c' e e' n n' q q',
      MirrorSimL cu cu' → MirrorSimL c c' → MirrorSimL e e' →
      MirrorSimL n n' → MirrorSimL q q' →
      MirrorSim (.node ck ep wt dt cu c e n q) (.node ck ep wt dt' cu' c' e' n' q')

inductive MirrorSimL : List (MAttr × PTree) → List (MAttr × PTree) → Prop where
  | nil : MirrorSimL [] []
  | cons : ∀ (m : MAttr) (ch ch' : PTree) rest rest',
      MirrorSim ch ch' → MirrorSimL rest rest' →
      MirrorSimL ((m, ch) :: rest) ((m, ch') :: rest')

end

/-- A concrete symmetric pawnless 4-piece WDL entry (KRvKR-shaped:
codes 6/14 are the kings, 4/12 the rooks) with unit factors, for
exercising the mirror invariance. -/
def c1e : WDLEntryT :=
  { symmetric := true
    hasPawns := false
    key := 0
    precompAt := fun _ _ =>
      { pieces := [6, 4, 14, 12]
        norm := fun _ => 1
        factor := fun _ => 1
        hasUniquePieces := true }
    pawnCount1 := 0 }

/-- A concrete black-to-move board for the entry `c1e`. -/
def c1P : BoardP :=
  { stm := 1
    key := 0
    pieceAt := fun sq =>
      if sq = 0 then 6 else if sq = 8 then 4
      else if sq = 63 then 14 else if sq = 55 then 12 else 0 }

/-- A concrete decompression oracle for the entry `c1e`. -/
def c1d : Nat → Nat → Nat → Int := fun s f i => (s : Int) + f + i % 7

end Tbprobe

namespace Tbprobe

/-! ## Theorems -/

/-- `List.getD` after `List.set` at a different index. -/
theorem tb_getD_set_ne {α : Type} (v d : α) :
    ∀ (l : List α) (i j : Nat), i ≠ j → (l.set i v).getD j d = l.getD j d := by
  intro l
  induction l with
  | nil => intro i j _; rfl
  | cons a t ih =>
    intro i j hij
    cases i with
    | zero =>
      cases j with
      | zero => exact absurd rfl hij
      | succ j' => rfl
    | succ i' =>
      cases j with
      | zero => rfl
      | succ j' =>
        simpa only [List.set, List.getD_cons_succ] using
          ih i' j' (fun h => hij (by rw [h]))

/-- `List.getD` after `List.set` at the same in-range index. -/
theorem tb_getD_set_self {α : Type} (v d : α) :
    ∀ (l : List α) (i : Nat), i < l.length → (l.set i v).getD i d = v := by
  intro l
  induction l with
  | nil => intro i h; exact absurd h (by simp)
  | cons a t ih =>
    intro i h
    cases i with
    | zero => rfl
    | succ i' =>
      simpa only [List.set, List.getD_cons_succ] using
        ih i' (by simpa using h)

/-- `List.set` out of range is the identity. -/
theorem tb_set_of_length_le {α : Type} (v : α) :
    ∀ (l : List α) (i : Nat), l.length ≤ i → l.set i v = l := by
  intro l
  induction l with
  | nil => intro i _; rfl
  | cons a t ih =>
    intro i h
    cases i with
    | zero => simp at h
    | succ i' =>
      simp only [List.set]
      rw [ih i' (by simpa using h)]

/-- `List.getD` out of range gives the default. -/
theorem tb_getD_of_length_le {α : Type} (d : α) :
    ∀ (l : List α) (i : Nat), l.length ≤ i → l.getD i d = d := by
  intro l
  induction l with
  | nil => intro i _; rfl
  | cons a t ih =>
    intro i h
    cases i with
    | zero => simp at h
    | succ i' => simpa only [List.getD_cons_succ] using ih i' (by simpa using h)

/-- Setting an index to the value it already holds is the identity. -/
theorem tb_set_getD_eq {α : Type} (d : α) :
    ∀ (l : List α) (i : Nat), i < l.length → l.set i (l.getD i d) = l := by
  intro l
  induction l with
  | nil => intro i h; exact absurd h (by simp)
  | cons a t ih =>
    intro i h
    cases i with
    | zero => rfl
    | succ i' =>
      simp only [List.getD_cons_succ, List.set]
      rw [ih i' (by simpa using h)]

/-- A raised visited flag implies the index is in range. -/
theorem tb_marked_lt (tm : List Bool) (x : Nat) (h : tm.getD x false = true) :
    x < tm.length := by
  by_contra hx
  rw [tb_getD_of_length_le false tm x (by omega)] at h
  exact absurd h (by decide)

/-- `SymStep` is reflexive. -/
theorem symStep_refl (st : List Nat × List Bool) : SymStep st st :=
  ⟨rfl, rfl, fun _ h => ⟨h, rfl⟩⟩

/-- `SymStep` is transitive. -/
theorem symStep_trans {a b c : List Nat × List Bool}
    (h1 : SymStep a b) (h2 : SymStep b c) : SymStep a c := by
  refine ⟨h2.1.trans h1.1, h2.2.1.trans h1.2.1, fun x hx => ?_⟩
  obtain ⟨m1, v1⟩ := h1.2.2 x hx
  obtain ⟨m2, v2⟩ := h2.2.2 x m1
  exact ⟨m2, v2.trans v1⟩

/-- Raising a visited flag preserves every raised flag. -/
theorem tb_marked_mono (tm : List Bool) (s x : Nat)
    (hx : tm.getD x false = true) : (tm.set s true).getD x false = true := by
  rcases eq_or_ne s x with rfl | hne
  · rw [tb_getD_set_self true false tm s (tb_marked_lt tm s hx)]
  · rw [tb_getD_set_ne true false tm s x hne]; exact hx

/-- `MarkedChildren` survives raising any visited flag. -/
theorem tb_markedChildren_set (data : Nat → Nat) (sp : Nat) (tm : List Bool)
    (x s : Nat) (hmc : MarkedChildren data sp tm x) :
    MarkedChildren data sp (tm.set s true) x := by
  intro hx2
  obtain ⟨h1, h2⟩ := hmc hx2
  rw [List.length_set]
  exact ⟨fun hl => tb_marked_mono tm s _ (h1 hl),
         fun hl => tb_marked_mono tm s _ (h2 hl)⟩

/-- `SymProp x` survives a `symlen` write at an unvisited symbol `s`
different from `x`, provided `x`'s in-range children are visited (the
value written at `s` cannot be read back through `x`'s recurrence). -/
theorem tb_symProp_set (data : Nat → Nat) (sp : Nat) (sl : List Nat)
    (tm : List Bool) (x s v : Nat)
    (hlen : sl.length = tm.length) (hxne : x ≠ s)
    (hp : SymProp data sp sl x) (hmc : MarkedChildren data sp tm x)
    (hsm : tm.getD s false = false) :
    SymProp data sp (sl.set s v) x := by
  have hval : ∀ c : Nat, (c < tm.length → tm.getD c false = true) →
      (sl.set s v).getD c 0 = sl.getD c 0 := by
    intro c hcm
    by_cases hcl : c < tm.length
    · have hcs : s ≠ c := by
        intro he
        rw [← he] at hcm
        rw [hcm (he ▸ hcl)] at hsm
        exact absurd hsm (by decide)
      rw [tb_getD_set_ne v 0 sl s c hcs]
    · have h1 : sl.length ≤ c := by omega
      rw [tb_getD_of_length_le 0 sl c h1,
        tb_getD_of_length_le 0 (sl.set s v) c (by simpa [List.length_set] using h1)]
  unfold SymProp at hp ⊢
  by_cases hx2 : s2At data sp x = 0xFFF
  · rw [if_pos hx2] at hp ⊢
    rw [tb_getD_set_ne v 0 sl s x (Ne.symm hxne)]
    exact hp
  · rw [if_neg hx2] at hp ⊢
    obtain ⟨hc1, hc2⟩ := hmc hx2
    rw [tb_getD_set_ne v 0 sl s x (Ne.symm hxne), hval _ hc1, hval _ hc2]
    exact hp

/-- Soundness of one `calc_symlen` call: called on an unvisited symbol in
a state satisfying the invariant, a successful run preserves the
invariant, freezes already-visited symbols, and marks `s` (when `s` is in
range; an out-of-range `s` is C undefined behaviour modelled as silent
no-ops). -/
theorem calcSymlen_sound (data : Nat → Nat) (sp : Nat) :
    ∀ (fuel s : Nat) (st st' : List Nat × List Bool),
      calcSymlen data sp fuel s st = some st' →
      st.2.getD s false = false →
      st.1.length = st.2.length →
      SymInv data sp st →
      SymInv data sp st' ∧ SymStep st st' ∧
      (s < st.2.length → st'.2.getD s false = true) := by
  intro fuel
  induction fuel with
  | zero =>
    intro s st st' h
    exact absurd h (by simp [calcSymlen])
  | succ fuel ih =>
    intro s st st' h hs hlen hinv
    obtain ⟨sl, tm⟩ := st
    dsimp only at hs hlen ⊢
    simp only [calcSymlen] at h
    by_cases h2 : s2At data sp s = 0xFFF
    · rw [if_pos h2] at h
      cases h
      have hmono : ∀ x, tm.getD x false = true →
          (tm.set s true).getD x false = true := fun x hx => tb_marked_mono tm s x hx
      refine ⟨?_, ⟨by simp, by simp, ?_⟩, ?_⟩
      · intro x hx
        rcases eq_or_ne x s with rfl | hne
        · refine ⟨?_, fun hcon => absurd h2 hcon⟩
          unfold SymProp
          rw [if_pos h2]
          by_cases hlt : x < sl.length
          · exact tb_getD_set_self 0 0 sl x hlt
          · rw [tb_set_of_length_le 0 sl x (by omega)]
            exact tb_getD_of_length_le 0 sl x (by omega)
        · have hx0 : tm.getD x false = true := by
            rwa [tb_getD_set_ne true false tm s x (Ne.symm hne)] at hx
          obtain ⟨hp, hmc⟩ := hinv x hx0
          exact ⟨tb_symProp_set data sp sl tm x s 0 hlen hne hp hmc hs,
            tb_markedChildren_set data sp tm x s hmc⟩
      · intro x hx
        have hne : x ≠ s := fun he => by rw [he, hs] at hx; exact absurd hx (by decide)
        exact ⟨hmono x hx, tb_getD_set_ne 0 0 sl s x (Ne.symm hne)⟩
      · intro hlt
        exact tb_getD_set_self true false tm s hlt
    · rw [if_neg h2] at h
      cases hm1 : (if tm.getD (s1At data sp s) false then some (sl, tm)
          else calcSymlen data sp fuel (s1At data sp s) (sl, tm)) with
      | none =>
        rw [hm1] at h
        dsimp only at h
        exact Option.noConfusion h
      | some st1 =>
        rw [hm1] at h
        dsimp only at h
        have hfacts1 : SymInv data sp st1 ∧ SymStep (sl, tm) st1 ∧
            (s1At data sp s < tm.length → st1.2.getD (s1At data sp s) false = true) := by
          by_cases hb : tm.getD (s1At data sp s) false
          · rw [if_pos hb] at hm1
            cases hm1
            exact ⟨hinv, symStep_refl _, fun _ => hb⟩
          · rw [if_neg hb] at hm1
            have hres := ih (s1At data sp s) (sl, tm) st1 hm1
              (by simpa using hb) hlen hinv
            exact ⟨hres.1, hres.2.1, hres.2.2⟩
        obtain ⟨hinv1, hstep1, hmark1⟩ := hfacts1
        obtain ⟨sl1, tm1⟩ := st1
        cases hm2 : (if tm1.getD (s2At data sp s) false then some (sl1, tm1)
            else calcSymlen data sp fuel (s2At data sp s) (sl1, tm1)) with
        | none =>
          rw [hm2] at h
          dsimp only at h
          exact Option.noConfusion h
        | some st2 =>
          rw [hm2] at h
          dsimp only at h
          have hl1a := hstep1.1
          have hl1b := hstep1.2.1
          dsimp only at hl1a hl1b
          dsimp only at hmark1
          have hlen1 : sl1.length = tm1.length := by omega
          have hfacts2 : SymInv data sp st2 ∧ SymStep (sl1, tm1) st2 ∧
              (s2At data sp s < tm1.length → st2.2.getD (s2At data sp s) false = true) := by
            by_cases hb : tm1.getD (s2At data sp s) false
            · rw [if_pos hb] at hm2
              cases hm2
              exact ⟨hinv1, symStep_refl _, fun _ => hb⟩
            · rw [if_neg hb] at hm2
              have hres := ih (s2At data sp s) (sl1, tm1) st2 hm2
                (by simpa using hb) hlen1 hinv1
              exact ⟨hres.1, hres.2.1, hres.2.2⟩
          obtain ⟨hinv2, hstep2, hmark2⟩ := hfacts2
          obtain ⟨sl2, tm2⟩ := st2
          cases h
          have hstep12 : SymStep (sl, tm) (sl2, tm2) := symStep_trans hstep1 hstep2
          have hlsl := hstep12.1
          have hltm := hstep12.2.1
          dsimp only at hlsl hltm
          dsimp only at hmark2
          have hlen2 : sl2.length = tm2.length := by omega
          by_cases hs2m : tm2.getD s false = true
          · -- the recursion already visited `s` (a cyclic pair); the
            -- final writes store back the value the invariant prescribes
            have hslt : s < tm2.length := tb_marked_lt tm2 s hs2m
            obtain ⟨hp, _⟩ := hinv2 s hs2m
            unfold SymProp at hp
            rw [if_neg h2] at hp
            have e1 : sl2.set s ((sl2.getD (s1At data sp s) 0
                + sl2.getD (s2At data sp s) 0 + 1) % 256) = sl2 := by
              rw [← hp]
              exact tb_set_getD_eq 0 sl2 s (by omega)
            have e2 : tm2.set s true = tm2 := by
              conv_lhs => rw [show true = tm2.getD s false from hs2m.symm]
              exact tb_set_getD_eq false tm2 s hslt
            rw [e1, e2]
            exact ⟨hinv2, hstep12, fun _ => hs2m⟩
          · have hs2f : tm2.getD s false = false := by
              cases hb : tm2.getD s false
              · rfl
              · exact absurd hb hs2m
            by_cases hsr : s < tm.length
            · -- `s` is in range and still unvisited after the recursion
              have hs1ne : s1At data sp s ≠ s := by
                intro he
                have hm := hmark1 (by rw [he]; exact hsr)
                rw [he] at hm
                exact hs2m (hstep2.2.2 s hm).1
              have hs2ne : s2At data sp s ≠ s := by
                intro he
                have hm := hmark2 (by rw [he]; omega)
                rw [he] at hm
                exact hs2m hm
              have hc1m : s1At data sp s < tm2.length →
                  tm2.getD (s1At data sp s) false = true := by
                intro hl
                rw [hltm] at hl
                exact (hstep2.2.2 _ (hmark1 hl)).1
              have hc2m : s2At data sp s < tm2.length →
                  tm2.getD (s2At data sp s) false = true := by
                intro hl
                exact hmark2 (by omega)
              refine ⟨?_, symStep_trans hstep12 ⟨by simp, by simp, ?_⟩, ?_⟩
              · intro x hx
                rcases eq_or_ne x s with rfl | hne
                · constructor
                  · unfold SymProp
                    rw [if_neg h2]
                    rw [tb_getD_set_self _ 0 sl2 x (by omega),
                      tb_getD_set_ne _ 0 sl2 x _ (fun he => hs1ne he.symm),
                      tb_getD_set_ne _ 0 sl2 x _ (fun he => hs2ne he.symm)]
                  · intro _
                    rw [List.length_set]
                    exact ⟨fun hl => tb_marked_mono tm2 x _ (hc1m hl),
                           fun hl => tb_marked_mono tm2 x _ (hc2m hl)⟩
                · have hx0 : tm2.getD x false = true := by
                    rwa [tb_getD_set_ne true false tm2 s x (Ne.symm hne)] at hx
                  obtain ⟨hp, hmc⟩ := hinv2 x hx0
                  exact ⟨tb_symProp_set data sp sl2 tm2 x s _ hlen2 hne hp hmc hs2f,
                    tb_markedChildren_set data sp tm2 x s hmc⟩
              · intro x hx
                have hne : x ≠ s := fun he => by rw [he, hs2f] at hx; exact absurd hx (by decide)
                exact ⟨tb_marked_mono tm2 s x hx,
                  tb_getD_set_ne _ 0 sl2 s x (Ne.symm hne)⟩
              · intro _
                exact tb_getD_set_self true false tm2 s (by omega)
            · -- `s` out of range: both writes are silent no-ops
              have e1 : sl2.set s ((sl2.getD (s1At data sp s) 0
                  + sl2.getD (s2At data sp s) 0 + 1) % 256) = sl2 :=
                tb_set_of_length_le _ sl2 s (by omega)
              have e2 : tm2.set s true = tm2 :=
                tb_set_of_length_le true tm2 s (by omega)
              rw [e1, e2]
              exact ⟨hinv2, hstep12, fun hcon => absurd hcon hsr⟩

/-- `getD` on a mapped `List.range`. -/
theorem tb_getD_range_map (n i : Nat) (f : Nat → Nat) (d : Nat) (h : i < n) :
    (((List.range n).map f).getD i d) = f i := by
  rw [List.getD_eq_getElem?_getD, List.getElem?_map, List.getElem?_range h]
  rfl

/-- `getD` on a replicated list of a single value. -/
theorem tb_getD_replicate {α : Type} (a : α) (n x : Nat) :
    (List.replicate n a).getD x a = a := by
  rw [List.getD_eq_getElem?_getD]
  rcases lt_or_ge x n with h | h
  · rw [List.getElem?_replicate_of_lt h]
    rfl
  · rw [List.getElem?_eq_none (by simpa using h)]
    rfl

/-- Soundness of the `calc_symlen` driver loop of `set_sizes`: it
preserves the invariant and marks every in-range listed symbol. -/
theorem calcSymlenLoop_sound (data : Nat → Nat) (sp fuel : Nat) :
    ∀ (idxs : List Nat) (st st' : List Nat × List Bool),
      calcSymlenLoop data sp fuel idxs st = some st' →
      st.1.length = st.2.length →
      SymInv data sp st →
      SymInv data sp st' ∧ SymStep st st' ∧
      (∀ i ∈ idxs, i < st.2.length → st'.2.getD i false = true) := by
  intro idxs
  induction idxs with
  | nil =>
    intro st st' h hlen hinv
    cases h
    exact ⟨hinv, symStep_refl st, by simp⟩
  | cons i rest ih =>
    intro st st' h hlen hinv
    simp only [calcSymlenLoop] at h
    by_cases hb : st.2.getD i false
    · rw [if_pos hb] at h
      have hres := ih st st' h hlen hinv
      refine ⟨hres.1, hres.2.1, ?_⟩
      intro j hj hjl
      rcases List.mem_cons.mp hj with rfl | hj'
      · exact (hres.2.1.2.2 j hb).1
      · exact hres.2.2 j hj' hjl
    · rw [if_neg hb] at h
      cases hm : calcSymlen data sp fuel i st with
      | none =>
        rw [hm] at h
        dsimp only at h
        exact Option.noConfusion h
      | some st1 =>
        rw [hm] at h
        dsimp only at h
        have h1 := calcSymlen_sound data sp fuel i st st1 hm (by simpa using hb)
          hlen hinv
        have hlen1 : st1.1.length = st1.2.length := by
          have e1 := h1.2.1.1
          have e2 := h1.2.1.2.1
          omega
        have hres := ih st1 st' h hlen1 h1.1
        refine ⟨hres.1, symStep_trans h1.2.1 hres.2.1, ?_⟩
        intro j hj hjl
        rcases List.mem_cons.mp hj with rfl | hj'
        · exact (hres.2.1.2.2 j (h1.2.2 hjl)).1
        · refine hres.2.2 j hj' ?_
          have e2 := h1.2.1.2.1
          omega

/-- **C9 (amended).** For every symbol `s` of a `PairsData` parsed by
`set_sizes`: if the second child field of the sympat triple at `3*s` is
the sentinel `0xFFF` then `symlen[s] = 0`; otherwise `symlen[s]` equals
`symlen[s1] + symlen[s2] + 1` truncated to the `uint8_t` store
(`% 256`), with `s1` the low-12-bit child and `s2` the high-12-bit
child, as established recursively by `calc_symlen` during `set_sizes`.
(The original claim's "`symlen[s] = 0` *only if* the sentinel is `0xFFF`"
direction fails when the sum wraps to a multiple of 256, see the
counterexample.) -/
theorem calc_symlen_spec (data : Nat → Nat) (p tbSize : Nat) (d : PairsDataH)
    (h : setSizes data p tbSize = some d) :
    ∀ s, s < d.symlen.length → SymProp data d.sympatPtr d.symlen s := by
  unfold setSizes at h
  split at h
  · cases h
    intro s hs
    simp at hs
  · dsimp only at h
    split at h
    · exact Option.noConfusion h
    · split at h
      · exact Option.noConfusion h
      · rename_i st hm
        cases h
        intro s hsl
        dsimp only at hsl ⊢
        have hloop := calcSymlenLoop_sound data _ _ _ _ st hm
          (by simp)
          (by
            intro x hx
            rw [tb_getD_replicate false _ x] at hx
            exact absurd hx (by decide))
        obtain ⟨hinvf, hstepf, hmarkf⟩ := hloop
        have hl1 : st.1.length = le16 data (p + 10 +
            2 * (byteAt data (p + 8) - byteAt data (p + 9) + 1)) := by
          have e := hstepf.1
          simpa using e
        have hl2 : st.2.length = le16 data (p + 10 +
            2 * (byteAt data (p + 8) - byteAt data (p + 9) + 1)) := by
          have e := hstepf.2.1
          simpa using e
        have hmk : st.2.getD s false = true := by
          refine hmarkf s (List.mem_range.mpr (by omega)) ?_
          simp only [List.length_replicate]
          omega
        exact (hinvf s hmk).1

/-- The downward recurrence characterizing `baseUn`. -/
theorem baseUn_eq (off : Nat → Nat) (last i : Nat) :
    baseUn off last i = if last ≤ i then 0
      else ((baseUn off last (i + 1) + off i + 2 ^ 64 - off (i + 1)) % 2 ^ 64) / 2 := by
  unfold baseUn
  by_cases h : last ≤ i
  · rw [if_pos h, Nat.sub_eq_zero_of_le h]
    rfl
  · rw [if_neg h]
    have hk : last - i = (last - (i + 1)) + 1 := by omega
    rw [hk]
    rfl

/-- **C9 (counterexample to the original equivalence).** On the crafted
`chainStream`, `set_sizes` succeeds and symbol 9 has `symlen[9] = 0`
although its second-child sentinel field is `0` rather than `0xFFF`: the
`uint8_t` store wraps `symlen[8] + symlen[0] + 1 = 256` to `0`, so
"`symlen[s] = 0` iff the sentinel equals `0xFFF`" is false as stated. -/
theorem calc_symlen_iff_counterexample :
    setSizes chainStream 0 1 = some chainParsed ∧
    9 < chainParsed.symlen.length ∧
    chainParsed.symlen.getD 9 255 = 0 ∧
    s2At chainStream chainParsed.sympatPtr 9 ≠ 0xFFF := by
  refine ⟨by decide, by decide, by decide, by decide⟩

/-- Witness for `calc_symlen_spec` on the parsed `chainStream` at symbol
9: the amended recurrence holds there. -/
theorem calc_symlen_spec_witness :
    setSizes chainStream 0 1 = some chainParsed ∧ 9 < chainParsed.symlen.length ∧
      SymProp chainStream chainParsed.sympatPtr chainParsed.symlen 9 :=
  ⟨by decide, by decide,
    calc_symlen_spec chainStream 0 1 chainParsed (by decide) 9 (by decide)⟩

/-- **C8.** After `set_sizes` parses a compressed-stream header, the
derived `base[]` satisfies `base[max_len - min_len] = 0` and, for every
`i` below `max_len - min_len`, `base[i]` is the unshifted value of
`base[i+1]` plus `offset[i]` minus `offset[i+1]` (16-bit little-endian
reads, `uint64_t` wraparound), divided by 2, then shifted left by
`(64 - min_len) - i` (reduced modulo `2^64`). -/
theorem set_sizes_base_spec (data : Nat → Nat) (p tbSize : Nat) (d : PairsDataH)
    (h : setSizes data p tbSize = some d) (hsv : d.singleValue = false) :
    d.base.getD (d.max_len - d.min_len) 1 = 0 ∧
    ∀ i, i < d.max_len - d.min_len →
      d.base.getD i 0 =
        ((((baseUn (fun j => le16 data (d.offsetPtr + 2 * j))
              (d.max_len - d.min_len) (i + 1)
            + le16 data (d.offsetPtr + 2 * i) + 2 ^ 64
            - le16 data (d.offsetPtr + 2 * (i + 1))) % 2 ^ 64) / 2)
          <<< ((64 - d.min_len) - i)) % 2 ^ 64 := by
  unfold setSizes at h
  split at h
  · cases h
    simp at hsv
  · dsimp only at h
    split at h
    · exact Option.noConfusion h
    · split at h
      · exact Option.noConfusion h
      · rename_i st hm
        cases h
        dsimp only
        constructor
        · rw [tb_getD_range_map _ _ _ _ (by omega)]
          conv_lhs => rw [baseUn_eq]
          rw [if_pos (le_refl _)]
          simp
        · intro i hi
          rw [tb_getD_range_map _ _ _ _ (by omega)]
          conv_lhs => rw [baseUn_eq]
          rw [if_neg (by omega)]

/-- Witness for `set_sizes_base_spec` on the concrete `c8Stream`:
`base[1] = 0` and `base[0]` satisfies the recurrence at `i = 0`. -/
theorem set_sizes_base_spec_witness :
    (setSizes c8Stream 0 1 = some c8Parsed ∧ c8Parsed.singleValue = false) ∧
    c8Parsed.base.getD (c8Parsed.max_len - c8Parsed.min_len) 1 = 0 ∧
    c8Parsed.base.getD 0 0 =
      ((((baseUn (fun j => le16 c8Stream (c8Parsed.offsetPtr + 2 * j))
            (c8Parsed.max_len - c8Parsed.min_len) (0 + 1)
          + le16 c8Stream (c8Parsed.offsetPtr + 2 * 0) + 2 ^ 64
          - le16 c8Stream (c8Parsed.offsetPtr + 2 * (0 + 1))) % 2 ^ 64) / 2)
        <<< ((64 - c8Parsed.min_len) - 0)) % 2 ^ 64 :=
  ⟨⟨by decide, by decide⟩,
    (set_sizes_base_spec c8Stream 0 1 c8Parsed (by decide) (by decide)).1,
    (set_sizes_base_spec c8Stream 0 1 c8Parsed (by decide) (by decide)).2 0
      (by decide)⟩

/-- **C10.** For every `PairsData` whose `idxbits` field is 0 (the
single-value table, where the header's first byte has bit `0x80` set and
only `min_len` is stored), `decompress_pairs` returns `min_len` for every
index `idx` — and it does so without reading the index table, size table,
or block data: any other `DecData` with `idxbits = 0` and the same
`min_len` (arbitrary tables) and any index or fuel give the same
result. -/
theorem decompress_pairs_single (fuel fuel' : Nat) (d d' : DecData)
    (idx idx' : Nat) (h : d.idxbits = 0) :
    decompress_pairs fuel d idx = some d.min_len ∧
    (d'.idxbits = 0 → d'.min_len = d.min_len →
      decompress_pairs fuel' d' idx' = decompress_pairs fuel d idx) := by
  constructor
  · unfold decompress_pairs
    rw [if_pos h]
  · intro h' hm
    unfold decompress_pairs
    rw [if_pos h, if_pos h', hm]

/-- Witness for `decompress_pairs_single`: the two concrete single-value
`DecData`s above both decode every index to `min_len = 5`. -/
theorem decompress_pairs_single_witness :
    singleDec.idxbits = 0 ∧ singleDec'.idxbits = 0 ∧
      singleDec'.min_len = singleDec.min_len ∧
      decompress_pairs 3 singleDec 12345 = some 5 ∧
      decompress_pairs 99 singleDec' 7 = decompress_pairs 3 singleDec 12345 :=
  ⟨rfl, rfl, rfl,
    (decompress_pairs_single 3 99 singleDec singleDec' 12345 7 rfl).1.trans
      (by decide),
    (decompress_pairs_single 3 99 singleDec singleDec' 12345 7 rfl).2 rfl rfl⟩

/-- The spec-side success value is always 1 or 2 (loop form). -/
theorem probeABSpecLoop_succ :
    ∀ (l : List (MAttr × PTree)) (wt : Option Int) (a b : Int),
      (probeABSpecLoop wt l a b).2 = 1 ∨ (probeABSpecLoop wt l a b).2 = 2 := by
  intro l
  induction l with
  | nil =>
    intro wt a b
    simp only [probeABSpecLoop]
    split
    · exact Or.inr rfl
    · exact Or.inl rfl
  | cons p rest ih =>
    intro wt a b
    obtain ⟨m, ch⟩ := p
    simp only [probeABSpecLoop]
    split
    · split
      · exact Or.inr rfl
      · exact ih wt _ b
    · exact ih wt a b

/-- The spec-side success value is always 1 or 2. -/
theorem probeABSpec_succ (t : PTree) (a b : Int) :
    (probeABSpec t a b).2 = 1 ∨ (probeABSpec t a b).2 = 2 := by
  cases t
  simp only [probeABSpec]
  exact probeABSpecLoop_succ _ _ _ _

/-- Equivalence of the `probe_ab` capture loop with its specification,
given the equivalence for every child in the list. -/
theorem probeABLoop_eq_spec :
    ∀ (l : List (MAttr × PTree)) (wt : Option Int) (a b : Int),
      a < b → wt ≠ none →
      (∀ p ∈ l, ∀ a' b' : Int, a' < b' →
        ((probeAB p.2 a' b').val, (probeAB p.2 a' b').succ) = probeABSpec p.2 a' b') →
      ((probeABLoop wt l a b).val, (probeABLoop wt l a b).succ) =
        probeABSpecLoop wt l a b := by
  intro l
  induction l with
  | nil =>
    intro wt a b hab hwt _
    obtain ⟨w, rfl⟩ := Option.ne_none_iff_exists'.mp hwt
    simp only [probeABLoop, probeABSpecLoop, Option.getD_some]
    by_cases hw : w ≤ a
    · have hm : max a w = a := by omega
      by_cases ha : 0 < a
      · simp [hw, ha, hm]
      · simp [hw, ha, hm]
    · have hm : max a w = w := by omega
      simp [hw, hm]
  | cons p rest ih =>
    intro wt a b hab hwt hch
    obtain ⟨m, ch⟩ := p
    simp only [probeABLoop, probeABSpecLoop]
    by_cases hf : (m.isCap && !m.isEp && m.isLegal) = true
    · rw [if_pos hf, if_pos hf]
      have hcheq := hch (m, ch) (List.mem_cons_self _ _) (-b) (-a) (by omega)
      have hv : (probeAB ch (-b) (-a)).val = (probeABSpec ch (-b) (-a)).1 :=
        congrArg Prod.fst hcheq
      have hsucc : (probeAB ch (-b) (-a)).succ = (probeABSpec ch (-b) (-a)).2 :=
        congrArg Prod.snd hcheq
      have hnz : ¬ (probeAB ch (-b) (-a)).succ = 0 := by
        rw [hsucc]
        rcases probeABSpec_succ ch (-b) (-a) with h | h <;> omega
      rw [if_neg hnz]
      rw [← hv]
      by_cases hgt : a < -(probeAB ch (-b) (-a)).val
      · rw [if_pos hgt]
        by_cases hcut : b ≤ -(probeAB ch (-b) (-a)).val
        · rw [if_pos hcut, if_pos hcut]
        · rw [if_neg hcut, if_neg hcut]
          have hmax : max a (-(probeAB ch (-b) (-a)).val) =
              -(probeAB ch (-b) (-a)).val := by omega
          rw [hmax]
          exact ih wt _ b (by omega) hwt
            (fun p hp => hch p (List.mem_cons_of_mem _ hp))
      · rw [if_neg hgt]
        have hncut : ¬ b ≤ -(probeAB ch (-b) (-a)).val := by omega
        rw [if_neg hncut]
        have hmax : max a (-(probeAB ch (-b) (-a)).val) = a := by omega
        rw [hmax]
        exact ih wt a b hab hwt (fun p hp => hch p (List.mem_cons_of_mem _ hp))
    · rw [if_neg hf, if_neg hf]
      exact ih wt a b hab hwt (fun p hp => hch p (List.mem_cons_of_mem _ hp))

/-- `probeAB` agrees with its specification, by strong induction on the
tree size. -/
theorem probeAB_eq_spec_aux :
    ∀ (n : Nat) (t : PTree), sizeOf t ≤ n → NoFail t →
      ∀ a b : Int, a < b →
      ((probeAB t a b).val, (probeAB t a b).succ) = probeABSpec t a b := by
  intro n
  induction n with
  | zero =>
    intro t hst
    exfalso
    cases t
    simp_arith at hst
  | succ n ih =>
    intro t hst hnf a b hab
    cases t with
    | node ck ep wt dt cu c e nv q =>
      cases hnf with
      | mk _ _ _ _ _ _ _ _ _ hwt hcu hc he hn hq =>
        simp only [probeAB, probeABSpec]
        refine probeABLoop_eq_spec _ wt a b hab hwt ?_
        intro p hp a' b' hab'
        have hsz : sizeOf p.2 ≤ n := by
          have h1 : sizeOf p < sizeOf (if ck then e else cu) :=
            List.sizeOf_lt_of_mem hp
          have h2 : sizeOf p.2 < sizeOf p := by
            obtain ⟨m, ch⟩ := p
            simp_arith
          have h3 : sizeOf (if ck then e else cu)
              < sizeOf (PTree.node ck ep wt dt cu c e nv q) := by
            cases ck <;> simp_arith
          omega
        have hnf' : NoFail p.2 := by
          cases ck
          · exact hcu p (by simpa using hp)
          · exact he p (by simpa using hp)
        exact ih p.2 hsz hnf' a' b' hab'

/-- **C3.** For every position and bounds `alpha < beta` (with every
table lookup in the tree succeeding), `probe_ab` behaves as specified:
it recurses over legal non-en-passant captures with negated bounds; if
some capture yields `value >= beta` it returns that value immediately
with `*success = 2`; otherwise it returns `max(alpha', wdl)` where
`alpha'` is the raised alpha and `wdl` the raw table WDL, with
`*success = 2` if `alpha' >= wdl` and `alpha' > 0`, and `1` otherwise —
this is the statement `probeAB = probeABSpec`, where `probeABSpec` is
the literal rendering of the claim. -/
theorem probe_ab_spec (t : PTree) (a b : Int) (hab : a < b) (hnf : NoFail t) :
    ((probeAB t a b).val, (probeAB t a b).succ) = probeABSpec t a b :=
  probeAB_eq_spec_aux (sizeOf t) t (le_refl _) hnf a b hab

/-- `abLeaf` has no failing lookups. -/
theorem abLeaf_noFail : NoFail abLeaf := by
  unfold abLeaf
  exact NoFail.mk _ _ _ _ _ _ _ _ _ (by simp) (by simp) (by simp) (by simp)
    (by simp) (by simp)

/-- `abTree` has no failing lookups. -/
theorem abTree_noFail : NoFail abTree := by
  unfold abTree
  refine NoFail.mk _ _ _ _ _ _ _ _ _ (by simp) ?_ (by simp) (by simp) (by simp)
    (by simp)
  intro p hp
  simp only [List.mem_singleton] at hp
  subst hp
  exact abLeaf_noFail

/-- Witness for `probe_ab_spec`: the concrete two-node tree `abTree`
with window `(-2, 2)`. -/
theorem probe_ab_spec_witness :
    ((-2 : Int) < 2 ∧ NoFail abTree) ∧
      ((probeAB abTree (-2) 2).val, (probeAB abTree (-2) 2).succ) =
        probeABSpec abTree (-2) 2 :=
  ⟨⟨by norm_num, abTree_noFail⟩,
    probe_ab_spec abTree (-2) 2 (by norm_num) abTree_noFail⟩

/-- If the `probe_ab` capture loop reports `success = 2`, its value is at
least `beta` (a cutoff) or positive (a raised alpha). -/
theorem probeABLoop_wins :
    ∀ (l : List (MAttr × PTree)) (wt : Option Int) (a b : Int),
      (probeABLoop wt l a b).succ = 2 →
      b ≤ (probeABLoop wt l a b).val ∨ 0 < (probeABLoop wt l a b).val := by
  intro l
  induction l with
  | nil =>
    intro wt a b h
    cases wt with
    | none =>
      simp only [probeABLoop] at h
      exact absurd h (by decide)
    | some w =>
      simp only [probeABLoop] at h ⊢
      by_cases hw : w ≤ a
      · rw [if_pos hw] at h ⊢
        by_cases ha : 0 < a
        · exact Or.inr ha
        · rw [if_neg ha] at h
          simp at h
      · rw [if_neg hw] at h
        simp at h
  | cons p rest ih =>
    intro wt a b h
    obtain ⟨m, ch⟩ := p
    simp only [probeABLoop] at h ⊢
    by_cases hf : (m.isCap && !m.isEp && m.isLegal) = true
    · rw [if_pos hf] at h ⊢
      by_cases hz : (probeAB ch (-b) (-a)).succ = 0
      · rw [if_pos hz] at h
        simp at h
      · rw [if_neg hz] at h ⊢
        by_cases hgt : a < -(probeAB ch (-b) (-a)).val
        · rw [if_pos hgt] at h ⊢
          by_cases hcut : b ≤ -(probeAB ch (-b) (-a)).val
          · rw [if_pos hcut]
            exact Or.inl hcut
          · rw [if_neg hcut] at h ⊢
            exact ih wt _ b h
        · rw [if_neg hgt] at h ⊢
          exact ih wt a b h
    · rw [if_neg hf] at h ⊢
      exact ih wt a b h

/-- If `probe_ab` reports `success = 2`, its value is at least `beta` or
positive. -/
theorem probeAB_wins (t : PTree) (a b : Int)
    (h : (probeAB t a b).succ = 2) :
    b ≤ (probeAB t a b).val ∨ 0 < (probeAB t a b).val := by
  cases t
  simp only [probeAB] at h ⊢
  exact probeABLoop_wins _ _ _ _ h

/-- **C4.** When the initial full-window `probe_ab` call inside
`probe_dtz_no_ep` sets `*success` to 2 (a forced zeroing move achieves
the WDL), `probe_dtz_no_ep` returns `+1` for a true win and `+101` for a
cursed win, the sign following the sign of the (necessarily positive)
WDL score; the loss cases `-1` / `-101` cannot arise, because
`success = 2` forces a positive WDL under the window
`(WDLLoss, WDLWin)`. -/
theorem probe_dtz_no_ep_zeroing (t : PTree)
    (h2 : (probeAB t (-2) 2).succ = 2) :
    0 < (probeAB t (-2) 2).val ∧
    (probeDTZNoEp t).val =
      (if (probeAB t (-2) 2).val = WDLWin then 1 else 101) ∧
    (probeDTZNoEp t).succ = 2 ∧
    ((probeAB t (-2) 2).val = WDLWin ∨ (probeAB t (-2) 2).val = WDLCursedWin →
      0 < (probeDTZNoEp t).val) ∧
    ((probeAB t (-2) 2).val = WDLLoss → (probeDTZNoEp t).val = -1) ∧
    ((probeAB t (-2) 2).val = WDLCursedLoss → (probeDTZNoEp t).val = -101) := by
  have hpos : 0 < (probeAB t (-2) 2).val := by
    rcases probeAB_wins t (-2) 2 h2 with h | h
    · omega
    · exact h
  cases t with
  | node ck ep wt dt cu c e nv q =>
    simp only [probeDTZNoEp]
    rw [if_neg (by omega : ¬ (probeAB (.node ck ep wt dt cu c e nv q) (-2) 2).succ = 0)]
    rw [if_neg (by omega : ¬ (probeAB (.node ck ep wt dt cu c e nv q) (-2) 2).val = 0)]
    rw [if_pos h2]
    refine ⟨hpos, rfl, rfl, ?_, ?_, ?_⟩
    · intro _
      dsimp only
      split <;> norm_num
    · intro hc
      rw [WDLLoss] at hc
      exact absurd hc (by omega)
    · intro hc
      rw [WDLCursedLoss] at hc
      exact absurd hc (by omega)

/-- Witness for `probe_dtz_no_ep_zeroing`: on `abTree` the capture
cutoff yields `success = 2` with `wdl = 2`, and `probe_dtz_no_ep`
returns 1. -/
theorem probe_dtz_no_ep_zeroing_witness :
    (probeAB abTree (-2) 2).succ = 2 ∧
      (0 < (probeAB abTree (-2) 2).val ∧
      (probeDTZNoEp abTree).val =
        (if (probeAB abTree (-2) 2).val = WDLWin then 1 else 101) ∧
      (probeDTZNoEp abTree).succ = 2 ∧
      ((probeAB abTree (-2) 2).val = WDLWin ∨
          (probeAB abTree (-2) 2).val = WDLCursedWin →
        0 < (probeDTZNoEp abTree).val) ∧
      ((probeAB abTree (-2) 2).val = WDLLoss → (probeDTZNoEp abTree).val = -1) ∧
      ((probeAB abTree (-2) 2).val = WDLCursedLoss →
        (probeDTZNoEp abTree).val = -101)) := by
  have h2 : (probeAB abTree (-2) 2).succ = 2 := by
    simp [abTree, abLeaf, probeAB, probeABLoop]
  exact ⟨h2, probe_dtz_no_ep_zeroing abTree h2⟩

/-- Concatenating clean traces is clean. -/
theorem cleanTr_append {t1 t2 : List Bool} (h1 : CleanTr t1) (h2 : CleanTr t2) :
    CleanTr (t1 ++ t2) := by
  unfold CleanTr at *
  simp only [List.mem_append]
  rintro (h | h)
  · exact h1 h
  · exact h2 h

/-- A clean prefix before a fail-last trace gives a fail-last trace. -/
theorem failTr_append {t1 t2 : List Bool} (h1 : CleanTr t1) (h2 : FailTr t2) :
    FailTr (t1 ++ t2) := by
  obtain ⟨pre, rfl, hpre⟩ := h2
  exact ⟨t1 ++ pre, by simp, fun h => by
    rcases List.mem_append.mp h with h | h
    · exact h1 h
    · exact hpre h⟩

/-- The one-element failed trace. -/
theorem failTr_single : FailTr [false] := ⟨[], rfl, by simp⟩

/-- The `probe_ab` capture loop short-circuits failures: `success = 0`
iff a lookup failed, the failure is the last lookup performed, and on
failure the returned value is the dummy `WDLDraw = 0`. -/
theorem probeABLoop_failLast :
    ∀ (l : List (MAttr × PTree)) (wt : Option Int) (a b : Int),
      (∀ p ∈ l, ∀ a' b' : Int,
        FailLast (probeAB p.2 a' b').tr (probeAB p.2 a' b').succ ∧
        ((probeAB p.2 a' b').succ = 0 → (probeAB p.2 a' b').val = 0)) →
      FailLast (probeABLoop wt l a b).tr (probeABLoop wt l a b).succ ∧
      ((probeABLoop wt l a b).succ = 0 → (probeABLoop wt l a b).val = 0) := by
  intro l
  induction l with
  | nil =>
    intro wt a b _
    cases wt with
    | none =>
      simp only [probeABLoop]
      exact ⟨by unfold FailLast; simp [failTr_single], fun _ => trivial⟩
    | some w =>
      simp only [probeABLoop]
      by_cases hw : w ≤ a
      · rw [if_pos hw]
        by_cases ha : 0 < a
        · rw [if_pos ha]
          exact ⟨by unfold FailLast CleanTr; simp, by intro h; simp at h⟩
        · rw [if_neg ha]
          exact ⟨by unfold FailLast CleanTr; simp, by intro h; simp at h⟩
      · rw [if_neg hw]
        exact ⟨by unfold FailLast CleanTr; simp, by intro h; simp at h⟩
  | cons p rest ih =>
    intro wt a b hch
    obtain ⟨m, ch⟩ := p
    have hc := hch (m, ch) (List.mem_cons_self _ _) (-b) (-a)
    have htail : ∀ p ∈ rest, ∀ a' b' : Int,
        FailLast (probeAB p.2 a' b').tr (probeAB p.2 a' b').succ ∧
        ((probeAB p.2 a' b').succ = 0 → (probeAB p.2 a' b').val = 0) :=
      fun p hp => hch p (List.mem_cons_of_mem _ hp)
    simp only [probeABLoop]
    by_cases hf : (m.isCap && !m.isEp && m.isLegal) = true
    · rw [if_pos hf]
      by_cases hz : (probeAB ch (-b) (-a)).succ = 0
      · rw [if_pos hz]
        refine ⟨?_, fun _ => rfl⟩
        unfold FailLast
        rw [if_pos rfl]
        have h1 := hc.1
        unfold FailLast at h1
        rw [if_pos hz] at h1
        exact h1
      · rw [if_neg hz]
        have hclean : CleanTr (probeAB ch (-b) (-a)).tr := by
          have h1 := hc.1
          unfold FailLast at h1
          rw [if_neg hz] at h1
          exact h1
        by_cases hgt : a < -(probeAB ch (-b) (-a)).val
        · rw [if_pos hgt]
          by_cases hcut : b ≤ -(probeAB ch (-b) (-a)).val
          · rw [if_pos hcut]
            refine ⟨?_, by intro h; simp at h⟩
            unfold FailLast
            rw [if_neg (by decide : ¬ (2 : Int) = 0)]
            exact hclean
          · rw [if_neg hcut]
            dsimp only
            have hr := ih wt (-(probeAB ch (-b) (-a)).val) b htail
            constructor
            · unfold FailLast at hr ⊢
              by_cases hs :
                  (probeABLoop wt rest (-(probeAB ch (-b) (-a)).val) b).succ = 0
              · rw [if_pos hs] at hr ⊢
                exact failTr_append hclean hr.1
              · rw [if_neg hs] at hr ⊢
                exact cleanTr_append hclean hr.1
            · intro h
              exact hr.2 h
        · rw [if_neg hgt]
          dsimp only
          have hr := ih wt a b htail
          constructor
          · unfold FailLast at hr ⊢
            by_cases hs : (probeABLoop wt rest a b).succ = 0
            · rw [if_pos hs] at hr ⊢
              exact failTr_append hclean hr.1
            · rw [if_neg hs] at hr ⊢
              exact cleanTr_append hclean hr.1
          · intro h
            exact hr.2 h
    · rw [if_neg hf]
      exact ih wt a b htail

/-- `probe_ab` short-circuits failures (strong induction on tree size). -/
theorem probeAB_failLast_aux :
    ∀ (n : Nat) (t : PTree), sizeOf t ≤ n → ∀ a b : Int,
      FailLast (probeAB t a b).tr (probeAB t a b).succ ∧
      ((probeAB t a b).succ = 0 → (probeAB t a b).val = 0) := by
  intro n
  induction n with
  | zero =>
    intro t hst
    exfalso
    cases t
    simp_arith at hst
  | succ n ih =>
    intro t hst a b
    cases t with
    | node ck ep wt dt cu c e nv q =>
      simp only [probeAB]
      refine probeABLoop_failLast _ wt a b ?_
      intro p hp a' b'
      have hsz : sizeOf p.2 ≤ n := by
        have h1 : sizeOf p < sizeOf (if ck then e else cu) :=
          List.sizeOf_lt_of_mem hp
        have h2 : sizeOf p.2 < sizeOf p := by
          obtain ⟨m, ch⟩ := p
          simp_arith
        have h3 : sizeOf (if ck then e else cu)
            < sizeOf (PTree.node ck ep wt dt cu c e nv q) := by
          cases ck <;> simp_arith
        omega
      exact ih p.2 hsz a' b'

/-- `probe_ab` short-circuits failures. -/
theorem probeAB_failLast (t : PTree) (a b : Int) :
    FailLast (probeAB t a b).tr (probeAB t a b).succ ∧
    ((probeAB t a b).succ = 0 → (probeAB t a b).val = 0) :=
  probeAB_failLast_aux (sizeOf t) t (le_refl _) a b

/-- The en-passant loop short-circuits failures: on failure the trace
ends at the failed lookup with `success = 0`; otherwise the trace is
clean and the threaded `success` is non-zero. -/
theorem epLoop_failLast :
    ∀ (l : List (MAttr × PTree)) (v1 s : Int), s ≠ 0 →
      ((epLoop l v1 s).1 = true →
        FailTr (epLoop l v1 s).2.2.2 ∧ (epLoop l v1 s).2.2.1 = 0) ∧
      ((epLoop l v1 s).1 = false →
        CleanTr (epLoop l v1 s).2.2.2 ∧ (epLoop l v1 s).2.2.1 ≠ 0) := by
  intro l
  induction l with
  | nil =>
    intro v1 s hs
    simp only [epLoop]
    exact ⟨fun h => absurd h (by decide), fun _ => ⟨by simp [CleanTr], hs⟩⟩
  | cons p rest ih =>
    intro v1 s hs
    obtain ⟨m, ch⟩ := p
    simp only [epLoop]
    by_cases hf : (m.isEp && m.isLegal) = true
    · rw [if_pos hf]
      have hab := probeAB_failLast ch (-2) 2
      by_cases hz : (probeAB ch (-2) 2).succ = 0
      · rw [if_pos hz]
        have h1 := hab.1
        unfold FailLast at h1
        rw [if_pos hz] at h1
        exact ⟨fun _ => ⟨h1, rfl⟩, fun h => absurd h (by simp)⟩
      · rw [if_neg hz]
        have hclean : CleanTr (probeAB ch (-2) 2).tr := by
          have h1 := hab.1
          unfold FailLast at h1
          rw [if_neg hz] at h1
          exact h1
        dsimp only
        have hr := ih (if v1 < -(probeAB ch (-2) 2).val then -(probeAB ch (-2) 2).val else v1)
          (probeAB ch (-2) 2).succ hz
        constructor
        · intro h
          obtain ⟨h1, h2⟩ := hr.1 h
          exact ⟨failTr_append hclean h1, h2⟩
        · intro h
          obtain ⟨h1, h2⟩ := hr.2 h
          exact ⟨cleanTr_append hclean h1, h2⟩
    · rw [if_neg hf]
      exact ih v1 s hs

/-- The pawn-move loop of `probe_dtz_no_ep` short-circuits failures. -/
theorem pawnLoop_failLast :
    ∀ (l : List (MAttr × PTree)) (wdl s : Int), s ≠ 0 →
      StepOk (pawnLoop wdl l s) := by
  intro l
  induction l with
  | nil =>
    intro wdl s hs
    simp only [pawnLoop]
    exact ⟨by simp [CleanTr], hs⟩
  | cons p rest ih =>
    intro wdl s hs
    obtain ⟨m, ch⟩ := p
    simp only [pawnLoop]
    by_cases hf : (m.isPawnMove && !m.isCap && m.isLegal) = true
    · rw [if_pos hf]
      have hab := probeAB_failLast ch (-2) (-wdl + 1)
      by_cases hz : (probeAB ch (-2) (-wdl + 1)).succ = 0
      · rw [if_pos hz]
        have h1 := hab.1
        unfold FailLast at h1
        rw [if_pos hz] at h1
        exact h1
      · rw [if_neg hz]
        have hclean : CleanTr (probeAB ch (-2) (-wdl + 1)).tr := by
          have h1 := hab.1
          unfold FailLast at h1
          rw [if_neg hz] at h1
          exact h1
        by_cases hv : -(probeAB ch (-2) (-wdl + 1)).val = wdl
        · rw [if_pos hv]
          exact ⟨hclean, hz⟩
        · rw [if_neg hv]
          have hr := ih wdl (probeAB ch (-2) (-wdl + 1)).succ hz
          cases hrec : pawnLoop wdl rest (probeAB ch (-2) (-wdl + 1)).succ with
          | fail tr =>
            rw [hrec] at hr
            exact failTr_append hclean hr
          | ret rr =>
            rw [hrec] at hr
            exact ⟨cleanTr_append hclean hr.1, hr.2⟩
          | cont s' tr =>
            rw [hrec] at hr
            exact ⟨cleanTr_append hclean hr.1, hr.2⟩
    · rw [if_neg hf]
      exact ih wdl s hs

/-- The winning reconstruction loop short-circuits failures, given the
property for each child's `probe_dtz`. -/
theorem winLoop_failLast :
    ∀ (l : List (MAttr × PTree)) (best s : Int), s ≠ 0 →
      (∀ p ∈ l, FailLast (probeDTZ p.2).tr (probeDTZ p.2).succ) →
      ((winLoop l best s).1 = true → FailTr (winLoop l best s).2.2.2) ∧
      ((winLoop l best s).1 = false →
        CleanTr (winLoop l best s).2.2.2 ∧ (winLoop l best s).2.2.1 ≠ 0) := by
  intro l
  induction l with
  | nil =>
    intro best s hs _
    simp only [winLoop]
    exact ⟨fun h => absurd h (by decide), fun _ => ⟨by simp [CleanTr], hs⟩⟩
  | cons p rest ih =>
    intro best s hs hch
    obtain ⟨m, ch⟩ := p
    have hc := hch (m, ch) (List.mem_cons_self _ _)
    have htail := fun p hp => hch p (List.mem_cons_of_mem _ hp)
    simp only [winLoop]
    by_cases hf : (!m.isCap && !m.isPawnMove && m.isLegal) = true
    · rw [if_pos hf]
      by_cases hz : (probeDTZ ch).succ = 0
      · rw [if_pos hz]
        unfold FailLast at hc
        rw [if_pos hz] at hc
        exact ⟨fun _ => hc, fun h => absurd h (by simp)⟩
      · rw [if_neg hz]
        have hclean : CleanTr (probeDTZ ch).tr := by
          unfold FailLast at hc
          rw [if_neg hz] at hc
          exact hc
        dsimp only
        have hr := ih
          (if 0 < -(probeDTZ ch).val ∧ -(probeDTZ ch).val + 1 < best
            then -(probeDTZ ch).val + 1 else best) (probeDTZ ch).succ hz htail
        constructor
        · intro h
          exact failTr_append hclean (hr.1 h)
        · intro h
          obtain ⟨h1, h2⟩ := hr.2 h
          exact ⟨cleanTr_append hclean h1, h2⟩
    · rw [if_neg hf]
      exact ih best s hs htail

/-- The losing reconstruction loop short-circuits failures, given the
property for each child's `probe_dtz`. -/
theorem lossLoop_failLast :
    ∀ (l : List (MAttr × PTree)) (wdl best s : Int), s ≠ 0 →
      (∀ p ∈ l, FailLast (probeDTZ p.2).tr (probeDTZ p.2).succ) →
      ((lossLoop wdl l best s).1 = true → FailTr (lossLoop wdl l best s).2.2.2) ∧
      ((lossLoop wdl l best s).1 = false →
        CleanTr (lossLoop wdl l best s).2.2.2 ∧
          (lossLoop wdl l best s).2.2.1 ≠ 0) := by
  intro l
  induction l with
  | nil =>
    intro wdl best s hs _
    simp only [lossLoop]
    exact ⟨fun h => absurd h (by decide), fun _ => ⟨by simp [CleanTr], hs⟩⟩
  | cons p rest ih =>
    intro wdl best s hs hch
    obtain ⟨m, ch⟩ := p
    have hc := hch (m, ch) (List.mem_cons_self _ _)
    have htail := fun p hp => hch p (List.mem_cons_of_mem _ hp)
    simp only [lossLoop]
    by_cases hl : m.isLegal = true
    · rw [if_pos hl]
      by_cases hzr : m.zeroing = true
      · rw [if_pos hzr]
        by_cases hw2 : wdl = -2
        · rw [if_pos hw2]
          exact ih wdl _ s hs htail
        · rw [if_neg hw2]
          have hab := probeAB_failLast ch 1 2
          by_cases hz : (probeAB ch 1 2).succ = 0
          · rw [if_pos hz]
            have h1 := hab.1
            unfold FailLast at h1
            rw [if_pos hz] at h1
            exact ⟨fun _ => h1, fun h => absurd h (by simp)⟩
          · rw [if_neg hz]
            have hclean : CleanTr (probeAB ch 1 2).tr := by
              have h1 := hab.1
              unfold FailLast at h1
              rw [if_neg hz] at h1
              exact h1
            dsimp only
            have hr := ih wdl
              (if (if (probeAB ch 1 2).val = 2 then (0 : Int) else -101) < best
                then (if (probeAB ch 1 2).val = 2 then (0 : Int) else -101)
                else best) (probeAB ch 1 2).succ hz htail
            constructor
            · intro h
              exact failTr_append hclean (hr.1 h)
            · intro h
              obtain ⟨h1, h2⟩ := hr.2 h
              exact ⟨cleanTr_append hclean h1, h2⟩
      · rw [if_neg hzr]
        by_cases hz : (probeDTZ ch).succ = 0
        · rw [if_pos hz]
          unfold FailLast at hc
          rw [if_pos hz] at hc
          exact ⟨fun _ => hc, fun h => absurd h (by simp)⟩
        · rw [if_neg hz]
          have hclean : CleanTr (probeDTZ ch).tr := by
            unfold FailLast at hc
            rw [if_neg hz] at hc
            exact hc
          dsimp only
          have hr := ih wdl
            (if -(probeDTZ ch).val - 1 < best then -(probeDTZ ch).val - 1 else best)
            (probeDTZ ch).succ hz htail
          constructor
          · intro h
            exact failTr_append hclean (hr.1 h)
          · intro h
            obtain ⟨h1, h2⟩ := hr.2 h
            exact ⟨cleanTr_append hclean h1, h2⟩
    · rw [if_neg hl]
      exact ih wdl best s hs htail

/-- `probe_wdl` short-circuits failures, and fails with the dummy value
`WDLDraw = 0`. -/
theorem probeWDL_failLast (t : PTree) :
    FailLast (probeWDL t).tr (probeWDL t).succ ∧
    ((probeWDL t).succ = 0 → (probeWDL t).val = 0) := by
  cases t with
  | node ck ep wt dt cu c e nv q =>
    have hab := probeAB_failLast (.node ck ep wt dt cu c e nv q) (-2) 2
    cases ep with
    | false =>
      simp only [probeWDL, Bool.not_false, if_true]
      exact hab
    | true =>
      simp only [probeWDL, Bool.not_true, Bool.false_eq_true, if_false]
      by_cases hz : (probeAB (.node ck true wt dt cu c e nv q) (-2) 2).succ = 0
      · rw [if_pos hz]
        refine ⟨?_, fun _ => rfl⟩
        unfold FailLast
        rw [if_pos rfl]
        have h1 := hab.1
        unfold FailLast at h1
        rw [if_pos hz] at h1
        exact h1
      · rw [if_neg hz]
        have hclean : CleanTr (probeAB (.node ck true wt dt cu c e nv q) (-2) 2).tr := by
          have h1 := hab.1
          unfold FailLast at h1
          rw [if_neg hz] at h1
          exact h1
        have hel := epLoop_failLast (if ck then e else c) (-3)
          (probeAB (.node ck true wt dt cu c e nv q) (-2) 2).succ hz
        by_cases hfail :
            (epLoop (if ck then e else c) (-3)
              (probeAB (.node ck true wt dt cu c e nv q) (-2) 2).succ).1 = true
        · rw [if_pos hfail]
          obtain ⟨h1, _⟩ := hel.1 hfail
          refine ⟨?_, fun _ => rfl⟩
          unfold FailLast
          rw [if_pos rfl]
          exact failTr_append hclean h1
        · rw [if_neg hfail]
          have hbf := hel.2 (by revert hfail; cases h :
            (epLoop (if ck then e else c) (-3)
              (probeAB (.node ck true wt dt cu c e nv q) (-2) 2).succ).1 <;> simp)
          obtain ⟨hcl2, hs2⟩ := hbf
          have hgen : ∀ Y : ABRes,
              Y.succ = (epLoop (if ck then e else c) (-3)
                (probeAB (.node ck true wt dt cu c e nv q) (-2) 2).succ).2.2.1 →
              Y.tr = (probeAB (.node ck true wt dt cu c e nv q) (-2) 2).tr ++
                (epLoop (if ck then e else c) (-3)
                  (probeAB (.node ck true wt dt cu c e nv q) (-2) 2).succ).2.2.2 →
              FailLast Y.tr Y.succ ∧ (Y.succ = 0 → Y.val = 0) := by
            intro Y h1 h2
            rw [h1, h2]
            unfold FailLast
            rw [if_neg hs2]
            exact ⟨cleanTr_append hclean hcl2, fun h => absurd h hs2⟩
          refine hgen _ ?_ ?_
          · repeat' split
            all_goals rfl
          · repeat' split
            all_goals rfl

/-- `probe_dtz_no_ep` and `probe_dtz` short-circuit failures (strong
induction on tree size). -/
theorem dtz_failLast_aux :
    ∀ (n : Nat) (t : PTree), sizeOf t ≤ n →
      FailLast (probeDTZNoEp t).tr (probeDTZNoEp t).succ ∧
      FailLast (probeDTZ t).tr (probeDTZ t).succ := by
  intro n
  induction n with
  | zero =>
    intro t hst
    exfalso
    cases t
    simp_arith at hst
  | succ n ih =>
    intro t hst
    cases t with
    | node ck ep wt dt cu c e nv q =>
      have hchild : ∀ p ∈ (if ck then e else nv),
          FailLast (probeDTZ p.2).tr (probeDTZ p.2).succ := by
        intro p hp
        have hsz : sizeOf p.2 ≤ n := by
          have h1 : sizeOf p < sizeOf (if ck then e else nv) :=
            List.sizeOf_lt_of_mem hp
          have h2 : sizeOf p.2 < sizeOf p := by
            obtain ⟨m, chp⟩ := p
            simp_arith
          have h3 : sizeOf (if ck then e else nv)
              < sizeOf (PTree.node ck ep wt dt cu c e nv q) := by
            cases ck <;> simp_arith
          omega
        exact (ih p.2 hsz).2
      have hab := probeAB_failLast (.node ck ep wt dt cu c e nv q) (-2) 2
      have hnoEp : FailLast (probeDTZNoEp (.node ck ep wt dt cu c e nv q)).tr
          (probeDTZNoEp (.node ck ep wt dt cu c e nv q)).succ := by
        simp only [probeDTZNoEp]
        by_cases hz : (probeAB (.node ck ep wt dt cu c e nv q) (-2) 2).succ = 0
        · rw [if_pos hz]
          unfold FailLast
          rw [if_pos rfl]
          have h1 := hab.1
          unfold FailLast at h1
          rw [if_pos hz] at h1
          exact h1
        · rw [if_neg hz]
          have hclean : CleanTr (probeAB (.node ck ep wt dt cu c e nv q) (-2) 2).tr := by
            have h1 := hab.1
            unfold FailLast at h1
            rw [if_neg hz] at h1
            exact h1
          by_cases hw0 : (probeAB (.node ck ep wt dt cu c e nv q) (-2) 2).val = 0
          · rw [if_pos hw0]
            unfold FailLast
            rw [if_neg hz]
            exact hclean
          · rw [if_neg hw0]
            by_cases h2 : (probeAB (.node ck ep wt dt cu c e nv q) (-2) 2).succ = 2
            · rw [if_pos h2]
              unfold FailLast
              rw [if_neg (by decide : ¬ (2 : Int) = 0)]
              exact hclean
            · rw [if_neg h2]
              have hstep : StepOk
                  (if 0 < (probeAB (.node ck ep wt dt cu c e nv q) (-2) 2).val then
                    pawnLoop (probeAB (.node ck ep wt dt cu c e nv q) (-2) 2).val
                      (if ck then e else nv)
                      (probeAB (.node ck ep wt dt cu c e nv q) (-2) 2).succ
                  else DtzStep.cont
                    (probeAB (.node ck ep wt dt cu c e nv q) (-2) 2).succ []) := by
                split
                · exact pawnLoop_failLast _ _ _ hz
                · exact ⟨by simp [CleanTr], hz⟩
              cases hm : (if 0 < (probeAB (.node ck ep wt dt cu c e nv q) (-2) 2).val then
                    pawnLoop (probeAB (.node ck ep wt dt cu c e nv q) (-2) 2).val
                      (if ck then e else nv)
                      (probeAB (.node ck ep wt dt cu c e nv q) (-2) 2).succ
                  else DtzStep.cont
                    (probeAB (.node ck ep wt dt cu c e nv q) (-2) 2).succ []) with
              | fail tr =>
                rw [hm] at hstep
                unfold FailLast
                rw [if_pos rfl]
                exact failTr_append hclean hstep
              | ret rr =>
                rw [hm] at hstep
                unfold FailLast
                rw [if_neg hstep.2]
                exact cleanTr_append hclean hstep.1
              | cont s1 tr1 =>
                rw [hm] at hstep
                obtain ⟨hcl1, hs1⟩ := hstep
                cases hd : dt (probeAB (.node ck ep wt dt cu c e nv q) (-2) 2).val with
                | fail =>
                  unfold FailLast
                  rw [if_pos rfl]
                  exact failTr_append (cleanTr_append hclean hcl1) failTr_single
                | ok v =>
                  unfold FailLast
                  rw [if_neg hs1]
                  exact cleanTr_append (cleanTr_append hclean hcl1)
                    (by simp [CleanTr])
                | wrongSide =>
                  dsimp only
                  revert hchild
                  generalize (if ck = true then e else nv) = L
                  intro hchild
                  split
                  · have hwl := winLoop_failLast L 0xffff (-1) (by decide) hchild
                    by_cases hfl : (winLoop L 0xffff (-1)).1 = true
                    · rw [if_pos hfl]
                      unfold FailLast
                      rw [if_pos rfl]
                      exact failTr_append
                        (cleanTr_append (cleanTr_append hclean hcl1)
                          (by simp [CleanTr])) (hwl.1 hfl)
                    · rw [if_neg hfl]
                      have hok := hwl.2 (by revert hfl; cases h :
                        (winLoop L 0xffff (-1)).1 <;> simp)
                      unfold FailLast
                      rw [if_neg hok.2]
                      exact cleanTr_append
                        (cleanTr_append (cleanTr_append hclean hcl1)
                          (by simp [CleanTr])) hok.1
                  · have hll := lossLoop_failLast L
                      (probeAB (.node ck ep wt dt cu c e nv q) (-2) 2).val (-1) (-1)
                      (by decide) hchild
                    by_cases hfl : (lossLoop (probeAB (.node ck ep wt dt cu c e nv q) (-2) 2).val
                        L (-1) (-1)).1 = true
                    · rw [if_pos hfl]
                      unfold FailLast
                      rw [if_pos rfl]
                      exact failTr_append
                        (cleanTr_append (cleanTr_append hclean hcl1)
                          (by simp [CleanTr])) (hll.1 hfl)
                    · rw [if_neg hfl]
                      have hok := hll.2 (by revert hfl; cases h :
                        (lossLoop (probeAB (.node ck ep wt dt cu c e nv q) (-2) 2).val
                          L (-1) (-1)).1 <;> simp)
                      unfold FailLast
                      rw [if_neg hok.2]
                      exact cleanTr_append
                        (cleanTr_append (cleanTr_append hclean hcl1)
                          (by simp [CleanTr])) hok.1
      have hdtz : FailLast (probeDTZ (.node ck ep wt dt cu c e nv q)).tr
          (probeDTZ (.node ck ep wt dt cu c e nv q)).succ := by
        cases ep with
        | false =>
          simp only [probeDTZ, Bool.not_false, if_true]
          exact hnoEp
        | true =>
          simp only [probeDTZ, Bool.not_true, Bool.false_eq_true, if_false]
          by_cases hz : (probeDTZNoEp (.node ck true wt dt cu c e nv q)).succ = 0
          · rw [if_pos hz]
            unfold FailLast
            rw [if_pos rfl]
            have h1 := hnoEp
            unfold FailLast at h1
            rw [if_pos hz] at h1
            exact h1
          · rw [if_neg hz]
            have hclean : CleanTr (probeDTZNoEp (.node ck true wt dt cu c e nv q)).tr := by
              have h1 := hnoEp
              unfold FailLast at h1
              rw [if_neg hz] at h1
              exact h1
            have hel := epLoop_failLast (if ck then e else c) (-3)
              (probeDTZNoEp (.node ck true wt dt cu c e nv q)).succ hz
            by_cases hfail :
                (epLoop (if ck then e else c) (-3)
                  (probeDTZNoEp (.node ck true wt dt cu c e nv q)).succ).1 = true
            · rw [if_pos hfail]
              obtain ⟨h1, _⟩ := hel.1 hfail
              unfold FailLast
              rw [if_pos rfl]
              exact failTr_append hclean h1
            · rw [if_neg hfail]
              have hbf := hel.2 (by revert hfail; cases h :
                (epLoop (if ck then e else c) (-3)
                  (probeDTZNoEp (.node ck true wt dt cu c e nv q)).succ).1 <;> simp)
              obtain ⟨hcl2, hs2⟩ := hbf
              have hgen : ∀ Y : ABRes,
                  Y.succ = (epLoop (if ck then e else c) (-3)
                    (probeDTZNoEp (.node ck true wt dt cu c e nv q)).succ).2.2.1 →
                  Y.tr = (probeDTZNoEp (.node ck true wt dt cu c e nv q)).tr ++
                    (epLoop (if ck then e else c) (-3)
                      (probeDTZNoEp (.node ck true wt dt cu c e nv q)).succ).2.2.2 →
                  FailLast Y.tr Y.succ := by
                intro Y h1 h2
                rw [h1, h2]
                unfold FailLast
                rw [if_neg hs2]
                exact cleanTr_append hclean hcl2
              refine hgen _ ?_ ?_
              · rw [apply_ite ABRes.succ]
                dsimp only
                rw [ite_self]
              · rw [apply_ite ABRes.tr]
                dsimp only
                rw [ite_self]
      exact ⟨hnoEp, hdtz⟩

/-- **C7.** In every recursive probe (`probe_ab`, `probe_wdl`,
`probe_dtz_no_ep`, `probe_dtz`), whenever a child probe or table lookup
sets `*success` to 0, the enclosing call returns immediately with
`*success` still 0, performing no further table lookups or recursion and
never retrying: in the lookup trace, a failed lookup can only be the
final entry, and `success = 0` holds exactly when the trace ends in a
failed lookup.  `probe_ab` and `probe_wdl` moreover return the dummy
value `WDLDraw = 0` in that case (the DTZ probes return an unspecified
dummy value). -/
theorem success_zero_short_circuit (t : PTree) (a b : Int) :
    (FailLast (probeAB t a b).tr (probeAB t a b).succ ∧
      ((probeAB t a b).succ = 0 → (probeAB t a b).val = 0)) ∧
    (FailLast (probeWDL t).tr (probeWDL t).succ ∧
      ((probeWDL t).succ = 0 → (probeWDL t).val = 0)) ∧
    FailLast (probeDTZNoEp t).tr (probeDTZNoEp t).succ ∧
    FailLast (probeDTZ t).tr (probeDTZ t).succ :=
  ⟨probeAB_failLast t a b, probeWDL_failLast t,
    (dtz_failLast_aux (sizeOf t) t (le_refl _)).1,
    (dtz_failLast_aux (sizeOf t) t (le_refl _)).2⟩

/-- Witness for `success_zero_short_circuit` at the concrete `abTree`. -/
theorem success_zero_short_circuit_witness :
    (FailLast (probeAB abTree (-2) 2).tr (probeAB abTree (-2) 2).succ ∧
      ((probeAB abTree (-2) 2).succ = 0 → (probeAB abTree (-2) 2).val = 0)) ∧
    (FailLast (probeWDL abTree).tr (probeWDL abTree).succ ∧
      ((probeWDL abTree).succ = 0 → (probeWDL abTree).val = 0)) ∧
    FailLast (probeDTZNoEp abTree).tr (probeDTZNoEp abTree).succ ∧
    FailLast (probeDTZ abTree).tr (probeDTZ abTree).succ :=
  success_zero_short_circuit abTree (-2) 2

/-- **C6.** For every DTZ probe on a loaded table bucket: if the bucket's
flags STM bit differs from the canonical side-to-move `stm` computed by
`probe_table`, and the entry is not both symmetric and pawnless, then
`probe_table` sets `*success` to −1 and returns 0 without decoding (the
decode oracle is never consulted, as the conclusion holds for every
oracle `d`); otherwise the probe proceeds into decoding. -/
theorem dtz_wrong_side_early_exit (e : DTZEntryT) (pos : TBPos)
    (d : Nat → Nat → Nat × Int) :
    (¬(e.flagsAt (probeTbFile e pos) &&& FlagSTM = canonicalStm e pos) ∧
        ¬(e.symmetric = true ∧ e.hasPawns = false) →
      probeTableDTZ e pos d = (0, -1)) ∧
    (e.flagsAt (probeTbFile e pos) &&& FlagSTM = canonicalStm e pos ∨
        (e.symmetric = true ∧ e.hasPawns = false) →
      probeTableDTZ e pos d = d (canonicalStm e pos) (probeTbFile e pos)) := by
  constructor
  · rintro ⟨h1, h2⟩
    have hb1 : (e.flagsAt (probeTbFile e pos) &&& FlagSTM ==
        canonicalStm e pos) = false := by
      simpa using h1
    have hb2 : (e.symmetric && !e.hasPawns) = false := by
      revert h2
      cases e.symmetric <;> cases e.hasPawns <;> simp
    have hc : check_dtz_stm e (probeTbFile e pos) (canonicalStm e pos) = false := by
      unfold check_dtz_stm
      rw [hb1, hb2]
      rfl
    simp only [probeTableDTZ]
    rw [hc]
    rfl
  · intro h
    have hc : check_dtz_stm e (probeTbFile e pos) (canonicalStm e pos) = true := by
      unfold check_dtz_stm
      rcases h with h | ⟨h1, h2⟩
      · simp [h]
      · rw [h1, h2]
        simp
    simp only [probeTableDTZ]
    rw [hc]
    rfl

/-- Witness for `dtz_wrong_side_early_exit`: a white-to-move position
with one white pawn probed against an entry whose bucket flags have the
STM bit set (early exit with `success = -1`, any oracle) and against the
matching entry (the probe proceeds: the oracle is consulted at
`stm = 0`, `tbFile = FILE_A`). -/
theorem dtz_wrong_side_early_exit_witness :
    probeTableDTZ c6EntryWrong c6Pos (fun _ _ => (7, 5)) = (0, -1) ∧
    probeTableDTZ c6Entry c6Pos (fun s f => (s + 2 * f, 1)) = (0, 1) :=
  ⟨(dtz_wrong_side_early_exit c6EntryWrong c6Pos (fun _ _ => (7, 5))).1
      (by decide),
    ((dtz_wrong_side_early_exit c6Entry c6Pos (fun s f => (s + 2 * f, 1))).2
      (by decide)).trans (by decide)⟩

/-- The MRU splice preserves the list length. -/
theorem spliceToFront_length (k : Nat) :
    ∀ l : List DTZListEntry, (spliceToFront k l).length = l.length := by
  intro l
  induction l with
  | nil => rfl
  | cons e rest ih =>
    unfold spliceToFront
    split
    · rfl
    · split
      · rename_i hnil
        rw [hnil] at ih
        simp only [List.length_cons, List.length_nil] at ih ⊢
        omega
      · rename_i f rest' hcons
        rw [hcons] at ih
        simp only [List.length_cons] at ih
        split <;> (simp only [List.length_cons]; omega)

/-- One `probe_dtz_table` call whose `init` succeeds keeps the list
within 64 entries. -/
theorem dtzTableStep_length (q : DTZQuery) (hq : q.initOk = true)
    (l : List DTZListEntry) (h : l.length ≤ 64) :
    (dtzTableStep q l).length ≤ 64 := by
  unfold dtzTableStep
  have hs : (spliceToFront q.key l).length = l.length := spliceToFront_length q.key l
  split
  · exact h
  split
  · omega
  split
  · omega
  split
  · rename_i hbad
    rw [hq] at hbad
    exact absurd hbad (by simp)
  split
  · rw [List.length_dropLast]
    simp only [List.length_cons, hs]
    omega
  · rename_i hlen
    simp only [List.length_cons, hs] at hlen ⊢
    omega

set_option maxRecDepth 40000 in
/-- **C5 (counterexample).** Sixty-five `probe_dtz_table` calls with
pairwise different material keys whose `.rtbz` files are all absent
(`DTZEntry::init` fails, the entry is kept with null `baseAddress`)
leave the `DTZTable` list with 65 entries: the claimed bound of 64 is
violated, because the `pop_back` trim sits after the early return taken
when `init` fails. -/
theorem dtz_mru_bound_counterexample :
    (dtzTableRun (failingQueries 65) []).length = 65 := by decide

/-- **C5 (amended).** If every `DTZEntry::init` in the sequence succeeds,
then the `DTZTable` list never grows beyond 64 entries (starting from any
state within the bound); a call whose `init` fails can instead push the
list past the bound, as the counterexample shows. -/
theorem dtz_mru_bound_amended (qs : List DTZQuery)
    (hq : ∀ q ∈ qs, q.initOk = true) :
    ∀ l : List DTZListEntry, l.length ≤ 64 → (dtzTableRun qs l).length ≤ 64 := by
  induction qs with
  | nil => intro l h; exact h
  | cons q rest ih =>
    intro l h
    have h1 : (dtzTableStep q l).length ≤ 64 :=
      dtzTableStep_length q (hq q (List.mem_cons_self q rest)) l h
    exact ih (fun p hp => hq p (List.mem_cons_of_mem q hp)) _ h1

/-- Witness for `dtz_mru_bound_amended`: two successful queries starting
from the empty list stay within the bound. -/
theorem dtz_mru_bound_amended_witness :
    (∀ q ∈ [(⟨0, true, 0, 0, true⟩ : DTZQuery), ⟨1, true, 1, 1, true⟩],
        q.initOk = true) ∧
      ([] : List DTZListEntry).length ≤ 64 ∧
      (dtzTableRun [(⟨0, true, 0, 0, true⟩ : DTZQuery), ⟨1, true, 1, 1, true⟩]
          []).length ≤ 64 :=
  ⟨by decide, by decide,
    dtz_mru_bound_amended _ (by decide) [] (by decide)⟩

/-- Vertical flip stays on the board. -/
theorem tb_xor56_lt : ∀ s, s < 64 → s ^^^ 56 < 64 := by decide

/-- Vertical flip is an involution. -/
theorem tb_xor56_xor56 (s : Nat) : s ^^^ 56 ^^^ 56 = s := by
  simp [Nat.xor_assoc]

/-- Colour flip is an involution. -/
theorem tb_xor8_xor8 (s : Nat) : s ^^^ 8 ^^^ 8 = s := by
  simp [Nat.xor_assoc]

/-- Cancellation of the colour flip. -/
theorem tb_xor8_inj (a b : Nat) : a ^^^ 8 = b ^^^ 8 ↔ a = b := by
  constructor
  · intro h
    have h2 := congrArg (fun x => x ^^^ 8) h
    simpa [Nat.xor_assoc] using h2
  · intro h
    rw [h]

/-- The vertical flip permutes the board squares. -/
theorem tb_range64_perm :
    ((List.range 64).map (fun s => s ^^^ 56)).Perm (List.range 64) := by decide

/-- Collecting through the vertical flip is a permutation of collecting
directly. -/
theorem tb_filterMap_reindex {α : Type} (h : Nat → Option α) :
    ((List.range 64).filterMap fun sq => h (sq ^^^ 56)).Perm
      ((List.range 64).filterMap h) := by
  have h1 : ((List.range 64).map (fun s => s ^^^ 56)).filterMap h =
      (List.range 64).filterMap fun sq => h (sq ^^^ 56) := by
    rw [List.filterMap_map]
    rfl
  rw [← h1]
  exact tb_range64_perm.filterMap h

/-- For a symmetric entry, the piece pool collected from the mirror
position is a permutation of the pool collected from the position
itself. -/
theorem tb_pool_mirror (e : WDLEntryT) (P : BoardP)
    (hsym : e.symmetric = true) (hstm : P.stm = 0 ∨ P.stm = 1)
    (hboard : ∀ sq, sq < 64 →
      P.pieceAt sq = 0 ∨ (P.pieceAt sq % 8 ≠ 0 ∧ P.pieceAt sq < 16))
    (hp0 : e.hasPawns = true →
      (e.precompAt 0 0).pieces.headD 0 = 1 ∨ (e.precompAt 0 0).pieces.headD 0 = 9) :
    (poolCollected e (mirrorB P)).Perm (poolCollected e P) := by
  have hfun : ∀ sq ∈ List.range 64,
      (if (mirrorB P).pieceAt sq ≠ 0 ∧
          (¬ e.hasPawns = true ∨ (mirrorB P).pieceAt sq ≠ leadPawnPc e (mirrorB P))
        then some ((mirrorB P).pieceAt sq ^^^ wdlFlipColor e (mirrorB P),
          sq ^^^ wdlFlipSquares e (mirrorB P))
        else none) =
      (if P.pieceAt (sq ^^^ 56) ≠ 0 ∧
          (¬ e.hasPawns = true ∨ P.pieceAt (sq ^^^ 56) ≠ leadPawnPc e P)
        then some (P.pieceAt (sq ^^^ 56) ^^^ wdlFlipColor e P,
          (sq ^^^ 56) ^^^ wdlFlipSquares e P)
        else none) := by
    intro sq hsq
    rw [List.mem_range] at hsq
    have hsq56 : sq ^^^ 56 < 64 := tb_xor56_lt sq hsq
    simp only [mirrorB, leadPawnPc, wdlFlipColor, wdlFlipSquares, hsym, if_true]
    by_cases hpc : P.pieceAt (sq ^^^ 56) = 0
    · simp [colorSwapPc, hpc]
    · have hb := (hboard (sq ^^^ 56) hsq56).resolve_left hpc
      have hcs : colorSwapPc (P.pieceAt (sq ^^^ 56)) = P.pieceAt (sq ^^^ 56) ^^^ 8 := by
        simp [colorSwapPc, hpc]
      rw [hcs]
      have hne8 : P.pieceAt (sq ^^^ 56) ^^^ 8 ≠ 0 := by
        intro h
        have h8 : P.pieceAt (sq ^^^ 56) = 8 :=
          (tb_xor8_inj (P.pieceAt (sq ^^^ 56)) 8).mp (by rw [h]; rfl)
        exact hb.1 (by rw [h8])
      have h8 : P.pieceAt (sq ^^^ 56) ≠ 8 := fun h => hb.1 (by rw [h])
      have hx1 : (P.pieceAt (sq ^^^ 56) ^^^ 8 = 9) ↔ (P.pieceAt (sq ^^^ 56) = 1) := by
        rw [show (9 : Nat) = 1 ^^^ 8 from rfl]
        exact tb_xor8_inj _ 1
      have hx9 : (P.pieceAt (sq ^^^ 56) ^^^ 8 = 1) ↔ (P.pieceAt (sq ^^^ 56) = 9) := by
        rw [show (1 : Nat) = 9 ^^^ 8 from rfl]
        exact tb_xor8_inj _ 9
      by_cases hpw : e.hasPawns = true
      · rcases hp0 hpw with hp | hp <;>
          rcases hstm with h0 | h0 <;>
          rw [hp, h0] <;>
          simp only [hpw, not_true, false_or] <;>
          norm_num <;>
          simp [show ((1 : Nat) ^^^ 8) = 9 from rfl, show ((9 : Nat) ^^^ 8) = 1 from rfl,
            h8, hpc, hx1, hx9, tb_xor8_xor8, tb_xor56_xor56]
      · rcases hstm with h0 | h0 <;> rw [h0] <;>
          simp [hpw, h8, hpc, tb_xor8_xor8, tb_xor56_xor56]
  have h1 : poolCollected e (mirrorB P) =
      (List.range 64).filterMap (fun sq =>
        if P.pieceAt (sq ^^^ 56) ≠ 0 ∧
            (¬ e.hasPawns = true ∨ P.pieceAt (sq ^^^ 56) ≠ leadPawnPc e P)
        then some (P.pieceAt (sq ^^^ 56) ^^^ wdlFlipColor e P,
          (sq ^^^ 56) ^^^ wdlFlipSquares e P)
        else none) := by
    unfold poolCollected
    exact List.filterMap_congr hfun
  rw [h1]
  unfold poolCollected
  exact tb_filterMap_reindex (fun s =>
    if P.pieceAt s ≠ 0 ∧ (¬ e.hasPawns = true ∨ P.pieceAt s ≠ leadPawnPc e P)
    then some (P.pieceAt s ^^^ wdlFlipColor e P, s ^^^ wdlFlipSquares e P)
    else none)

/-- Filtering then mapping is a `filterMap`. -/
theorem tb_map_filter_eq_filterMap (p : Nat → Bool) (f : Nat → Nat) (l : List Nat) :
    (l.filter p).map f =
      l.filterMap (fun a => if p a then some (f a) else none) := by
  induction l with
  | nil => rfl
  | cons a l ih =>
    by_cases h : p a <;> simp [List.filterMap_cons, h, ih]

/-- For a symmetric entry, the flipped lead-pawn squares collected from
the mirror position are a permutation of those collected from the
position itself. -/
theorem tb_lead_mirror_perm (e : WDLEntryT) (P : BoardP)
    (hsym : e.symmetric = true) (hstm : P.stm = 0 ∨ P.stm = 1)
    (hboard : ∀ sq, sq < 64 →
      P.pieceAt sq = 0 ∨ (P.pieceAt sq % 8 ≠ 0 ∧ P.pieceAt sq < 16))
    (hp0 : (e.precompAt 0 0).pieces.headD 0 = 1 ∨
      (e.precompAt 0 0).pieces.headD 0 = 9) :
    (leadCollected e (mirrorB P)).Perm (leadCollected e P) := by
  unfold leadCollected leadSqsRaw
  rw [tb_map_filter_eq_filterMap, tb_map_filter_eq_filterMap]
  have hfun : ∀ sq ∈ List.range 64,
      (if decide ((mirrorB P).pieceAt sq = leadPawnPc e (mirrorB P)) = true
        then some (sq ^^^ wdlFlipSquares e (mirrorB P)) else none) =
      (if decide (P.pieceAt (sq ^^^ 56) = leadPawnPc e P) = true
        then some ((sq ^^^ 56) ^^^ wdlFlipSquares e P) else none) := by
    intro sq hsq
    rw [List.mem_range] at hsq
    have hsq56 : sq ^^^ 56 < 64 := tb_xor56_lt sq hsq
    simp only [mirrorB, leadPawnPc, wdlFlipColor, wdlFlipSquares, hsym, if_true]
    by_cases hpc : P.pieceAt (sq ^^^ 56) = 0
    · rcases hp0 with hp | hp <;> rcases hstm with h0 | h0 <;>
        rw [hp, h0] <;>
        simp [colorSwapPc, hpc]
    · have hb := (hboard (sq ^^^ 56) hsq56).resolve_left hpc
      have hcs : colorSwapPc (P.pieceAt (sq ^^^ 56)) = P.pieceAt (sq ^^^ 56) ^^^ 8 := by
        simp [colorSwapPc, hpc]
      have hx1 : (P.pieceAt (sq ^^^ 56) ^^^ 8 = 9) ↔ (P.pieceAt (sq ^^^ 56) = 1) := by
        rw [show (9 : Nat) = 1 ^^^ 8 from rfl]
        exact tb_xor8_inj _ 1
      have hx9 : (P.pieceAt (sq ^^^ 56) ^^^ 8 = 1) ↔ (P.pieceAt (sq ^^^ 56) = 9) := by
        rw [show (1 : Nat) = 9 ^^^ 8 from rfl]
        exact tb_xor8_inj _ 9
      rcases hp0 with hp | hp <;> rcases hstm with h0 | h0 <;>
        rw [hp, h0] <;>
        simp [hcs, show ((1 : Nat) ^^^ 8) = 9 from rfl,
          show ((9 : Nat) ^^^ 8) = 1 from rfl, hx1, hx9, tb_xor56_xor56]
  rw [List.filterMap_congr hfun]
  exact tb_filterMap_reindex (fun s =>
    if decide (P.pieceAt s = leadPawnPc e P) = true
    then some (s ^^^ wdlFlipSquares e P) else none)

/-- Flap ties of vertically flipped pawn-zone squares collected in
ascending order are square-ascending: on the pawn ranks, equal Flap keys
mean horizontally mirrored squares of one rank. -/
theorem tb_flap_tie56 : ∀ s1, 8 ≤ s1 → s1 < 56 → ∀ s2, 8 ≤ s2 → s2 < 56 →
    s1 < s2 → Flap.getD (s1 ^^^ 56) 0 = Flap.getD (s2 ^^^ 56) 0 →
    s1 ^^^ 56 ≤ s2 ^^^ 56 := by decide

/-- A collected lead list (ascending scan, then `^ flipSquares` with
`flipSquares` either 0 or 56) is tie-ascending. -/
theorem tb_lead_tieAsc (e : WDLEntryT) (pos : BoardP)
    (hF : wdlFlipSquares e pos = 0 ∨ wdlFlipSquares e pos = 56)
    (hzone : ∀ sq ∈ leadSqsRaw e pos, 8 ≤ sq ∧ sq < 56) :
    FlapTieAsc (leadCollected e pos) := by
  unfold FlapTieAsc leadCollected
  rw [List.pairwise_map]
  have hlt : (leadSqsRaw e pos).Pairwise (· < ·) := by
    unfold leadSqsRaw
    exact List.Pairwise.sublist (List.filter_sublist _) (List.pairwise_lt_range 64)
  refine hlt.imp_of_mem ?_
  intro a b ha hb hab
  have hza := hzone a ha
  have hzb := hzone b hb
  rcases hF with h | h <;> rw [h]
  · intro _
    simpa using hab.le
  · exact fun ht => tb_flap_tie56 a hza.1 hza.2 b hzb.1 hzb.2 hab ht

/-- `flapInsert` inserts. -/
theorem tb_flapInsert_perm (s : Nat) (l : List Nat) :
    (flapInsert s l).Perm (s :: l) := by
  induction l with
  | nil => exact List.Perm.refl _
  | cons t ts ih =>
    rw [flapInsert]
    split
    · exact List.Perm.refl _
    · exact (ih.cons t).trans (List.Perm.swap s t ts)

/-- On a suffix whose Flap ties all stand at or after the inserted
element, the stable insert coincides with insertion along the tie-broken
total order. -/
theorem tb_flapInsert_eq (s : Nat) (m : List Nat)
    (h : ∀ t ∈ m, Flap.getD s 0 = Flap.getD t 0 → s ≤ t) :
    flapInsert s m = m.orderedInsert flapLex s := by
  induction m with
  | nil => rfl
  | cons t ts ih =>
    by_cases hc : Flap.getD s 0 ≤ Flap.getD t 0
    · have hlex : flapLex s t := by
        rcases Nat.lt_or_ge (Flap.getD s 0) (Flap.getD t 0) with h1 | h1
        · exact Or.inl h1
        · exact Or.inr ⟨Nat.le_antisymm hc h1, h t (by simp) (Nat.le_antisymm hc h1)⟩
      rw [flapInsert, if_pos hc, List.orderedInsert, if_pos hlex]
    · have hlex : ¬ flapLex s t := by
        intro hl
        rcases hl with h1 | ⟨h1, _⟩ <;> omega
      rw [flapInsert, if_neg hc, List.orderedInsert, if_neg hlex,
        ih (fun t' ht' he => h t' (by simp [ht']) he)]

/-- On a tie-ascending list the stable Flap sort is the insertion sort
along the tie-broken total order. -/
theorem tb_flapSort_eq_insertionSort (l : List Nat) (h : FlapTieAsc l) :
    flapSort l = List.insertionSort flapLex l := by
  induction l with
  | nil => rfl
  | cons s ss ih =>
    rw [flapSort, List.insertionSort, ih (List.pairwise_cons.mp h).2]
    apply tb_flapInsert_eq
    intro t ht he
    exact (List.pairwise_cons.mp h).1 t
      ((List.perm_insertionSort flapLex ss).mem_iff.mp ht) he

/-- The stable Flap sort of two tie-ascending permutations of the same
squares is the same list. -/
theorem tb_flapSort_eq_of_perm (l1 l2 : List Nat) (hp : l1.Perm l2)
    (h1 : FlapTieAsc l1) (h2 : FlapTieAsc l2) : flapSort l1 = flapSort l2 := by
  rw [tb_flapSort_eq_insertionSort l1 h1, tb_flapSort_eq_insertionSort l2 h2]
  exact List.eq_of_perm_of_sorted
    ((List.perm_insertionSort _ _).trans
      (hp.trans (List.perm_insertionSort _ _).symm))
    (List.sorted_insertionSort flapLex l1)
    (List.sorted_insertionSort flapLex l2)

/-- The lead-pawn code is a pawn code. -/
theorem tb_leadPawnPc_mod (e : WDLEntryT) (pos : BoardP) :
    leadPawnPc e pos % 8 = 1 := by
  unfold leadPawnPc
  omega

/-- Colour flip does not change the piece type of a small code. -/
theorem tb_xor8_mod : ∀ pc, pc < 16 → (pc ^^^ 8) % 8 = pc % 8 := by decide

/-- Pawn-zone squares stay in the pawn zone under the vertical flip. -/
theorem tb_zone_xor56 : ∀ s, s < 64 → 8 ≤ s → s < 56 →
    8 ≤ s ^^^ 56 ∧ s ^^^ 56 < 56 := by decide

/-- For a symmetric entry on a board whose pawns stand on the pawn
ranks, the Flap-sorted lead pawns of the mirror position equal those of
the position itself. -/
theorem tb_leadSorted_mirror (e : WDLEntryT) (P : BoardP)
    (hsym : e.symmetric = true) (hstm : P.stm = 0 ∨ P.stm = 1)
    (hboard : ∀ sq, sq < 64 →
      P.pieceAt sq = 0 ∨ (P.pieceAt sq % 8 ≠ 0 ∧ P.pieceAt sq < 16))
    (hp0 : (e.precompAt 0 0).pieces.headD 0 = 1 ∨
      (e.precompAt 0 0).pieces.headD 0 = 9)
    (hpz : ∀ sq, sq < 64 → P.pieceAt sq % 8 = 1 → 8 ≤ sq ∧ sq < 56) :
    leadSorted e (mirrorB P) = leadSorted e P := by
  have hFP : wdlFlipSquares e P = 0 ∨ wdlFlipSquares e P = 56 := by
    unfold wdlFlipSquares
    rw [hsym]
    rcases hstm with h | h <;> rw [h] <;> simp
  have hFM : wdlFlipSquares e (mirrorB P) = 0 ∨ wdlFlipSquares e (mirrorB P) = 56 := by
    unfold wdlFlipSquares mirrorB
    rw [hsym]
    rcases hstm with h | h <;> rw [h] <;> simp
  have hzP : ∀ sq ∈ leadSqsRaw e P, 8 ≤ sq ∧ sq < 56 := by
    intro sq hsq
    unfold leadSqsRaw at hsq
    rw [List.mem_filter, List.mem_range] at hsq
    have hEq : P.pieceAt sq = leadPawnPc e P := by
      have := hsq.2
      simpa using this
    exact hpz sq hsq.1 (by rw [hEq]; exact tb_leadPawnPc_mod e P)
  have hzM : ∀ sq ∈ leadSqsRaw e (mirrorB P), 8 ≤ sq ∧ sq < 56 := by
    intro sq hsq
    unfold leadSqsRaw at hsq
    rw [List.mem_filter, List.mem_range] at hsq
    have hEq : (mirrorB P).pieceAt sq = leadPawnPc e (mirrorB P) := by
      have := hsq.2
      simpa using this
    have hsq56 : sq ^^^ 56 < 64 := tb_xor56_lt sq hsq.1
    have hmod : P.pieceAt (sq ^^^ 56) % 8 = 1 := by
      rcases hboard (sq ^^^ 56) hsq56 with h0 | hb
      · exfalso
        have h00 : (mirrorB P).pieceAt sq = 0 := by
          simp [mirrorB, colorSwapPc, h0]
        rw [hEq] at h00
        have hm := tb_leadPawnPc_mod e (mirrorB P)
        rw [h00] at hm
        simp at hm
      · have h0 : P.pieceAt (sq ^^^ 56) ≠ 0 := by
          intro h
          exact hb.1 (by rw [h])
        have hm : (mirrorB P).pieceAt sq = P.pieceAt (sq ^^^ 56) ^^^ 8 := by
          simp [mirrorB, colorSwapPc, h0]
        rw [hm] at hEq
        have h2 := congrArg (fun x => x % 8) hEq
        simp only at h2
        rw [tb_xor8_mod _ hb.2, tb_leadPawnPc_mod] at h2
        exact h2
    have hz56 := hpz (sq ^^^ 56) hsq56 hmod
    have := tb_zone_xor56 (sq ^^^ 56) hsq56 hz56.1 hz56.2
    rwa [tb_xor56_xor56] at this
  unfold leadSorted
  exact tb_flapSort_eq_of_perm _ _
    (tb_lead_mirror_perm e P hsym hstm hboard hp0)
    (tb_lead_tieAsc e (mirrorB P) hFM hzM)
    (tb_lead_tieAsc e P hFP hzP)

/-- The swap scan returns a permutation: the match is extracted and the
held slot content takes its place. -/
theorem tb_swapPullAux_perm (c : Nat) (hold : Nat × Nat) :
    ∀ (l : List (Nat × Nat)) (q : Nat × Nat) (l' : List (Nat × Nat)),
      swapPullAux c hold l = some (q, l') → (q :: l').Perm (hold :: l) := by
  intro l
  induction l with
  | nil =>
    intro q l' h
    simp [swapPullAux] at h
  | cons p ps ih =>
    intro q l' h
    rw [swapPullAux] at h
    split at h
    · simp only [Option.some.injEq, Prod.mk.injEq] at h
      obtain ⟨h1, h2⟩ := h
      subst h1
      subst h2
      exact List.Perm.swap hold p ps
    · cases hsw : swapPullAux c hold ps with
      | none =>
        rw [hsw] at h
        cases h
      | some rrs =>
        obtain ⟨r1, rs⟩ := rrs
        rw [hsw] at h
        simp only [Option.some.injEq, Prod.mk.injEq] at h
        obtain ⟨h1, h2⟩ := h
        subst h1
        subst h2
        exact ((List.Perm.swap p r1 rs).trans
          ((ih r1 rs hsw).cons p)).trans (List.Perm.swap hold p ps)

/-- The swap scan finds a wanted code that occurs in the pool. -/
theorem tb_swapPullAux_some (c : Nat) (hold : Nat × Nat) :
    ∀ (l : List (Nat × Nat)), c ∈ l.map Prod.fst →
      ∃ q l', swapPullAux c hold l = some (q, l') ∧ q.1 = c := by
  intro l
  induction l with
  | nil => intro hm; simp at hm
  | cons p ps ih =>
    intro hm
    by_cases hp : p.1 = c
    · exact ⟨p, hold :: ps, by rw [swapPullAux, if_pos hp], hp⟩
    · have hm' : c ∈ ps.map Prod.fst := by
        rcases List.mem_cons.mp hm with h | h
        · exact absurd h.symm hp
        · exact h
      obtain ⟨q, l', hsw, hq⟩ := ih hm'
      exact ⟨q, p :: l', by rw [swapPullAux, if_neg hp, hsw], hq⟩

/-- The reorder loop permutes the pool (it only swaps). -/
theorem tb_reorderLoop_perm :
    ∀ (t : List Nat) (pool : List (Nat × Nat)),
      (reorderLoop t pool).Perm pool := by
  intro t
  induction t with
  | nil =>
    intro pool
    cases pool <;> exact List.Perm.refl _
  | cons c cs ih =>
    intro pool
    cases pool with
    | nil => exact List.Perm.refl _
    | cons p0 rest =>
      rw [reorderLoop]
      split
      · exact (ih rest).cons p0
      · cases hsw : swapPullAux c p0 rest with
        | none => exact (ih rest).cons p0
        | some rrs =>
          obtain ⟨q, pool'⟩ := rrs
          exact ((ih pool').cons q).trans (tb_swapPullAux_perm c p0 rest q pool' hsw)

/-- Under an exact code match between pool and targets, the reorder loop
realizes the target code sequence slot by slot. -/
theorem tb_reorderLoop_codes :
    ∀ (t : List Nat) (pool : List (Nat × Nat)),
      (pool.map Prod.fst).Perm t →
      (reorderLoop t pool).map Prod.fst = t := by
  intro t
  induction t with
  | nil =>
    intro pool h
    have h0 := h.length_eq
    simp only [List.length_map, List.length_nil] at h0
    rw [List.length_eq_zero] at h0
    subst h0
    rfl
  | cons c cs ih =>
    intro pool h
    cases pool with
    | nil => simpa using h.length_eq
    | cons p0 rest =>
      rw [reorderLoop]
      by_cases hp : p0.1 = c
      · rw [if_pos hp]
        simp only [List.map_cons]
        rw [hp, ih rest (by
          have h2 : (p0.1 :: rest.map Prod.fst).Perm (c :: cs) := by
            simpa using h
          rw [hp] at h2
          exact h2.cons_inv)]
      · rw [if_neg hp]
        have hcm : c ∈ rest.map Prod.fst := by
          have h2 : c ∈ (p0 :: rest).map Prod.fst := h.mem_iff.mpr (by simp)
          simp only [List.map_cons, List.mem_cons] at h2
          rcases h2 with h2 | h2
          · exact absurd h2.symm hp
          · exact h2
        obtain ⟨q, pool', hsw, hq⟩ := tb_swapPullAux_some c p0 rest hcm
        rw [hsw]
        simp only [List.map_cons]
        have hperm := tb_swapPullAux_perm c p0 rest q pool' hsw
        have hcodes : (q.1 :: pool'.map Prod.fst).Perm (c :: cs) := by
          have h2 : ((q :: pool').map Prod.fst).Perm ((p0 :: rest).map Prod.fst) :=
            hperm.map Prod.fst
          simp only [List.map_cons] at h2 ⊢
          exact h2.trans (by simpa using h)
        rw [hq] at hcodes
        rw [hq, ih pool' hcodes.cons_inv]

/-- A run of one code in the slot sequence is exactly the filter by that
code when the code appears nowhere else. -/
theorem tb_chunk_eq_filter (R : List (Nat × Nat)) (pre : List Nat) (k c : Nat)
    (post : List Nat)
    (hmap : R.map Prod.fst = pre ++ (List.replicate k c ++ post))
    (hpre : c ∉ pre) (hpost : c ∉ post) :
    (R.drop pre.length).take k = R.filter (fun p => p.1 == c) := by
  have hmap1 : (R.take pre.length).map Prod.fst = pre := by
    rw [List.map_take, hmap]
    exact List.take_left pre _
  have hmap23 : (R.drop pre.length).map Prod.fst = List.replicate k c ++ post := by
    rw [List.map_drop, hmap]
    exact List.drop_left pre _
  have hmap2 : ((R.drop pre.length).take k).map Prod.fst = List.replicate k c := by
    rw [List.map_take, hmap23]
    have := List.take_left (List.replicate k c) post
    rwa [List.length_replicate] at this
  have hmap3 : ((R.drop pre.length).drop k).map Prod.fst = post := by
    rw [List.map_drop, hmap23]
    have := List.drop_left (List.replicate k c) post
    rwa [List.length_replicate] at this
  have hsplit : R = R.take pre.length ++
      ((R.drop pre.length).take k ++ (R.drop pre.length).drop k) := by
    rw [List.take_append_drop, List.take_append_drop]
  have hf1 : (R.take pre.length).filter (fun p => p.1 == c) = [] := by
    rw [List.filter_eq_nil]
    intro p hp
    have hmem : p.1 ∈ pre := hmap1 ▸ List.mem_map_of_mem Prod.fst hp
    simp only [beq_iff_eq]
    intro h
    exact hpre (h ▸ hmem)
  have hf2 : ((R.drop pre.length).take k).filter (fun p => p.1 == c) =
      (R.drop pre.length).take k := by
    rw [List.filter_eq_self]
    intro p hp
    have hmem : p.1 ∈ List.replicate k c := hmap2 ▸ List.mem_map_of_mem Prod.fst hp
    simp only [beq_iff_eq]
    exact List.eq_of_mem_replicate hmem
  have hf3 : ((R.drop pre.length).drop k).filter (fun p => p.1 == c) = [] := by
    rw [List.filter_eq_nil]
    intro p hp
    have hmem : p.1 ∈ post := hmap3 ▸ List.mem_map_of_mem Prod.fst hp
    simp only [beq_iff_eq]
    intro h
    exact hpost (h ▸ hmem)
  conv_rhs => rw [hsplit]
  rw [List.filter_append, List.filter_append, hf1, hf2, hf3]
  simp

/-- Two reordered sequences realizing the same unique-code prefix agree
on that prefix when their per-code filters are permutations. -/
theorem tb_prefix_eq :
    ∀ (pre : List Nat) (R1 R2 : List (Nat × Nat)) (post : List Nat),
      R1.map Prod.fst = pre ++ post →
      R2.map Prod.fst = pre ++ post →
      (∀ c ∈ pre, (R1.filter (fun p => p.1 == c)).Perm
        (R2.filter (fun p => p.1 == c))) →
      pre.Nodup → (∀ c ∈ pre, c ∉ post) →
      R1.take pre.length = R2.take pre.length := by
  intro pre
  induction pre with
  | nil => intro R1 R2 post h1 h2 hperm hnodup hdisj; rfl
  | cons c pre' ih =>
    intro R1 R2 post h1 h2 hperm hnodup hdisj
    cases R1 with
    | nil => exact absurd (congrArg List.length h1) (by simp)
    | cons p1 t1 =>
      cases R2 with
      | nil => exact absurd (congrArg List.length h2) (by simp)
      | cons p2 t2 =>
        rw [List.map_cons] at h1 h2
        injection h1 with hc1 ht1
        injection h2 with hc2 ht2
        have hcpre : c ∉ pre' := (List.nodup_cons.mp hnodup).1
        have hcpost : c ∉ post := hdisj c (List.mem_cons_self c pre')
        have ht1f : t1.filter (fun p => p.1 == c) = [] := by
          rw [List.filter_eq_nil]
          intro p hp
          have hmem : p.1 ∈ List.map Prod.fst t1 := List.mem_map_of_mem Prod.fst hp
          rw [ht1] at hmem
          simp only [beq_iff_eq]
          intro he
          rcases List.mem_append.mp (he ▸ hmem) with h | h
          · exact hcpre h
          · exact hcpost h
        have ht2f : t2.filter (fun p => p.1 == c) = [] := by
          rw [List.filter_eq_nil]
          intro p hp
          have hmem : p.1 ∈ List.map Prod.fst t2 := List.mem_map_of_mem Prod.fst hp
          rw [ht2] at hmem
          simp only [beq_iff_eq]
          intro he
          rcases List.mem_append.mp (he ▸ hmem) with h | h
          · exact hcpre h
          · exact hcpost h
        have hb1 : (p1.1 == c) = true := by rw [hc1]; exact beq_self_eq_true c
        have hb2 : (p2.1 == c) = true := by rw [hc2]; exact beq_self_eq_true c
        have h11 : (p1 :: t1).filter (fun p => p.1 == c) = [p1] := by
          rw [List.filter_cons, hb1, ht1f]
          rfl
        have h22 : (p2 :: t2).filter (fun p => p.1 == c) = [p2] := by
          rw [List.filter_cons, hb2, ht2f]
          rfl
        have hp12 : p1 = p2 := by
          have hx := hperm c (List.mem_cons_self c pre')
          rw [h11, h22] at hx
          simpa using hx
        have hpermT : ∀ c' ∈ pre',
            (t1.filter (fun p => p.1 == c')).Perm
              (t2.filter (fun p => p.1 == c')) := by
          intro c' hc'
          have hne : c ≠ c' := fun h => (List.nodup_cons.mp hnodup).1 (h ▸ hc')
          have hbf1 : (p1.1 == c') = false := by
            rw [hc1]
            exact beq_eq_false_iff_ne.mpr hne
          have hbf2 : (p2.1 == c') = false := by
            rw [hc2]
            exact beq_eq_false_iff_ne.mpr hne
          have e1 : (p1 :: t1).filter (fun p => p.1 == c') =
              t1.filter (fun p => p.1 == c') := by
            rw [List.filter_cons, hbf1]
            rfl
          have e2 : (p2 :: t2).filter (fun p => p.1 == c') =
              t2.filter (fun p => p.1 == c') := by
            rw [List.filter_cons, hbf2]
            rfl
          have := hperm c' (List.mem_cons_of_mem c hc')
          rwa [e1, e2] at this
        have hrec := ih t1 t2 post ht1 ht2 hpermT (List.nodup_cons.mp hnodup).2
          (fun c' hc' => hdisj c' (List.mem_cons_of_mem c hc'))
        simp only [List.length_cons, List.take_succ_cons]
        rw [hp12, hrec]

/-- The ascending group sort is the insertion sort along `≤`. -/
theorem tb_sortedInsertNat_eq (s : Nat) (l : List Nat) :
    sortedInsertNat s l = List.orderedInsert (· ≤ ·) s l := by
  induction l with
  | nil => rfl
  | cons t ts ih =>
    rw [sortedInsertNat, List.orderedInsert, ih]

/-- The ascending group sort is the insertion sort along `≤`. -/
theorem tb_sortNat_eq (l : List Nat) :
    sortNat l = List.insertionSort (· ≤ ·) l := by
  induction l with
  | nil => rfl
  | cons s ss ih =>
    rw [sortNat, List.insertionSort, ih, tb_sortedInsertNat_eq]

/-- Sorting ascending is invariant under permutation of the input. -/
theorem tb_sortNat_eq_of_perm (l1 l2 : List Nat) (h : l1.Perm l2) :
    sortNat l1 = sortNat l2 := by
  rw [tb_sortNat_eq, tb_sortNat_eq]
  exact List.eq_of_perm_of_sorted
    ((List.perm_insertionSort _ _).trans
      (h.trans (List.perm_insertionSort _ _).symm))
    (List.sorted_insertionSort _ l1)
    (List.sorted_insertionSort _ l2)

/-- Sorting preserves length. -/
theorem tb_sortNat_length (l : List Nat) : (sortNat l).length = l.length := by
  rw [tb_sortNat_eq]
  exact (List.perm_insertionSort _ _).length_eq

/-- `encode_remaining` computes the same index on chunkwise-permuted
pending squares: each group is sorted before use. -/
theorem tb_encRem_congr (norm factor : Nat → Nat) :
    ∀ (fuel rp : Nat) (processed pend1 pend2 : List Nat) (idx : Nat),
      ChunksPerm norm fuel rp processed.length pend1 pend2 →
      encRem norm factor fuel rp processed pend1 idx =
        encRem norm factor fuel rp processed pend2 idx := by
  intro fuel
  induction fuel with
  | zero => intros; rfl
  | succ fuel ih =>
    intro rp processed pend1 pend2 idx h
    rw [ChunksPerm] at h
    rcases h with ⟨h1, h2⟩ | ⟨h1, h2, hg1, hg2, hperm, hrec⟩
    · subst h1
      subst h2
      rfl
    · cases pend1 with
      | nil => exact absurd rfl h1
      | cons a t1 =>
        cases pend2 with
        | nil => exact absurd rfl h2
        | cons b t2 =>
          rw [encRem, encRem]
          have hgrp : sortNat ((a :: t1).take
                (if rp ≠ 0 then rp else norm processed.length)) =
              sortNat ((b :: t2).take
                (if rp ≠ 0 then rp else norm processed.length)) :=
            tb_sortNat_eq_of_perm _ _ hperm
          rw [hgrp]
          apply ih
          have hlen : (processed ++ sortNat ((b :: t2).take
              (if rp ≠ 0 then rp else norm processed.length))).length =
              processed.length + (if rp ≠ 0 then rp else norm processed.length) := by
            rw [List.length_append, tb_sortNat_length, List.length_take]
            rw [Nat.min_eq_left hg2]
          rw [hlen]
          exact hrec
          simp
          simp

/-- The chunk invariant follows from a matching group decomposition. -/
theorem tb_chunksPerm_build (norm : Nat → Nat) :
    ∀ (gs : List (Nat × Nat)) (fuel n rp : Nat) (l1 l2 : List Nat),
      l1.length ≤ fuel →
      SameChunks gs l1 l2 →
      GroupSizesOK norm gs n rp →
      (∀ g ∈ gs, 1 ≤ g.2) →
      ChunksPerm norm fuel rp n l1 l2 := by
  intro gs
  induction gs with
  | nil =>
    intro fuel n rp l1 l2 hf hsc hok hpos
    rw [SameChunks] at hsc
    obtain ⟨h1, h2⟩ := hsc
    subst h1
    subst h2
    cases fuel with
    | zero => trivial
    | succ f =>
      rw [ChunksPerm]
      exact Or.inl ⟨rfl, rfl⟩
  | cons g gs ih =>
    intro fuel n rp l1 l2 hf hsc hok hpos
    rw [SameChunks] at hsc
    obtain ⟨hg1, hg2, hperm, hrest⟩ := hsc
    rw [GroupSizesOK] at hok
    obtain ⟨hsz, hok'⟩ := hok
    have hpos0 : 1 ≤ g.2 := hpos g (List.mem_cons_self g gs)
    cases fuel with
    | zero =>
      exfalso
      have : l1 = [] := List.length_eq_zero.mp (Nat.le_zero.mp hf)
      subst this
      simp at hg1
      omega
    | succ f =>
      rw [ChunksPerm]
      right
      have hne1 : l1 ≠ [] := by
        intro h
        subst h
        simp at hg1
        omega
      have hne2 : l2 ≠ [] := by
        intro h
        subst h
        simp at hg2
        omega
      refine ⟨hne1, hne2, ?_, ?_, ?_, ?_⟩
      · rw [hsz]
        exact hg1
      · rw [hsz]
        exact hg2
      · rw [hsz]
        exact hperm
      · rw [hsz]
        refine ih f (n + g.2) 0 _ _ ?_ hrest hok'
          (fun g' hg' => hpos g' (List.mem_cons_of_mem g hg'))
        rw [List.length_drop]
        omega

/-- The diagonal swap fixes diagonal squares. -/
theorem tb_diagSwap_diag : ∀ s, offA1H8 s = 0 → diagSwap s = s := by
  intro s h
  have hlt : s < 64 := by
    unfold offA1H8 rankOf fileOf at h
    omega
  have hall : ∀ t, t < 64 → offA1H8 t = 0 → diagSwap t = t := by decide
  exact hall s hlt h

/-- The diagonal flip is the conditional map described by its scan
decision. -/
theorem tb_dFlipFrom_eq (limit : Nat) :
    ∀ (l : List Nat) (i : Nat),
      dFlipFrom limit i l = if diagDecision limit i l then l.map diagSwap else l := by
  intro l
  induction l with
  | nil => intro i; rfl
  | cons s ss ih =>
    intro i
    by_cases h0 : offA1H8 s = 0
    · have hdc : diagDecision limit i (s :: ss) = diagDecision limit (i + 1) ss := by
        rw [diagDecision, if_pos h0]
      rw [dFlipFrom, if_pos h0, hdc, ih (i + 1)]
      have hs := tb_diagSwap_diag s h0
      by_cases hd : diagDecision limit (i + 1) ss = true
      · simp [hd, hs]
      · simp [hd]
    · have hdc : diagDecision limit i (s :: ss) =
          decide (0 < offA1H8 s ∧ i < limit) := by
        rw [diagDecision, if_neg h0]
      rw [dFlipFrom, if_neg h0, hdc]
      by_cases hq : 0 < offA1H8 s ∧ i < limit
      · simp [hq]
      · simp [hq]

/-- Past the slot limit the diagonal scan never fires. -/
theorem tb_diagDecision_ge (limit : Nat) :
    ∀ (l : List Nat) (i : Nat), limit ≤ i → diagDecision limit i l = false := by
  intro l
  induction l with
  | nil => intro i _; rfl
  | cons s ss ih =>
    intro i hi
    rw [diagDecision]
    split
    · exact ih (i + 1) (Nat.le_succ_of_le hi)
    · simp
      omega

/-- The diagonal scan decision depends only on the first `limit` slots
(given equal lengths). -/
theorem tb_diagDecision_congr (limit : Nat) :
    ∀ (l1 l2 : List Nat) (i : Nat),
      l1.length = l2.length →
      l1.take (limit - i) = l2.take (limit - i) →
      diagDecision limit i l1 = diagDecision limit i l2 := by
  intro l1
  induction l1 with
  | nil =>
    intro l2 i hlen _
    have : l2 = [] := by
      cases l2 with
      | nil => rfl
      | cons b t2 => simp at hlen
    subst this
    rfl
  | cons a t1 ih =>
    intro l2 i hlen htake
    cases l2 with
    | nil => simp at hlen
    | cons b t2 =>
      by_cases hi : limit ≤ i
      · rw [tb_diagDecision_ge _ _ _ hi, tb_diagDecision_ge _ _ _ hi]
      · obtain ⟨k, hk⟩ : ∃ k, limit - i = k + 1 := ⟨limit - i - 1, by omega⟩
        rw [hk] at htake
        simp only [List.take_succ_cons] at htake
        injection htake with hab ht
        subst hab
        rw [diagDecision, diagDecision]
        by_cases h0 : offA1H8 a = 0
        · rw [if_pos h0, if_pos h0]
          have hk2 : limit - (i + 1) = k := by omega
          exact ih t2 (i + 1) (by simpa using hlen) (by rw [hk2]; exact ht)
        · rw [if_neg h0, if_neg h0]

/-- One group of the run structure. -/
theorem tb_runStruct_cons (c k : Nat) (gs : List (Nat × Nat)) :
    runStruct ((c, k) :: gs) = List.replicate k c ++ runStruct gs := by
  simp [runStruct]

/-- Codes of the run structure are group codes. -/
theorem tb_runStruct_mem (gs : List (Nat × Nat)) (c : Nat)
    (h : c ∈ runStruct gs) : c ∈ gs.map Prod.fst := by
  induction gs with
  | nil => simp [runStruct] at h
  | cons g gs ih =>
    obtain ⟨c1, k1⟩ := g
    rw [tb_runStruct_cons] at h
    rcases List.mem_append.mp h with h | h
    · simp [List.eq_of_mem_replicate h]
    · exact List.mem_cons_of_mem _ (ih h)

/-- Equal takes give equal reads below the cut. -/
theorem tb_getD_of_take_eq :
    ∀ (n i : Nat) (l1 l2 : List Nat), i < n → l1.take n = l2.take n →
      l1.getD i 0 = l2.getD i 0 := by
  intro n
  induction n with
  | zero => intro i l1 l2 h; omega
  | succ n ih =>
    intro i l1 l2 hi htake
    cases l1 with
    | nil =>
      cases l2 with
      | nil => rfl
      | cons b t2 => simp at htake
    | cons a t1 =>
      cases l2 with
      | nil => simp at htake
      | cons b t2 =>
        simp only [List.take_succ_cons] at htake
        injection htake with hab ht
        subst hab
        cases i with
        | zero => rfl
        | succ i =>
          simp only [List.getD_cons_succ]
          exact ih i t1 t2 (by omega) ht

/-- Chunkwise permutation survives a pointwise map. -/
theorem tb_sameChunks_map (f : Nat → Nat) :
    ∀ (gs : List (Nat × Nat)) (l1 l2 : List Nat),
      SameChunks gs l1 l2 → SameChunks gs (l1.map f) (l2.map f) := by
  intro gs
  induction gs with
  | nil =>
    intro l1 l2 h
    rw [SameChunks] at h ⊢
    rw [h.1, h.2]
    exact ⟨rfl, rfl⟩
  | cons g gs ih =>
    intro l1 l2 h
    rw [SameChunks] at h ⊢
    obtain ⟨h1, h2, hperm, hrest⟩ := h
    refine ⟨by simpa using h1, by simpa using h2, ?_, ?_⟩
    · rw [← List.map_take, ← List.map_take]
      exact hperm.map f
    · rw [← List.map_drop, ← List.map_drop]
      exact ih _ _ hrest

/-- The reordered square suffix decomposes chunkwise, each chunk a
per-code filter, so two reorderings with permuted per-code filters have
chunkwise-permuted suffixes. -/
theorem tb_sameChunks_build :
    ∀ (gs : List (Nat × Nat)) (pre : List Nat) (R1 R2 : List (Nat × Nat)),
      R1.map Prod.fst = pre ++ runStruct gs →
      R2.map Prod.fst = pre ++ runStruct gs →
      (∀ c, (R1.filter (fun p => p.1 == c)).Perm (R2.filter (fun p => p.1 == c))) →
      (∀ g ∈ gs, g.1 ∉ pre) →
      (gs.map Prod.fst).Nodup →
      SameChunks gs ((R1.drop pre.length).map (fun p => p.2))
        ((R2.drop pre.length).map (fun p => p.2)) := by
  intro gs
  induction gs with
  | nil =>
    intro pre R1 R2 h1 h2 hfil hdisj hnd
    rw [SameChunks]
    constructor
    · have hl : R1.length = pre.length := by
        have := congrArg List.length h1
        simpa [runStruct] using this
      simp [List.drop_eq_nil_of_le, hl.le]
    · have hl : R2.length = pre.length := by
        have := congrArg List.length h2
        simpa [runStruct] using this
      simp [List.drop_eq_nil_of_le, hl.le]
  | cons g gs ih =>
    intro pre R1 R2 h1 h2 hfil hdisj hnd
    obtain ⟨c, k⟩ := g
    rw [tb_runStruct_cons] at h1 h2
    have hcpre : c ∉ pre := hdisj (c, k) (List.mem_cons_self _ gs)
    have hcpost : c ∉ runStruct gs := by
      intro h
      have := tb_runStruct_mem gs c h
      exact (List.nodup_cons.mp hnd).1 this
    have hch1 := tb_chunk_eq_filter R1 pre k c (runStruct gs) h1 hcpre hcpost
    have hch2 := tb_chunk_eq_filter R2 pre k c (runStruct gs) h2 hcpre hcpost
    have hlen1 : (R1.drop pre.length).length = k + (runStruct gs).length := by
      have := congrArg List.length h1
      simp at this
      rw [List.length_drop]
      omega
    have hlen2 : (R2.drop pre.length).length = k + (runStruct gs).length := by
      have := congrArg List.length h2
      simp at this
      rw [List.length_drop]
      omega
    rw [SameChunks]
    refine ⟨by rw [List.length_map, hlen1]; omega,
      by rw [List.length_map, hlen2]; omega, ?_, ?_⟩
    · rw [← List.map_take, ← List.map_take, hch1, hch2]
      exact (hfil c).map _
    · rw [← List.map_drop, ← List.map_drop, List.drop_drop, List.drop_drop]
      have hre1 : R1.map Prod.fst = (pre ++ List.replicate k c) ++ runStruct gs := by
        rw [h1, List.append_assoc]
      have hre2 : R2.map Prod.fst = (pre ++ List.replicate k c) ++ runStruct gs := by
        rw [h2, List.append_assoc]
      have hdisj' : ∀ g' ∈ gs, g'.1 ∉ pre ++ List.replicate k c := by
        intro g' hg' hmem
        rcases List.mem_append.mp hmem with h | h
        · exact hdisj g' (List.mem_cons_of_mem _ hg') h
        · have hgc := List.eq_of_mem_replicate h
          have hmm : c ∈ gs.map Prod.fst := by
            rw [← hgc]
            exact List.mem_map_of_mem Prod.fst hg'
          exact (List.nodup_cons.mp hnd).1 hmm
      have := ih (pre ++ List.replicate k c) R1 R2 hre1 hre2 hfil hdisj'
        (List.nodup_cons.mp hnd).2
      have hplen : (pre ++ List.replicate k c).length = pre.length + k := by
        simp
      rw [hplen] at this
      exact this

/-- The stable Flap sort permutes its input. -/
theorem tb_flapSort_perm (l : List Nat) : (flapSort l).Perm l := by
  induction l with
  | nil => exact List.Perm.refl _
  | cons s ss ih =>
    exact (tb_flapInsert_perm s (flapSort ss)).trans (ih.cons s)

/-- The default head of a list is its read at 0. -/
theorem tb_headD_eq_getD (l : List Nat) : l.headD 0 = l.getD 0 0 := by
  cases l <;> rfl

/-- The default head of an append with a nonempty left part. -/
theorem tb_headD_append (l r : List Nat) (h : l ≠ []) :
    (l ++ r).headD 0 = l.headD 0 := by
  cases l with
  | nil => exact absurd rfl h
  | cons a t => rfl

/-- A pointwise map preserves the prefix/suffix relation. -/
theorem tb_prefSuff_map (f : Nat → Nat) (nx : Nat) (gs : List (Nat × Nat))
    (l1 l2 : List Nat) (h : PrefSuff nx gs l1 l2) :
    PrefSuff nx gs (l1.map f) (l2.map f) := by
  obtain ⟨h1, h2, h3⟩ := h
  refine ⟨?_, by simp [h2], ?_⟩
  · rw [← List.map_take, ← List.map_take, h1]
  · rw [← List.map_drop, ← List.map_drop]
    exact tb_sameChunks_map f gs _ _ h3

/-- A shared conditional pointwise map preserves the prefix/suffix
relation. -/
theorem tb_prefSuff_ite (f : Nat → Nat) (c : Prop) [Decidable c] (nx : Nat)
    (gs : List (Nat × Nat)) (l1 l2 : List Nat) (h : PrefSuff nx gs l1 l2) :
    PrefSuff nx gs (if c then l1.map f else l1) (if c then l2.map f else l2) := by
  by_cases hc : c
  · rw [if_pos hc, if_pos hc]
    exact tb_prefSuff_map f nx gs l1 l2 h
  · rw [if_neg hc, if_neg hc]
    exact h

/-- For a symmetric entry the canonical side to move is WHITE. -/
theorem tb_wdlStm_sym (e : WDLEntryT) (pos : BoardP) (hsym : e.symmetric = true) :
    wdlStm e pos = 0 := by
  simp [wdlStm, hsym]

/-- The lead-pawn count is mirror invariant. -/
theorem tb_leadCnt_mirror (e : WDLEntryT) (P : BoardP)
    (hsym : e.symmetric = true) (hstm : P.stm = 0 ∨ P.stm = 1)
    (hboard : ∀ sq, sq < 64 →
      P.pieceAt sq = 0 ∨ (P.pieceAt sq % 8 ≠ 0 ∧ P.pieceAt sq < 16))
    (hp0 : e.hasPawns = true →
      (e.precompAt 0 0).pieces.headD 0 = 1 ∨ (e.precompAt 0 0).pieces.headD 0 = 9) :
    leadCnt e (mirrorB P) = leadCnt e P := by
  unfold leadCnt
  by_cases hpw : e.hasPawns = true
  · rw [if_pos hpw, if_pos hpw]
    exact (tb_lead_mirror_perm e P hsym hstm hboard (hp0 hpw)).length_eq
  · rw [if_neg hpw, if_neg hpw]

/-- The probed file is mirror invariant. -/
theorem tb_tbFile_mirror (e : WDLEntryT) (P : BoardP)
    (hsym : e.symmetric = true) (hstm : P.stm = 0 ∨ P.stm = 1)
    (hboard : ∀ sq, sq < 64 →
      P.pieceAt sq = 0 ∨ (P.pieceAt sq % 8 ≠ 0 ∧ P.pieceAt sq < 16))
    (hp0 : e.hasPawns = true →
      (e.precompAt 0 0).pieces.headD 0 = 1 ∨ (e.precompAt 0 0).pieces.headD 0 = 9)
    (hpz : ∀ sq, sq < 64 → P.pieceAt sq % 8 = 1 → 8 ≤ sq ∧ sq < 56) :
    wdlTbFile e (mirrorB P) = wdlTbFile e P := by
  unfold wdlTbFile
  by_cases hpw : e.hasPawns = true
  · rw [if_pos hpw, if_pos hpw,
      tb_leadSorted_mirror e P hsym hstm hboard (hp0 hpw) hpz]
  · rw [if_neg hpw, if_neg hpw]

/-- The reorder targets are mirror invariant. -/
theorem tb_target_mirror (e : WDLEntryT) (P : BoardP)
    (hsym : e.symmetric = true) (hstm : P.stm = 0 ∨ P.stm = 1)
    (hboard : ∀ sq, sq < 64 →
      P.pieceAt sq = 0 ∨ (P.pieceAt sq % 8 ≠ 0 ∧ P.pieceAt sq < 16))
    (hp0 : e.hasPawns = true →
      (e.precompAt 0 0).pieces.headD 0 = 1 ∨ (e.precompAt 0 0).pieces.headD 0 = 9)
    (hpz : ∀ sq, sq < 64 → P.pieceAt sq % 8 = 1 → 8 ≤ sq ∧ sq < 56) :
    targetCodes e (mirrorB P) = targetCodes e P := by
  unfold targetCodes
  rw [tb_wdlStm_sym e P hsym, tb_wdlStm_sym e (mirrorB P) hsym,
    tb_tbFile_mirror e P hsym hstm hboard hp0 hpz,
    tb_leadCnt_mirror e P hsym hstm hboard hp0]

/-- The slot cut of `encode_remaining` is mirror invariant. -/
theorem tb_next_mirror (e : WDLEntryT) (P : BoardP)
    (hsym : e.symmetric = true) (hstm : P.stm = 0 ∨ P.stm = 1)
    (hboard : ∀ sq, sq < 64 →
      P.pieceAt sq = 0 ∨ (P.pieceAt sq % 8 ≠ 0 ∧ P.pieceAt sq < 16))
    (hp0 : e.hasPawns = true →
      (e.precompAt 0 0).pieces.headD 0 = 1 ∨ (e.precompAt 0 0).pieces.headD 0 = 9) :
    wdlNext e (mirrorB P) = wdlNext e P := by
  unfold wdlNext
  rw [tb_wdlStm_sym e P hsym, tb_wdlStm_sym e (mirrorB P) hsym,
    tb_leadCnt_mirror e P hsym hstm hboard hp0]

/-- After canonicalization and reorder, the `squares[]` arrays of a
position and its mirror agree on the first `next` slots and are
chunkwise permutations beyond. -/
theorem tb_prefSuff_squaresArr (e : WDLEntryT) (P : BoardP)
    (preT : List Nat) (gs : List (Nat × Nat))
    (hsym : e.symmetric = true) (hstm : P.stm = 0 ∨ P.stm = 1)
    (hboard : ∀ sq, sq < 64 →
      P.pieceAt sq = 0 ∨ (P.pieceAt sq % 8 ≠ 0 ∧ P.pieceAt sq < 16))
    (hp0 : e.hasPawns = true →
      (e.precompAt 0 0).pieces.headD 0 = 1 ∨ (e.precompAt 0 0).pieces.headD 0 = 9)
    (hpz : ∀ sq, sq < 64 → P.pieceAt sq % 8 = 1 → 8 ≤ sq ∧ sq < 56)
    (htarget : targetCodes e P = preT ++ runStruct gs)
    (hpreLen : preT.length = (if e.hasPawns then 0 else
      if (e.precompAt 0 0).hasUniquePieces then 3 else 2))
    (hnodup : (preT ++ gs.map Prod.fst).Nodup)
    (hexact : ((poolCollected e P).map Prod.fst).Perm (targetCodes e P)) :
    PrefSuff (wdlNext e P) gs (squaresArr e P) (squaresArr e (mirrorB P)) := by
  have hpoolPerm := tb_pool_mirror e P hsym hstm hboard hp0
  have htargetM := tb_target_mirror e P hsym hstm hboard hp0 hpz
  have hexactM : ((poolCollected e (mirrorB P)).map Prod.fst).Perm (targetCodes e P) :=
    (hpoolPerm.map Prod.fst).trans hexact
  have hR2def : reorderedPool e (mirrorB P) =
      reorderLoop (targetCodes e P) (poolCollected e (mirrorB P)) := by
    unfold reorderedPool
    rw [htargetM]
  have hcodes1 : (reorderedPool e P).map Prod.fst = targetCodes e P :=
    tb_reorderLoop_codes _ _ hexact
  have hcodes2 : (reorderedPool e (mirrorB P)).map Prod.fst = targetCodes e P := by
    rw [hR2def]
    exact tb_reorderLoop_codes _ _ hexactM
  have hperm12 : (reorderedPool e (mirrorB P)).Perm (reorderedPool e P) := by
    rw [hR2def]
    unfold reorderedPool
    exact (tb_reorderLoop_perm _ _).trans
      (hpoolPerm.trans (tb_reorderLoop_perm _ _).symm)
  have hfil : ∀ c, ((reorderedPool e P).filter (fun p => p.1 == c)).Perm
      ((reorderedPool e (mirrorB P)).filter (fun p => p.1 == c)) :=
    fun c => (hperm12.filter _).symm
  have hpreN : preT.Nodup := hnodup.of_append_left
  have hgsN : (gs.map Prod.fst).Nodup := hnodup.of_append_right
  have hdisjPre : ∀ x ∈ preT, x ∉ runStruct gs := fun x hx hmem =>
    (List.disjoint_of_nodup_append hnodup) hx (tb_runStruct_mem gs x hmem)
  have hdisjGs : ∀ g ∈ gs, g.1 ∉ preT := fun g hg hmem =>
    (List.disjoint_of_nodup_append hnodup) hmem (List.mem_map_of_mem Prod.fst hg)
  have hpre_pairs : (reorderedPool e P).take preT.length =
      (reorderedPool e (mirrorB P)).take preT.length :=
    tb_prefix_eq preT _ _ (runStruct gs) (hcodes1.trans htarget)
      (hcodes2.trans htarget) (fun c _ => hfil c) hpreN hdisjPre
  have hchunks : SameChunks gs
      (((reorderedPool e P).drop preT.length).map (fun p => p.2))
      (((reorderedPool e (mirrorB P)).drop preT.length).map (fun p => p.2)) :=
    tb_sameChunks_build gs preT _ _ (hcodes1.trans htarget)
      (hcodes2.trans htarget) hfil hdisjGs hgsN
  have hlen12 : (reorderedPool e P).length = (reorderedPool e (mirrorB P)).length :=
    hperm12.symm.length_eq
  by_cases hpw : e.hasPawns = true
  · have hpre0 : preT = [] := List.length_eq_zero.mp (by rw [hpreLen]; simp [hpw])
    subst hpre0
    have hnx : wdlNext e P = leadCnt e P := by simp [wdlNext, hpw]
    rw [hnx]
    unfold squaresArr
    rw [if_pos hpw, if_pos hpw,
      tb_leadSorted_mirror e P hsym hstm hboard (hp0 hpw) hpz]
    have hlsLen : (leadSorted e P).length = leadCnt e P := by
      unfold leadSorted leadCnt
      rw [if_pos hpw]
      exact (tb_flapSort_perm _).length_eq
    refine ⟨?_, ?_, ?_⟩
    · rw [← hlsLen, List.take_left, List.take_left]
    · simp [hlen12]
    · rw [← hlsLen, List.drop_left, List.drop_left]
      simpa using hchunks
  · have hnx : wdlNext e P = preT.length := by
      rw [hpreLen]
      unfold wdlNext
      rw [tb_wdlStm_sym e P hsym, if_neg hpw, if_neg hpw]
    rw [hnx]
    unfold squaresArr
    rw [if_neg hpw, if_neg hpw]
    simp only [List.nil_append]
    refine ⟨?_, ?_, ?_⟩
    · rw [← List.map_take, ← List.map_take, hpre_pairs]
    · simp [hlen12]
    · rw [← List.map_drop, ← List.map_drop]
      exact hchunks

/-- The `squares[]` array splits as lead pawns plus reordered pieces. -/
theorem tb_squaresArr_length (e : WDLEntryT) (pos : BoardP) :
    (squaresArr e pos).length = leadCnt e pos + (reorderedPool e pos).length := by
  unfold squaresArr
  by_cases hpw : e.hasPawns = true
  · rw [if_pos hpw]
    have hlsLen : (leadSorted e pos).length = leadCnt e pos := by
      unfold leadSorted leadCnt
      rw [if_pos hpw]
      exact (tb_flapSort_perm _).length_eq
    simp [hlsLen]
  · rw [if_neg hpw]
    simp [leadCnt, hpw]

/-- Under the exact-match hypothesis the reordered pool is as long as
the target list. -/
theorem tb_reorderedPool_length (e : WDLEntryT) (pos : BoardP)
    (hexact : ((poolCollected e pos).map Prod.fst).Perm (targetCodes e pos)) :
    (reorderedPool e pos).length = (targetCodes e pos).length := by
  have h1 := (tb_reorderLoop_perm (targetCodes e pos) (poolCollected e pos)).length_eq
  have h2 := hexact.length_eq
  rw [List.length_map] at h2
  unfold reorderedPool
  rw [h1, h2]

/-- The horizontal flip preserves length. -/
theorem tb_hFlipped_length (e : WDLEntryT) (pos : BoardP) :
    (hFlipped e pos).length = (squaresArr e pos).length := by
  simp only [hFlipped]
  split <;> simp

/-- The vertical flip preserves length. -/
theorem tb_vFlipped_length (e : WDLEntryT) (pos : BoardP) :
    (vFlipped e pos).length = (squaresArr e pos).length := by
  simp only [vFlipped]
  split <;> simp [tb_hFlipped_length]

/-- The full normalization preserves length. -/
theorem tb_canon_length (e : WDLEntryT) (pos : BoardP) :
    (canonSquares e pos).length = (squaresArr e pos).length := by
  unfold canonSquares
  split
  · exact tb_vFlipped_length e pos
  · rw [tb_dFlipFrom_eq]
    by_cases hd : diagDecision
        (if (e.precompAt (wdlStm e pos) 0).hasUniquePieces then 3 else 2) 0
        (vFlipped e pos) = true
    · rw [if_pos hd, List.length_map]
      exact tb_vFlipped_length e pos
    · rw [if_neg hd]
      exact tb_vFlipped_length e pos

/-- The normalized `squares[]` arrays of a position and its mirror agree
on the first `next` slots and are chunkwise permutations beyond. -/
theorem tb_prefSuff_canon (e : WDLEntryT) (P : BoardP)
    (preT : List Nat) (gs : List (Nat × Nat))
    (hsym : e.symmetric = true) (hstm : P.stm = 0 ∨ P.stm = 1)
    (hboard : ∀ sq, sq < 64 →
      P.pieceAt sq = 0 ∨ (P.pieceAt sq % 8 ≠ 0 ∧ P.pieceAt sq < 16))
    (hp0 : e.hasPawns = true →
      (e.precompAt 0 0).pieces.headD 0 = 1 ∨ (e.precompAt 0 0).pieces.headD 0 = 9)
    (hpz : ∀ sq, sq < 64 → P.pieceAt sq % 8 = 1 → 8 ≤ sq ∧ sq < 56)
    (htarget : targetCodes e P = preT ++ runStruct gs)
    (hpreLen : preT.length = (if e.hasPawns then 0 else
      if (e.precompAt 0 0).hasUniquePieces then 3 else 2))
    (hnodup : (preT ++ gs.map Prod.fst).Nodup)
    (hexact : ((poolCollected e P).map Prod.fst).Perm (targetCodes e P))
    (hleadne : e.hasPawns = true → leadCollected e P ≠ []) :
    PrefSuff (wdlNext e P) gs (canonSquares e P) (canonSquares e (mirrorB P)) := by
  have hps := tb_prefSuff_squaresArr e P preT gs hsym hstm hboard hp0 hpz
    htarget hpreLen hnodup hexact
  have hnx1 : 1 ≤ wdlNext e P := by
    unfold wdlNext
    by_cases hpw : e.hasPawns = true
    · rw [if_pos hpw]
      unfold leadCnt
      rw [if_pos hpw]
      exact List.length_pos.mpr (hleadne hpw)
    · rw [if_neg hpw]
      split <;> omega
  have hhead : (squaresArr e P).headD 0 = (squaresArr e (mirrorB P)).headD 0 := by
    rw [tb_headD_eq_getD, tb_headD_eq_getD]
    exact tb_getD_of_take_eq (wdlNext e P) 0 _ _ hnx1 hps.1
  have hhf : PrefSuff (wdlNext e P) gs (hFlipped e P) (hFlipped e (mirrorB P)) := by
    simp only [hFlipped]
    rw [hhead]
    exact tb_prefSuff_ite _ _ _ _ _ _ hps
  have hheadh : (hFlipped e P).headD 0 = (hFlipped e (mirrorB P)).headD 0 := by
    rw [tb_headD_eq_getD, tb_headD_eq_getD]
    exact tb_getD_of_take_eq (wdlNext e P) 0 _ _ hnx1 hhf.1
  have hvf : PrefSuff (wdlNext e P) gs (vFlipped e P) (vFlipped e (mirrorB P)) := by
    simp only [vFlipped]
    rw [hheadh]
    exact tb_prefSuff_ite _ _ _ _ _ _ hhf
  by_cases hpw : e.hasPawns = true
  · unfold canonSquares
    rw [if_pos hpw, if_pos hpw]
    exact hvf
  · unfold canonSquares
    rw [if_neg hpw, if_neg hpw,
      tb_wdlStm_sym e P hsym, tb_wdlStm_sym e (mirrorB P) hsym,
      tb_dFlipFrom_eq, tb_dFlipFrom_eq]
    have hnxL : wdlNext e P =
        (if (e.precompAt 0 0).hasUniquePieces then 3 else 2) := by
      unfold wdlNext
      rw [tb_wdlStm_sym e P hsym, if_neg hpw]
    have hdec : diagDecision
          (if (e.precompAt 0 0).hasUniquePieces then 3 else 2) 0 (vFlipped e P) =
        diagDecision
          (if (e.precompAt 0 0).hasUniquePieces then 3 else 2) 0
          (vFlipped e (mirrorB P)) := by
      apply tb_diagDecision_congr _ _ _ 0 hvf.2.1
      have := hvf.1
      rw [hnxL] at this
      simpa using this
    rw [hdec]
    exact tb_prefSuff_ite _ _ _ _ _ _ hvf

/-- `ptwistInsert` inserts. -/
theorem tb_ptwistInsert_perm (s : Nat) (l : List Nat) :
    (ptwistInsert s l).Perm (s :: l) := by
  induction l with
  | nil => exact List.Perm.refl _
  | cons t ts ih =>
    rw [ptwistInsert]
    split
    · exact List.Perm.refl _
    · exact (ih.cons t).trans (List.Perm.swap s t ts)

/-- The Ptwist sort permutes its input. -/
theorem tb_ptwistSort_perm (l : List Nat) : (ptwistSort l).Perm l := by
  induction l with
  | nil => exact List.Perm.refl _
  | cons s ss ih =>
    exact (tb_ptwistInsert_perm s (ptwistSort ss)).trans (ih.cons s)

/-- Chunkwise permutation is symmetric. -/
theorem tb_sameChunks_symm :
    ∀ (gs : List (Nat × Nat)) (l1 l2 : List Nat),
      SameChunks gs l1 l2 → SameChunks gs l2 l1 := by
  intro gs
  induction gs with
  | nil =>
    intro l1 l2 h
    rw [SameChunks] at h ⊢
    exact ⟨h.2, h.1⟩
  | cons g gs ih =>
    intro l1 l2 h
    rw [SameChunks] at h ⊢
    obtain ⟨h1, h2, hp, hr⟩ := h
    exact ⟨h2, h1, hp.symm, ih _ _ hr⟩

/-- The final lead slots have the lead-pawn count's length. -/
theorem tb_leadFinal_length (e : WDLEntryT) (pos : BoardP) :
    (leadFinal e pos).length =
      ((canonSquares e pos).take (leadCnt e pos)).length := by
  unfold leadFinal
  cases h : (canonSquares e pos).take (leadCnt e pos) with
  | nil => rfl
  | cons s0 rest =>
    simp [(tb_ptwistSort_perm rest).length_eq]

/-- The table index of the WDL `probe_table` is mirror invariant. -/
theorem tb_wdlIdxFull_mirror (e : WDLEntryT) (P : BoardP)
    (preT : List Nat) (gs : List (Nat × Nat))
    (hsym : e.symmetric = true) (hstm : P.stm = 0 ∨ P.stm = 1)
    (hboard : ∀ sq, sq < 64 →
      P.pieceAt sq = 0 ∨ (P.pieceAt sq % 8 ≠ 0 ∧ P.pieceAt sq < 16))
    (hp0 : e.hasPawns = true →
      (e.precompAt 0 0).pieces.headD 0 = 1 ∨ (e.precompAt 0 0).pieces.headD 0 = 9)
    (hpz : ∀ sq, sq < 64 → P.pieceAt sq % 8 = 1 → 8 ≤ sq ∧ sq < 56)
    (htarget : targetCodes e P = preT ++ runStruct gs)
    (hpreLen : preT.length = (if e.hasPawns then 0 else
      if (e.precompAt 0 0).hasUniquePieces then 3 else 2))
    (hnodup : (preT ++ gs.map Prod.fst).Nodup)
    (hexact : ((poolCollected e P).map Prod.fst).Perm (targetCodes e P))
    (hleadne : e.hasPawns = true → leadCollected e P ≠ [])
    (hsizes : GroupSizesOK (e.precompAt 0 (wdlTbFile e P)).norm gs (wdlNext e P)
      (if e.hasPawns then e.pawnCount1 else 0))
    (hpos : ∀ g ∈ gs, 1 ≤ g.2) :
    wdlIdxFull e (mirrorB P) = wdlIdxFull e P := by
  obtain ⟨htk, hln, hch⟩ := tb_prefSuff_canon e P preT gs hsym hstm hboard hp0 hpz
    htarget hpreLen hnodup hexact hleadne
  have hnextM := tb_next_mirror e P hsym hstm hboard hp0
  have hstmP := tb_wdlStm_sym e P hsym
  have hstmM := tb_wdlStm_sym e (mirrorB P) hsym
  have htbf := tb_tbFile_mirror e P hsym hstm hboard hp0 hpz
  have hcntM := tb_leadCnt_mirror e P hsym hstm hboard hp0
  have hnxlen : wdlNext e P ≤ (canonSquares e P).length := by
    rw [tb_canon_length, tb_squaresArr_length,
      tb_reorderedPool_length e P hexact, htarget]
    by_cases hpw : e.hasPawns = true
    · have hnx : wdlNext e P = leadCnt e P := by simp [wdlNext, hpw]
      omega
    · have hnx : wdlNext e P = preT.length := by
        rw [hpreLen]
        unfold wdlNext
        rw [tb_wdlStm_sym e P hsym, if_neg hpw, if_neg hpw]
      have hcnt0 : leadCnt e P = 0 := by simp [leadCnt, hpw]
      rw [hnx, hcnt0]
      simp
  have hleadFin : leadFinal e (mirrorB P) = leadFinal e P := by
    unfold leadFinal
    rw [hcntM]
    by_cases hpw : e.hasPawns = true
    · have hnx : wdlNext e P = leadCnt e P := by simp [wdlNext, hpw]
      rw [← hnx, ← htk]
    · simp [leadCnt, hpw]
  have hidx0 : wdlIdx0 e (mirrorB P) = wdlIdx0 e P := by
    simp only [wdlIdx0]
    by_cases hpw : e.hasPawns = true
    · rw [if_pos hpw, if_pos hpw, hcntM, hleadFin]
    · rw [if_neg hpw, if_neg hpw, hstmP, hstmM]
      have hnxL : wdlNext e P =
          (if (e.precompAt 0 0).hasUniquePieces then 3 else 2) := by
        unfold wdlNext
        rw [hstmP, if_neg hpw]
      by_cases hu : (e.precompAt 0 0).hasUniquePieces = true
      · have hb : 3 ≤ wdlNext e P := by rw [hnxL, if_pos hu]
        have h0 := (tb_getD_of_take_eq _ 0 _ _ (by omega) htk).symm
        have h1 := (tb_getD_of_take_eq _ 1 _ _ (by omega) htk).symm
        have h2 := (tb_getD_of_take_eq _ 2 _ _ (by omega) htk).symm
        rw [if_pos hu, if_pos hu, h0, h1, h2]
      · have hb : 2 ≤ wdlNext e P := by rw [hnxL]; split <;> omega
        have h0 := (tb_getD_of_take_eq _ 0 _ _ (by omega) htk).symm
        have h1 := (tb_getD_of_take_eq _ 1 _ _ (by omega) htk).symm
        rw [if_neg hu, if_neg hu, h0, h1]
  have hproc : (if e.hasPawns then leadFinal e (mirrorB P)
      else (canonSquares e (mirrorB P)).take (wdlNext e P)) =
      (if e.hasPawns then leadFinal e P
      else (canonSquares e P).take (wdlNext e P)) := by
    by_cases hpw : e.hasPawns = true
    · rw [if_pos hpw, if_pos hpw, hleadFin]
    · rw [if_neg hpw, if_neg hpw, ← htk]
  have hprocLen : (if e.hasPawns then leadFinal e P
      else (canonSquares e P).take (wdlNext e P)).length = wdlNext e P := by
    by_cases hpw : e.hasPawns = true
    · rw [if_pos hpw, tb_leadFinal_length]
      have hnx : wdlNext e P = leadCnt e P := by simp [wdlNext, hpw]
      rw [List.length_take]
      rw [hnx] at hnxlen ⊢
      omega
    · rw [if_neg hpw, List.length_take]
      omega
  have hdl : ((canonSquares e (mirrorB P)).drop (wdlNext e P)).length =
      ((canonSquares e P).drop (wdlNext e P)).length := by
    rw [List.length_drop, List.length_drop, hln]
  have henc : encRem (e.precompAt 0 (wdlTbFile e P)).norm
      (e.precompAt 0 (wdlTbFile e P)).factor
      (((canonSquares e P).drop (wdlNext e P)).length + 1)
      (if e.hasPawns then e.pawnCount1 else 0)
      (if e.hasPawns then leadFinal e P
        else (canonSquares e P).take (wdlNext e P))
      ((canonSquares e (mirrorB P)).drop (wdlNext e P))
      (wdlIdx0 e P * (e.precompAt 0 (wdlTbFile e P)).factor 0) =
      encRem (e.precompAt 0 (wdlTbFile e P)).norm
      (e.precompAt 0 (wdlTbFile e P)).factor
      (((canonSquares e P).drop (wdlNext e P)).length + 1)
      (if e.hasPawns then e.pawnCount1 else 0)
      (if e.hasPawns then leadFinal e P
        else (canonSquares e P).take (wdlNext e P))
      ((canonSquares e P).drop (wdlNext e P))
      (wdlIdx0 e P * (e.precompAt 0 (wdlTbFile e P)).factor 0) := by
    apply tb_encRem_congr
    rw [hprocLen]
    apply tb_chunksPerm_build (e.precompAt 0 (wdlTbFile e P)).norm gs
    · rw [hdl]
      omega
    · exact tb_sameChunks_symm gs _ _ hch
    · exact hsizes
    · exact hpos
  simp only [wdlIdxFull]
  rw [hstmP, hstmM, htbf, hnextM, hidx0, hproc, hdl, henc]

/-- The capture loop of `probe_ab` is a congruence for mirror-similar
move lists (given the congruence for the children). -/
theorem tb_probeABLoop_congr (n : Nat)
    (H : ∀ t t', sizeOf t ≤ n → MirrorSim t t' →
      ∀ a b, probeAB t a b = probeAB t' a b) :
    ∀ (l l' : List (MAttr × PTree)), MirrorSimL l l' →
      (∀ p ∈ l, sizeOf p.2 ≤ n) →
      ∀ wt a b, probeABLoop wt l a b = probeABLoop wt l' a b := by
  intro l
  induction l with
  | nil =>
    intro l' hsim hb wt a b
    cases hsim
    rfl
  | cons p rest ih =>
    intro l' hsim hb wt a b
    cases hsim with
    | cons m ch ch' rest0 rest' hch hrest =>
      rw [probeABLoop, probeABLoop]
      have hch2 : ∀ a b, probeAB ch a b = probeAB ch' a b :=
        fun a b => H ch ch' (by simpa using hb (m, ch) (by simp)) hch a b
      have ihr : ∀ a b, probeABLoop wt rest a b = probeABLoop wt rest' a b :=
        fun a b => ih rest' hrest
          (fun p hp => hb p (List.mem_cons_of_mem _ hp)) wt a b
      by_cases hm : (m.isCap && !m.isEp && m.isLegal) = true
      · rw [if_pos hm, if_pos hm]
        simp only [hch2, ihr]
      · rw [if_neg hm, if_neg hm]
        exact ihr a b

/-- `probe_ab` is a congruence for mirror-similar trees (strong
induction on the tree size). -/
theorem tb_probeAB_congr_aux :
    ∀ (n : Nat) (t t' : PTree), sizeOf t ≤ n → MirrorSim t t' →
      ∀ a b, probeAB t a b = probeAB t' a b := by
  intro n
  induction n with
  | zero =>
    intro t t' hst
    exfalso
    cases t
    simp_arith at hst
  | succ n ih =>
    intro t t' hst hsim a b
    cases hsim with
    | node ck ep wt dt dt' cu cu' c c' e e' nv nv' q q' hcu hc he hn hq =>
      simp only [probeAB]
      refine tb_probeABLoop_congr n ih _ _ ?_ ?_ wt a b
      · cases ck
        · simpa using hcu
        · simpa using he
      · intro p hp
        have h1 : sizeOf p < sizeOf (if ck then e else cu) :=
          List.sizeOf_lt_of_mem hp
        have h2 : sizeOf p.2 < sizeOf p := by
          obtain ⟨mm, chp⟩ := p
          simp_arith
        have h3 : sizeOf (if ck then e else cu)
            < sizeOf (PTree.node ck ep wt dt cu c e nv q) := by
          cases ck <;> simp_arith
        omega

/-- `probe_ab` is a congruence for mirror-similar trees. -/
theorem tb_probeAB_congr (t t' : PTree) (h : MirrorSim t t') (a b : Int) :
    probeAB t a b = probeAB t' a b :=
  tb_probeAB_congr_aux (sizeOf t) t t' (le_refl _) h a b

/-- The legal-move rescans agree on mirror-similar move lists (the
attributes are equal pointwise). -/
theorem tb_hasLegal_congr :
    ∀ (l l' : List (MAttr × PTree)), MirrorSimL l l' →
      hasLegalNonEp l = hasLegalNonEp l' ∧ hasLegalAny l = hasLegalAny l' := by
  intro l
  induction l with
  | nil =>
    intro l' h
    cases h
    exact ⟨rfl, rfl⟩
  | cons p rest ih =>
    intro l' h
    cases h with
    | cons m ch ch' rest0 rest' hch hrest =>
      obtain ⟨h1, h2⟩ := ih rest' hrest
      refine ⟨?_, ?_⟩
      · unfold hasLegalNonEp at h1 ⊢
        simp only [List.any_cons, h1]
      · unfold hasLegalAny at h2 ⊢
        simp only [List.any_cons, h2]

/-- The en-passant loop is a congruence for mirror-similar move lists. -/
theorem tb_epLoop_congr (n : Nat)
    (H : ∀ t t', sizeOf t ≤ n → MirrorSim t t' →
      ∀ a b, probeAB t a b = probeAB t' a b) :
    ∀ (l l' : List (MAttr × PTree)), MirrorSimL l l' →
      (∀ p ∈ l, sizeOf p.2 ≤ n) →
      ∀ v1 s, epLoop l v1 s = epLoop l' v1 s := by
  intro l
  induction l with
  | nil =>
    intro l' hsim hb v1 s
    cases hsim
    rfl
  | cons p rest ih =>
    intro l' hsim hb v1 s
    cases hsim with
    | cons m ch ch' rest0 rest' hch hrest =>
      rw [epLoop, epLoop]
      have hch2 : ∀ a b, probeAB ch a b = probeAB ch' a b :=
        fun a b => H ch ch' (by simpa using hb (m, ch) (by simp)) hch a b
      have ihr : ∀ v1 s, epLoop rest v1 s = epLoop rest' v1 s :=
        fun v1 s => ih rest' hrest
          (fun p hp => hb p (List.mem_cons_of_mem _ hp)) v1 s
      by_cases hm : (m.isEp && m.isLegal) = true
      · rw [if_pos hm, if_pos hm]
        simp only [hch2, ihr]
      · rw [if_neg hm, if_neg hm]
        exact ihr v1 s

/-- `Tablebases::probe_wdl` is a congruence for mirror-similar trees:
mirroring commutes with the whole orchestrator once the table reads
agree. -/
theorem tb_probeWDL_congr (t t' : PTree) (hsim : MirrorSim t t') :
    probeWDL t = probeWDL t' := by
  cases hsim with
  | node ck ep wt dt dt' cu cu' c c' e e' nv nv' q q' hcu hc he hn hq =>
    have hAB : probeAB (.node ck ep wt dt cu c e nv q) (-2) 2
        = probeAB (.node ck ep wt dt' cu' c' e' nv' q') (-2) 2 :=
      tb_probeAB_congr _ _
        (MirrorSim.node ck ep wt dt dt' cu cu' c c' e e' nv nv' q q'
          hcu hc he hn hq) (-2) 2
    have hlist : MirrorSimL (if ck then e else c) (if ck then e' else c') := by
      cases ck
      · simpa using hc
      · simpa using he
    have hbEp : ∀ p ∈ (if ck then e else c),
        sizeOf p.2 ≤ sizeOf (PTree.node ck ep wt dt cu c e nv q) := by
      intro p hp
      have h1 : sizeOf p < sizeOf (if ck then e else c) :=
        List.sizeOf_lt_of_mem hp
      have h2 : sizeOf p.2 < sizeOf p := by
        obtain ⟨mm, chp⟩ := p
        simp_arith
      have h3 : sizeOf (if ck then e else c)
          < sizeOf (PTree.node ck ep wt dt cu c e nv q) := by
        cases ck <;> simp_arith
      omega
    have hep : ∀ v1 s, epLoop (if ck then e else c) v1 s
        = epLoop (if ck then e' else c') v1 s :=
      tb_epLoop_congr (sizeOf (PTree.node ck ep wt dt cu c e nv q))
        (fun t t' hsz hs a b => tb_probeAB_congr_aux _ t t' hsz hs a b)
        _ _ hlist hbEp
    have hleg := (tb_hasLegal_congr _ _ hlist).1
    have hlegq := (tb_hasLegal_congr _ _ hq).2
    simp only [probeWDL]
    rw [hAB]
    simp only [hep, hleg, hlegq]

/-- **C1.** For every position `P` whose material is symmetric,
`probe_wdl` applied to `P` and to `mirror(P)` (vertical flip of all
squares combined with colour swap) return the same WDL score, because
`probe_table` canonicalizes a black-to-move position by
`flipColor = stm * 8` and `flipSquares = stm * 070` before encoding:
(i) the table read of `probe_table` is mirror invariant — canonical
`stm`, `tbFile` and the full encoded index agree between `P` and
`mirror(P)` for every decompression oracle `d`, under the bucket
well-formedness hypotheses (stored pieces matching the board material,
pawns on pawn ranks, `norm[]`-consistent group sizes); and (ii) the
orchestrator `Tablebases::probe_wdl` computes equal results on any two
mirror-similar game trees (equal move attributes and equal table reads,
which is what mirroring a position produces by (i)). -/
theorem probe_wdl_mirror_invariance (e : WDLEntryT) (P : BoardP)
    (preT : List Nat) (gs : List (Nat × Nat)) (d : Nat → Nat → Nat → Int)
    (hsym : e.symmetric = true) (hstm : P.stm = 0 ∨ P.stm = 1)
    (hboard : ∀ sq, sq < 64 →
      P.pieceAt sq = 0 ∨ (P.pieceAt sq % 8 ≠ 0 ∧ P.pieceAt sq < 16))
    (hp0 : e.hasPawns = true →
      (e.precompAt 0 0).pieces.headD 0 = 1 ∨ (e.precompAt 0 0).pieces.headD 0 = 9)
    (hpz : ∀ sq, sq < 64 → P.pieceAt sq % 8 = 1 → 8 ≤ sq ∧ sq < 56)
    (htarget : targetCodes e P = preT ++ runStruct gs)
    (hpreLen : preT.length = (if e.hasPawns then 0 else
      if (e.precompAt 0 0).hasUniquePieces then 3 else 2))
    (hnodup : (preT ++ gs.map Prod.fst).Nodup)
    (hexact : ((poolCollected e P).map Prod.fst).Perm (targetCodes e P))
    (hleadne : e.hasPawns = true → leadCollected e P ≠ [])
    (hsizes : GroupSizesOK (e.precompAt 0 (wdlTbFile e P)).norm gs (wdlNext e P)
      (if e.hasPawns then e.pawnCount1 else 0))
    (hpos : ∀ g ∈ gs, 1 ≤ g.2) :
    probeTableWDL e (mirrorB P) d = probeTableWDL e P d ∧
    (∀ t t', MirrorSim t t' → probeWDL t = probeWDL t') := by
  constructor
  · unfold probeTableWDL
    rw [tb_wdlStm_sym e P hsym, tb_wdlStm_sym e (mirrorB P) hsym,
      tb_tbFile_mirror e P hsym hstm hboard hp0 hpz,
      tb_wdlIdxFull_mirror e P preT gs hsym hstm hboard hp0 hpz htarget
        hpreLen hnodup hexact hleadne hsizes hpos]
  · exact fun t t' h => tb_probeWDL_congr t t' h

/-- The C1 invariance at a concrete symmetric pawnless 4-piece entry,
black to move, with every hypothesis discharged by evaluation. -/
theorem probe_wdl_mirror_invariance_witness :
    probeTableWDL c1e (mirrorB c1P) c1d = probeTableWDL c1e c1P c1d :=
  (probe_wdl_mirror_invariance c1e c1P [6, 4, 14] [(12, 1)] c1d rfl
    (Or.inr rfl) (by decide) (by decide) (by decide) (by decide) rfl
    (by decide) (by decide) (by decide) ⟨by decide, trivial⟩ (by decide)).1

/-- **C2.** For every DTZ side bucket and raw decoded byte and
`wdl ∈ {-2,-1,0,1,2}`: if the `Mapped` flag is set the result is derived
from `map[map_idx[WDLMap[wdl+2]] + raw]` with `WDLMap = [1,3,0,2,0]`
(otherwise from the raw byte itself), and that value is multiplied by 2
exactly when (`wdl` is `WDLWin` and `WinPlies` is clear) or (`wdl` is
`WDLLoss` and `LossPlies` is clear) or `wdl` is cursed. -/
theorem map_score_spec (e : DTZSide) (raw : Nat) (wdl : Int)
    (hw : -2 ≤ wdl ∧ wdl ≤ 2) :
    map_score e raw wdl =
      (if (wdl = WDLWin ∧ e.flags &&& FlagWinPlies = 0)
          ∨ (wdl = WDLLoss ∧ e.flags &&& FlagLossPlies = 0)
          ∨ wdl = WDLCursedWin ∨ wdl = WDLCursedLoss then 2 else 1)
        * (if e.flags &&& FlagMapped ≠ 0 then
            e.mapArr (e.mapIdx (WDLMap.getD (wdl + 2).toNat 0) + raw)
          else raw) := by
  unfold map_score
  dsimp only
  split <;> split <;> ring

/-- Witness for `map_score_spec` at a concrete input: flags = `Mapped`,
`map = id`, `map_idx i = 10 * i`, raw byte 7, `wdl = WDLWin`
(so `WDLMap[4] = 0`, `map_idx[0] = 0`, and the result is
`2 * (0 + 7) = 14`). -/
theorem map_score_spec_witness :
    ((-2 : Int) ≤ 2 ∧ (2 : Int) ≤ 2) ∧
      map_score ⟨FlagMapped, id, fun i => 10 * i⟩ 7 2 = 14 :=
  ⟨⟨by norm_num, le_refl 2⟩,
    (map_score_spec ⟨FlagMapped, id, fun i => 10 * i⟩ 7 2
      ⟨by norm_num, le_refl 2⟩).trans (by decide)⟩

end Tbprobe
